import Mathlib

/-!
# flsplit: a shallow embedding of `main.go`

`main.go` declares the FL Studio project container as Go structs whose binary
layout is given by `restruct` struct tags, implements the VLQ integer codec by
hand (`VLQ.SizeOf`, `VLQ.Pack`, `VLQ.Unpack`), and drives a two phase pipeline
(`main` discovers the playlist tracks, `filterwrite` emits one filtered copy of
the project per track).

Conventions of the embedding.

* A byte buffer is a `List Nat`; `IsBytes buf` says every element is below 256.
  Machine integers are `Nat` (or `Int` for Go `int`, taken to be 64 bit), with an
  explicit `%` wherever the Go code can wrap.
* A decoder takes the remaining buffer and returns the decoded value together
  with the rest of the buffer, or `none` where the Go code panics (an index or a
  slice bound out of range; `restruct.Unpack` and `restruct.Pack` recover the
  panic and return it as an error).
* The struct tags are read as the layout they declare: fields are read and
  written in declaration order, `struct-if` guards a field, `struct-switch`
  selects one case by the chunk tag, `struct-while:"!_eof"` repeats an element
  until the remaining buffer is empty, `struct-size` gives the element count of
  a slice when it is read (packing a slice of another length fails), a `string`
  declared `[4]byte` is read up to its first NUL byte and written padded with
  NUL bytes, and a `struct:"parent"` field occupies no bytes.
* Loops are structural recursions on a fuel argument; the fuel passed by the
  callers is shown to suffice where a claim needs the loop to finish.
-/

namespace FLSplit

/-! ## Byte buffers and fixed width little endian integers -/

/-- Every element of the buffer is a byte. -/
def IsBytes (buf : List Nat) : Prop := ∀ b ∈ buf, b < 256

instance (buf : List Nat) : Decidable (IsBytes buf) :=
  inferInstanceAs (Decidable (∀ b ∈ buf, b < 256))

/-- Go `buf[i] = b`: `none` stands for the index-out-of-range panic. -/
def setByte (buf : List Nat) (i : Nat) (b : Nat) : Option (List Nat) :=
  if i < buf.length then some (buf.set i b) else none

/-- Read one byte. -/
def readU8 : List Nat → Option (Nat × List Nat)
  | b :: rest => some (b, rest)
  | [] => none

/-- Read a little endian `uint16`. -/
def readU16 : List Nat → Option (Nat × List Nat)
  | b0 :: b1 :: rest => some (b0 + b1 * 256, rest)
  | _ => none

/-- Read a little endian `uint32`. -/
def readU32 : List Nat → Option (Nat × List Nat)
  | b0 :: b1 :: b2 :: b3 :: rest =>
    some (b0 + b1 * 256 + b2 * 65536 + b3 * 16777216, rest)
  | _ => none

/-- Read `n` raw bytes. -/
def readBytes (n : Nat) (buf : List Nat) : Option (List Nat × List Nat) :=
  if n ≤ buf.length then some (buf.take n, buf.drop n) else none

/-- Write a `uint8`. -/
def putU8 (v : Nat) : List Nat := [v % 256]

/-- Write a little endian `uint16`. -/
def putU16 (v : Nat) : List Nat := [v % 256, v / 256 % 256]

/-- Write a little endian `uint32`. -/
def putU32 (v : Nat) : List Nat :=
  [v % 256, v / 256 % 256, v / 65536 % 256, v / 16777216 % 256]

/-! ## VLQ (`main.go` lines 17-68) -/

/-- Go `type VLQ struct { Value uint64 }`. -/
structure VLQ where
  Value : Nat
deriving DecidableEq, Repr

/-- The `for` loop of `VLQ.SizeOf`: `n >>= 7; if n > 0 { result++ } else { return result }`.
The fuel is never exhausted before the loop returns when it starts at `n`
(fuel `0` forces `n = 0`, where the loop returns `result` as well). -/
def VLQ.sizeLoop : Nat → Nat → Nat → Nat
  | 0, _, result => result
  | fuel + 1, n, result =>
    let n := n >>> 7
    if n > 0 then VLQ.sizeLoop fuel n (result + 1) else result

/-- Go `func (vlq *VLQ) SizeOf() int`. -/
def VLQ.SizeOf (vlq : VLQ) : Nat := VLQ.sizeLoop vlq.Value vlq.Value 1

/-- The `for n != 0` loop of `VLQ.Pack`, on the buffer, the index `i` and `n`;
it returns the buffer and the final `i`. -/
def VLQ.packLoop : Nat → List Nat → Nat → Nat → Option (List Nat × Nat)
  | 0, buf, i, _ => some (buf, i)
  | fuel + 1, buf, i, n =>
    if n ≠ 0 then do
      let prev ← buf[i - 1]?
      let buf ← setByte buf (i - 1) (prev ||| 0x80)
      let buf ← setByte buf i (n &&& 0x7F)
      VLQ.packLoop fuel buf (i + 1) (n >>> 7)
    else some (buf, i)

/-- Go `func (vlq *VLQ) Pack(buf []byte, order) ([]byte, error)`. The result is
the buffer after the writes and the returned slice `buf[i:]`. -/
def VLQ.Pack (vlq : VLQ) (buf : List Nat) : Option (List Nat × List Nat) := do
  let n := vlq.Value
  let buf ← setByte buf 0 (n &&& 0x7F)
  let n := n >>> 7
  let (buf, i) ← VLQ.packLoop n buf 1 n
  some (buf, buf.drop i)

/-- The `for` loop of `VLQ.Unpack`; the head of the list is `buf[i]`. The shift
of a `uint64` is taken modulo `2 ^ 64`. -/
def VLQ.unpackLoop : List Nat → Nat → Nat → Option (Nat × List Nat)
  | [], _, _ => none
  | b :: rest, n, shift =>
    let n := n ||| (((b &&& 0x7F) <<< shift) % 2 ^ 64)
    if b &&& 0x80 = 0 then some (n, rest) else VLQ.unpackLoop rest n (shift + 7)

/-- Go `func (vlq *VLQ) Unpack(buf []byte, order) ([]byte, error)`: the decoded
value and the returned slice `buf[i:]`. -/
def VLQ.Unpack (buf : List Nat) : Option (VLQ × List Nat) :=
  (VLQ.unpackLoop buf 0 0).map fun r => (⟨r.1⟩, r.2)

/-- The bytes a `VLQ` field contributes to a packed buffer: `restruct.Pack`
allocates a zeroed buffer of the size given by the sizer (`VLQ.SizeOf` for this
field), hands the part not yet written to `VLQ.Pack`, and goes on writing at the
slice `VLQ.Pack` returns. -/
def VLQ.write (vlq : VLQ) : Option (List Nat) :=
  (VLQ.Pack vlq (List.replicate vlq.SizeOf 0)).map fun r =>
    r.1.take (r.1.length - r.2.length)

/-! ## The container (`main.go` lines 70-139) -/

/-- Go `type EventBytes struct`. -/
structure EventBytes where
  Len : VLQ
  Data : List Nat
deriving DecidableEq, Repr

/-- Go `type Event struct`; the field `Type` is named `Typ` here. -/
structure Event where
  Typ : Nat
  Int8 : Nat
  Int16 : Nat
  Int32 : Nat
  Bytes : EventBytes
deriving DecidableEq, Repr

/-- Go `type PlaylistItem struct`. -/
structure PlaylistItem where
  StartTime : Nat
  PatternBase : Nat
  PatternID : Nat
  Length : Nat
  Track : Nat
  Unknown1 : Nat
  Unknown2 : Nat
  Unknown3 : Nat
  Unknown4 : Nat
  Unknown5 : Nat
deriving DecidableEq, Repr

/-- Go `type PlaylistItemsEvent struct`. -/
structure PlaylistItemsEvent where
  Items : List PlaylistItem
deriving DecidableEq, Repr

/-- Go `type ChunkFLhd struct` (the `Parent` pointer occupies no bytes; `Typ` is
the field `Type`). -/
structure ChunkFLhd where
  Typ : Nat
  ChannelCount : Nat
  Timebase : Nat
deriving DecidableEq, Repr

/-- Go `type ChunkFLdt struct`. -/
structure ChunkFLdt where
  Event : List Event
deriving DecidableEq, Repr

/-- Go `type ChunkUnk struct`. -/
structure ChunkUnk where
  Data : List Nat
deriving DecidableEq, Repr

/-- The anonymous `Data struct` of `Chunk`: three pointers, `none` for `nil`. -/
structure ChunkData where
  FLhd : Option ChunkFLhd
  FLdt : Option ChunkFLdt
  Unknown : Option ChunkUnk
deriving DecidableEq, Repr

/-- Go `type Chunk struct`; `Typ` is the field `Type`, the 4 byte tag. -/
structure Chunk where
  Typ : List Nat
  Len : Nat
  Data : ChunkData
deriving DecidableEq, Repr

/-- Go `type Project struct`. -/
structure Project where
  Chunks : List Chunk
deriving DecidableEq, Repr

/-- The tag `FLhd`. -/
def tagFLhd : List Nat := [70, 76, 104, 100]

/-- The tag `FLdt`. -/
def tagFLdt : List Nat := [70, 76, 100, 116]

/-! ### Decoding -/

/-- Decode `EventBytes`: the VLQ `Len`, then `Len.Value` bytes. -/
def EventBytes.Unpack (buf : List Nat) : Option (EventBytes × List Nat) := do
  let (len, buf) ← VLQ.Unpack buf
  let (data, buf) ← readBytes len.Value buf
  some (⟨len, data⟩, buf)

/-- Decode one `Event`: the type byte, then each field whose `struct-if` holds. -/
def Event.Unpack (buf : List Nat) : Option (Event × List Nat) := do
  let (ty, buf) ← readU8 buf
  let (i8, buf) ← if ty &&& 0xC0 = 0x00 then readU8 buf else some (0, buf)
  let (i16, buf) ← if ty &&& 0xC0 = 0x40 then readU16 buf else some (0, buf)
  let (i32, buf) ← if ty &&& 0xC0 = 0x80 then readU32 buf else some (0, buf)
  let (bytes, buf) ←
    if ty &&& 0xC0 = 0xC0 then EventBytes.Unpack buf else some (⟨⟨0⟩, []⟩, buf)
  some (⟨ty, i8, i16, i32, bytes⟩, buf)

/-- The `struct-while:"!_eof"` loop of `ChunkFLdt.Event`. -/
def Event.unpackAll : Nat → List Nat → Option (List Event)
  | 0, buf => if buf.isEmpty then some [] else none
  | fuel + 1, buf =>
    if buf.isEmpty then some []
    else do
      let (e, rest) ← Event.Unpack buf
      let es ← Event.unpackAll fuel rest
      some (e :: es)

/-- Decode `ChunkFLdt`: events until the end of the buffer. -/
def ChunkFLdt.Unpack (buf : List Nat) : Option (ChunkFLdt × List Nat) :=
  (Event.unpackAll buf.length buf).map fun es => (⟨es⟩, [])

/-- Decode `ChunkFLhd`: three `uint16`. -/
def ChunkFLhd.Unpack (buf : List Nat) : Option (ChunkFLhd × List Nat) := do
  let (ty, buf) ← readU16 buf
  let (cc, buf) ← readU16 buf
  let (tb, buf) ← readU16 buf
  some (⟨ty, cc, tb⟩, buf)

/-- Decode `ChunkUnk`: `Parent.Len` bytes. -/
def ChunkUnk.Unpack (parentLen : Nat) (buf : List Nat) : Option (ChunkUnk × List Nat) := do
  let (data, buf) ← readBytes parentLen buf
  some (⟨data⟩, buf)

/-- The Go string restruct makes of the bytes of a fixed size byte array: the
bytes in front of the first NUL byte. -/
def cString (raw : List Nat) : List Nat := raw.takeWhile fun b => decide (b ≠ 0)

/-- Decode one `Chunk`: the tag, a `string` read from a `[4]byte` and so cut at
its first NUL byte, then `Len`, then the case of the switch on the tag. -/
def Chunk.Unpack (buf : List Nat) : Option (Chunk × List Nat) := do
  let (raw, buf) ← readBytes 4 buf
  let ty := cString raw
  let (len, buf) ← readU32 buf
  if ty = tagFLhd then do
    let (h, buf) ← ChunkFLhd.Unpack buf
    some (⟨ty, len, ⟨some h, none, none⟩⟩, buf)
  else if ty = tagFLdt then do
    let (d, buf) ← ChunkFLdt.Unpack buf
    some (⟨ty, len, ⟨none, some d, none⟩⟩, buf)
  else do
    let (u, buf) ← ChunkUnk.Unpack len buf
    some (⟨ty, len, ⟨none, none, some u⟩⟩, buf)

/-- The `struct-while:"!_eof"` loop of `Project.Chunks`. -/
def Chunk.unpackAll : Nat → List Nat → Option (List Chunk)
  | 0, buf => if buf.isEmpty then some [] else none
  | fuel + 1, buf =>
    if buf.isEmpty then some []
    else do
      let (c, rest) ← Chunk.Unpack buf
      let cs ← Chunk.unpackAll fuel rest
      some (c :: cs)

/-- The call `restruct.Unpack(data, binary.LittleEndian, &p)` of `main`. -/
def Project.Unpack (buf : List Nat) : Option Project :=
  (Chunk.unpackAll buf.length buf).map Project.mk

/-- Decode one 32 byte `PlaylistItem`. -/
def PlaylistItem.Unpack (buf : List Nat) : Option (PlaylistItem × List Nat) := do
  let (startTime, buf) ← readU32 buf
  let (patternBase, buf) ← readU16 buf
  let (patternID, buf) ← readU16 buf
  let (length, buf) ← readU32 buf
  let (track, buf) ← readU32 buf
  let (u1, buf) ← readU16 buf
  let (u2, buf) ← readU16 buf
  let (u3, buf) ← readU32 buf
  let (u4, buf) ← readU32 buf
  let (u5, buf) ← readU32 buf
  some (⟨startTime, patternBase, patternID, length, track, u1, u2, u3, u4, u5⟩, buf)

/-- The `struct-while:"!_eof"` loop of `PlaylistItemsEvent.Items`. -/
def PlaylistItem.unpackAll : Nat → List Nat → Option (List PlaylistItem)
  | 0, buf => if buf.isEmpty then some [] else none
  | fuel + 1, buf =>
    if buf.isEmpty then some []
    else do
      let (item, rest) ← PlaylistItem.Unpack buf
      let items ← PlaylistItem.unpackAll fuel rest
      some (item :: items)

/-- The calls `restruct.Unpack(event.Bytes.Data, binary.LittleEndian, &ev)`. -/
def PlaylistItemsEvent.Unpack (buf : List Nat) : Option PlaylistItemsEvent :=
  (PlaylistItem.unpackAll buf.length buf).map PlaylistItemsEvent.mk

/-! ### Sizes and encoding -/

/-- Encode `EventBytes`: the VLQ `Len` as stored, then the bytes of `Data`;
`restruct.Pack` fails when the length of `Data` is not the value `Len.Value` of
its `struct-size` expression. -/
def EventBytes.Pack (b : EventBytes) : Option (List Nat) := do
  let len ← b.Len.write
  if b.Data.length = b.Len.Value then some (len ++ b.Data) else none

/-- Size of `EventBytes`. -/
def EventBytes.SizeOf (b : EventBytes) : Nat := b.Len.SizeOf + b.Data.length

/-- Encode one `Event`: the type byte, then each field whose `struct-if` holds. -/
def Event.Pack (e : Event) : Option (List Nat) := do
  let i8 := if e.Typ &&& 0xC0 = 0x00 then putU8 e.Int8 else []
  let i16 := if e.Typ &&& 0xC0 = 0x40 then putU16 e.Int16 else []
  let i32 := if e.Typ &&& 0xC0 = 0x80 then putU32 e.Int32 else []
  let bytes ← if e.Typ &&& 0xC0 = 0xC0 then e.Bytes.Pack else some []
  some (putU8 e.Typ ++ i8 ++ i16 ++ i32 ++ bytes)

/-- Size of one `Event`. -/
def Event.SizeOf (e : Event) : Nat :=
  1 + (if e.Typ &&& 0xC0 = 0x00 then 1 else 0)
    + (if e.Typ &&& 0xC0 = 0x40 then 2 else 0)
    + (if e.Typ &&& 0xC0 = 0x80 then 4 else 0)
    + (if e.Typ &&& 0xC0 = 0xC0 then e.Bytes.SizeOf else 0)

/-- Encode a sequence of events in order. -/
def Event.packAll : List Event → Option (List Nat)
  | [] => some []
  | e :: es => do
    let b ← e.Pack
    let bs ← Event.packAll es
    some (b ++ bs)

/-- Size of a sequence of events. -/
def Event.sizeAll : List Event → Nat
  | [] => 0
  | e :: es => e.SizeOf + Event.sizeAll es

/-- Encode `ChunkFLhd`. -/
def ChunkFLhd.Pack (h : ChunkFLhd) : List Nat :=
  putU16 h.Typ ++ putU16 h.ChannelCount ++ putU16 h.Timebase

/-- Encode the `Data` of a chunk with tag `ty` and length field `len`: the case
selected by the tag; a nil pointer writes nothing; `restruct.Pack` fails when
the length of the data of a `ChunkUnk` is not the value `Parent.Len` of its
`struct-size` expression. -/
def ChunkData.Pack (ty : List Nat) (len : Nat) (d : ChunkData) : Option (List Nat) :=
  if ty = tagFLhd then
    match d.FLhd with
    | some h => some h.Pack
    | none => some []
  else if ty = tagFLdt then
    match d.FLdt with
    | some f => Event.packAll f.Event
    | none => some []
  else
    match d.Unknown with
    | some u => if u.Data.length = len then some u.Data else none
    | none => some []

/-- Size of the `Data` of a chunk. -/
def ChunkData.SizeOf (ty : List Nat) (d : ChunkData) : Nat :=
  if ty = tagFLhd then
    match d.FLhd with
    | some _ => 6
    | none => 0
  else if ty = tagFLdt then
    match d.FLdt with
    | some f => Event.sizeAll f.Event
    | none => 0
  else
    match d.Unknown with
    | some u => u.Data.length
    | none => 0

/-- The 4 bytes written for the `[4]byte` tag: the string, cut or padded with NUL
bytes to 4 bytes. -/
def putTag (ty : List Nat) : List Nat := (ty ++ List.replicate 4 0).take 4

/-- Encode one `Chunk`: tag, `Len` as stored, payload. -/
def Chunk.Pack (c : Chunk) : Option (List Nat) := do
  let d ← c.Data.Pack c.Typ c.Len
  some (putTag c.Typ ++ putU32 c.Len ++ d)

/-- The call `restruct.SizeOf(p.Chunks[i])` of `filterwrite`. -/
def Chunk.SizeOf (c : Chunk) : Nat := 4 + 4 + c.Data.SizeOf c.Typ

/-- Encode a sequence of chunks in order. -/
def Chunk.packAll : List Chunk → Option (List Nat)
  | [] => some []
  | c :: cs => do
    let b ← c.Pack
    let bs ← Chunk.packAll cs
    some (b ++ bs)

/-- The call `restruct.Pack(binary.LittleEndian, &p)` of `filterwrite`. -/
def Project.Pack (p : Project) : Option (List Nat) := Chunk.packAll p.Chunks

/-- Encode one `PlaylistItem` (32 bytes). -/
def PlaylistItem.Pack (it : PlaylistItem) : List Nat :=
  putU32 it.StartTime ++ putU16 it.PatternBase ++ putU16 it.PatternID ++ putU32 it.Length
    ++ putU32 it.Track ++ putU16 it.Unknown1 ++ putU16 it.Unknown2 ++ putU32 it.Unknown3
    ++ putU32 it.Unknown4 ++ putU32 it.Unknown5

/-- The call `restruct.Pack(binary.LittleEndian, &ev)` of `filterwrite`. -/
def PlaylistItemsEvent.Pack (ev : PlaylistItemsEvent) : List Nat :=
  (ev.Items.map PlaylistItem.Pack).flatten

/-! ## The pipeline (`main.go` lines 160-322) -/

/-- The body of the `if ...Event[j].Type == 233` block of `filterwrite`: decode
the payload, keep the items with `item.Track == track`, pack them, and set
`Bytes.Len.Value` to the length of the new payload. `none` is `log.Fatalln`. -/
def filterEvent (track : Nat) (e : Event) : Option Event :=
  if e.Typ = 233 then
    match PlaylistItemsEvent.Unpack e.Bytes.Data with
    | none => none
    | some ev =>
      let filteredItems := ev.Items.filter fun item => decide (item.Track = track)
      let data := PlaylistItemsEvent.Pack ⟨filteredItems⟩
      some { e with Bytes := { Len := ⟨data.length % 2 ^ 64⟩, Data := data } }
  else some e

/-- The loop `for j := range p.Chunks[i].Data.FLdt.Event` of `filterwrite`. -/
def filterEvents (track : Nat) : List Event → Option (List Event)
  | [] => some []
  | e :: es => do
    let e1 ← filterEvent track e
    let es1 ← filterEvents track es
    some (e1 :: es1)

/-- The body of the loop `for i := range p.Chunks` of `filterwrite`: an FLdt
chunk has its events filtered and its `Len` set to `uint32(size) - 8`. -/
def filterChunk (track : Nat) (c : Chunk) : Option Chunk :=
  match c.Data.FLdt with
  | some fldt => do
    let events ← filterEvents track fldt.Event
    let c1 : Chunk := { c with Data := { c.Data with FLdt := some ⟨events⟩ } }
    let size := c1.SizeOf
    some { c1 with Len := (size % 2 ^ 32 + 2 ^ 32 - 8) % 2 ^ 32 }
  | none => some c

/-- The loop `for i := range p.Chunks` of `filterwrite`. -/
def filterChunks (track : Nat) : List Chunk → Option (List Chunk)
  | [] => some []
  | c :: cs => do
    let c1 ← filterChunk track c
    let cs1 ← filterChunks track cs
    some (c1 :: cs1)

/-- The project `filterwrite(p, track)` packs: lines 160-216, on a copy of `p`. -/
def filterProject (p : Project) (track : Nat) : Option Project :=
  (filterChunks track p.Chunks).map Project.mk

/-- The bytes `filterwrite(p, track)` hands to `ioutil.WriteFile`; `none` when
it stops in `log.Fatalln`. -/
def filterwrite (p : Project) (track : Nat) : Option (List Nat) := do
  let q ← filterProject p track
  q.Pack

/-- The ways `main` stops in `log.Fatalf` or `log.Fatalln`. -/
inductive Fatal where
  | parseFailed
  | tooOld
  | playlistParseFailed
  | filterFailed
deriving DecidableEq, Repr

/-- The statement `trackMap[k] = struct{}{}`: the keys of the map, as a list
without repetition. -/
def mapSet (trackMap : List Int) (k : Int) : List Int :=
  if k ∈ trackMap then trackMap else k :: trackMap

/-- The body of the loop `for j, event := range chunk.Data.FLdt.Event` of `main`. -/
def discoverEvent (trackMap : List Int) (event : Event) : Except Fatal (List Int) :=
  if event.Typ = 129 then .error .tooOld
  else if event.Typ = 233 then
    match PlaylistItemsEvent.Unpack event.Bytes.Data with
    | none => .error .playlistParseFailed
    | some ev => .ok (ev.Items.foldl (fun m item => mapSet m (500 - (item.Track : Int))) trackMap)
  else .ok trackMap

/-- The loop `for j, event := range chunk.Data.FLdt.Event` of `main`. -/
def discoverEvents : List Int → List Event → Except Fatal (List Int)
  | trackMap, [] => .ok trackMap
  | trackMap, event :: events =>
    match discoverEvent trackMap event with
    | .error err => .error err
    | .ok m => discoverEvents m events

/-- The loop `for i, chunk := range p.Chunks` of `main`. -/
def discoverChunks : List Int → List Chunk → Except Fatal (List Int)
  | trackMap, [] => .ok trackMap
  | trackMap, chunk :: chunks =>
    match chunk.Data.FLdt with
    | some fldt =>
      match discoverEvents trackMap fldt.Event with
      | .error err => .error err
      | .ok m => discoverChunks m chunks
    | none => discoverChunks trackMap chunks

/-- Lines 281-314 of `main`: the sorted `trackList`, or the fatal error raised
while the chunks are scanned. The order in which a Go map is ranged over is
unspecified; `sort.Ints` makes `trackList` the ascending list of the keys
whatever that order is, and it is computed here by insertion sort. -/
def discover (p : Project) : Except Fatal (List Int) :=
  match discoverChunks [] p.Chunks with
  | .error err => .error err
  | .ok trackMap => .ok (trackMap.insertionSort (· ≤ ·))

/-- The argument `uint32(500-track)` of the call in `main`. -/
def rawTrack (track : Int) : Nat := ((500 - track) % 2 ^ 32).toNat

/-- The loop `for _, track := range trackList` of `main`: the files written so
far, and the fatal error when a call of `filterwrite` stops the run. -/
def writeTracks (p : Project) : List Int → List (Int × List Nat) × Option Fatal
  | [] => ([], none)
  | track :: tracks =>
    match filterwrite p (rawTrack track) with
    | none => ([], some .filterFailed)
    | some data =>
      let r := writeTracks p tracks
      ((track, data) :: r.1, r.2)

/-- Go `func main()` from the parse of the file contents `data` on: the files
written (track number and bytes, in the order written) and the fatal error that
ended the run, if any. -/
def main (data : List Nat) : List (Int × List Nat) × Option Fatal :=
  match Project.Unpack data with
  | none => ([], some .parseFailed)
  | some p =>
    match discover p with
    | .error err => ([], some err)
    | .ok trackList => writeTracks p trackList

/-! ## Auxiliary functions used to state and prove the properties -/

/-- The bytes the loop of `VLQ.Pack` leaves behind, seen as a function of the
byte `last` written last and of the remaining value `n`. -/
def VLQ.tail : Nat → Nat → Nat → List Nat
  | 0, last, _ => [last]
  | fuel + 1, last, n =>
    if n ≠ 0 then (last ||| 0x80) :: VLQ.tail fuel (n &&& 0x7F) (n >>> 7) else [last]

/-- The bytes of the VLQ of `v`, as a function. -/
def VLQ.bytes (v : Nat) : List Nat := VLQ.tail (v >>> 7) (v &&& 0x7F) (v >>> 7)

/-- The number a sequence of 7 bit groups stands for, least significant first. -/
def VLQ.groupsValue : List Nat → Nat
  | [] => 0
  | c :: cs => c % 128 + 128 * VLQ.groupsValue cs

/-- A sequence of VLQ bytes: continuation bytes, then one terminating byte. -/
def VLQ.Groups : List Nat → Prop
  | [] => False
  | [t] => t < 128
  | c :: d :: cs => 128 ≤ c ∧ c < 256 ∧ VLQ.Groups (d :: cs)

/-- The fields of a `PlaylistItem` fit their Go types. -/
def PlaylistItem.InRange (it : PlaylistItem) : Prop :=
  it.StartTime < 2 ^ 32 ∧ it.PatternBase < 2 ^ 16 ∧ it.PatternID < 2 ^ 16
    ∧ it.Length < 2 ^ 32 ∧ it.Track < 2 ^ 32 ∧ it.Unknown1 < 2 ^ 16 ∧ it.Unknown2 < 2 ^ 16
    ∧ it.Unknown3 < 2 ^ 32 ∧ it.Unknown4 < 2 ^ 32 ∧ it.Unknown5 < 2 ^ 32

/-- What decoding guarantees of an `Event`: the fields fit their Go types, the
fields whose `struct-if` fails keep their zero value, and a variable-length
payload has the length its prefix declares. -/
def Event.WF (e : Event) : Prop :=
  e.Typ < 256
    ∧ (if e.Typ &&& 0xC0 = 0x00 then e.Int8 < 256 else e.Int8 = 0)
    ∧ (if e.Typ &&& 0xC0 = 0x40 then e.Int16 < 65536 else e.Int16 = 0)
    ∧ (if e.Typ &&& 0xC0 = 0x80 then e.Int32 < 2 ^ 32 else e.Int32 = 0)
    ∧ (if e.Typ &&& 0xC0 = 0xC0 then
        e.Bytes.Len.Value < 2 ^ 64 ∧ e.Bytes.Data.length = e.Bytes.Len.Value
          ∧ IsBytes e.Bytes.Data
      else e.Bytes = ⟨⟨0⟩, []⟩)

/-- What decoding guarantees of a `Chunk`: a tag of at most 4 bytes, none of
them NUL, a `uint32` length, and the one case of the switch that the tag
selects. -/
def Chunk.WF (c : Chunk) : Prop :=
  (c.Typ.length ≤ 4 ∧ ∀ b ∈ c.Typ, b ≠ 0) ∧ IsBytes c.Typ ∧ c.Len < 2 ^ 32
    ∧ (if c.Typ = tagFLhd then
        ∃ h : ChunkFLhd, c.Data = ⟨some h, none, none⟩
          ∧ h.Typ < 65536 ∧ h.ChannelCount < 65536 ∧ h.Timebase < 65536
      else if c.Typ = tagFLdt then
        ∃ d : ChunkFLdt, c.Data = ⟨none, some d, none⟩ ∧ ∀ e ∈ d.Event, e.WF
      else
        ∃ u : ChunkUnk, c.Data = ⟨none, none, some u⟩ ∧ u.Data.length = c.Len
          ∧ IsBytes u.Data)

/-- What decoding guarantees of the chunk list: every chunk is well formed, and
an FLdt chunk, whose events run to the end of the buffer, is the last chunk. -/
def Chunk.WFAll : List Chunk → Prop
  | [] => True
  | c :: cs => c.WF ∧ (c.Typ = tagFLdt → cs = []) ∧ Chunk.WFAll cs

/-- The events `es` refer to the logical track `T`: `T` is `500 - Track` for a
record of a type 233 event of `es`. -/
def Event.HasTrack (es : List Event) (T : Int) : Prop :=
  ∃ e ∈ es, e.Typ = 233 ∧ ∃ ev, PlaylistItemsEvent.Unpack e.Bytes.Data = some ev
    ∧ ∃ it ∈ ev.Items, T = 500 - (it.Track : Int)

/-- The chunks `cs` refer to the logical track `T` in an FLdt chunk. -/
def Chunk.HasTrack (cs : List Chunk) (T : Int) : Prop :=
  ∃ c ∈ cs, ∃ d, c.Data.FLdt = some d ∧ Event.HasTrack d.Event T

/-- Some FLdt chunk of `cs` holds an event of type 129. -/
def Chunk.HasLegacy (cs : List Chunk) : Prop :=
  ∃ c ∈ cs, ∃ d, c.Data.FLdt = some d ∧ ∃ e ∈ d.Event, e.Typ = 129

/-- Every type 233 payload of the FLdt chunks of `cs` decodes as a record array. -/
def Chunk.PlaylistsDecode (cs : List Chunk) : Prop :=
  ∀ c ∈ cs, ∀ d, c.Data.FLdt = some d → ∀ e ∈ d.Event, e.Typ = 233 →
    ∃ ev, PlaylistItemsEvent.Unpack e.Bytes.Data = some ev

/-! ## A worked input -/

/-- A record with raw track `track`. -/
def exampleItem (track : Nat) : PlaylistItem :=
  ⟨1, 2, 3, 4, track, 0, 0, 0, 0, 0⟩

/-- The 32 bytes of `exampleItem track`, for `track < 256`. -/
def exampleRecord (track : Nat) : List Nat :=
  [1, 0, 0, 0, 2, 0, 3, 0, 4, 0, 0, 0, track, 0, 0, 0,
   0, 0, 0, 0, 0, 0, 0, 0, 0, 0, 0, 0, 0, 0, 0, 0]

/-- The events of the worked input: a 16 bit event, a type 233 event with records
of raw tracks `tracks`, and a two byte text event. -/
def exampleEvents (tracks : List Nat) : List Event :=
  [⟨0x40, 0, 513, 0, ⟨⟨0⟩, []⟩⟩,
   ⟨233, 0, 0, 0, ⟨⟨32 * tracks.length⟩, (tracks.map exampleRecord).flatten⟩⟩,
   ⟨0xC0, 0, 0, 0, ⟨⟨2⟩, [65, 66]⟩⟩]

/-- A project file: an FLhd chunk and an FLdt chunk whose type 233 event holds
records of raw tracks 10, 20, 10. -/
def exampleInput : List Nat :=
  [70, 76, 104, 100, 6, 0, 0, 0, 0, 0, 1, 0, 96, 0,
   70, 76, 100, 116, 105, 0, 0, 0,
   0x40, 1, 2,
   0xE9, 96] ++ exampleRecord 10 ++ exampleRecord 20 ++ exampleRecord 10 ++ [0xC0, 2, 65, 66]

/-- The project `exampleInput` decodes to. -/
def exampleProject : Project :=
  ⟨[⟨tagFLhd, 6, ⟨some ⟨0, 1, 96⟩, none, none⟩⟩,
    ⟨tagFLdt, 105, ⟨none, some ⟨exampleEvents [10, 20, 10]⟩, none⟩⟩]⟩

/-- The record arrays of a project: the decoded payload of every type 233 event
of every FLdt chunk, in order. -/
def Project.playlists (p : Project) : List (Option PlaylistItemsEvent) :=
  p.Chunks.flatMap fun c =>
    match c.Data.FLdt with
    | some d => (d.Event.filter fun e => decide (e.Typ = 233)).map fun e =>
        PlaylistItemsEvent.Unpack e.Bytes.Data
    | none => []

/-- A project file whose FLdt chunk holds a type 233 event with a one byte
payload, which is no record array, followed by a type 129 event. -/
def legacyAfterBadPlaylist : List Nat :=
  [70, 76, 100, 116, 8, 0, 0, 0, 0xE9, 1, 0, 0x81, 0, 0, 0, 0]

/-- A project file whose FLdt chunk holds a type 129 event after a type 233 event
with one record. -/
def legacyInput : List Nat :=
  [70, 76, 100, 116, 39, 0, 0, 0, 0xE9, 32] ++ exampleRecord 10 ++ [0x81, 0, 0, 0, 0]

/-- A project file whose type 233 event holds four records, of raw tracks 10,
20, 10, 20; the FLdt chunk declares its 138 payload bytes. -/
def exampleInput4 : List Nat :=
  [70, 76, 104, 100, 6, 0, 0, 0, 0, 0, 1, 0, 96, 0,
   70, 76, 100, 116, 138, 0, 0, 0,
   0x40, 1, 2,
   0xE9, 0x80, 0x01] ++ exampleRecord 10 ++ exampleRecord 20 ++ exampleRecord 10
    ++ exampleRecord 20 ++ [0xC0, 2, 65, 66]

/-- The project `exampleInput4` decodes to. -/
def exampleProject4 : Project :=
  ⟨[⟨tagFLhd, 6, ⟨some ⟨0, 1, 96⟩, none, none⟩⟩,
    ⟨tagFLdt, 138, ⟨none, some ⟨exampleEvents [10, 20, 10, 20]⟩, none⟩⟩]⟩

/-- The file `exampleInput` with the `Len` of its FLhd chunk set to 7; the
decoder reads the 6 byte header record all the same. -/
def headerLen7Input : List Nat :=
  [70, 76, 104, 100, 7, 0, 0, 0, 0, 0, 1, 0, 96, 0,
   70, 76, 100, 116, 105, 0, 0, 0,
   0x40, 1, 2,
   0xE9, 96] ++ exampleRecord 10 ++ exampleRecord 20 ++ exampleRecord 10 ++ [0xC0, 2, 65, 66]

/-- The project `headerLen7Input` decodes to. -/
def headerLen7Project : Project :=
  ⟨[⟨tagFLhd, 7, ⟨some ⟨0, 1, 96⟩, none, none⟩⟩,
    ⟨tagFLdt, 105, ⟨none, some ⟨exampleEvents [10, 20, 10]⟩, none⟩⟩]⟩

/-! ## Minimal VLQ prefixes in a buffer -/

/-- The VLQ that starts the buffer is in minimal form: its terminating byte is
the first byte or is not zero (no redundant trailing zero group), and it has at
most ten bytes, the tenth at most 1 (the value fits 64 bits). `i` counts the
bytes already passed. -/
def VLQ.minimalLoop : List Nat → Nat → Bool
  | [], _ => false
  | b :: rest, i =>
    if b &&& 0x80 = 0 then
      (decide (i = 0) || decide (b ≠ 0)) && (decide (i < 9) || (decide (i = 9) && decide (b ≤ 1)))
    else VLQ.minimalLoop rest (i + 1)

/-- The VLQ that starts the buffer is in minimal form. -/
def VLQ.isMinimal (buf : List Nat) : Bool := VLQ.minimalLoop buf 0

/-- The event that starts the buffer, if it is variable-length, has a length
prefix in minimal form. -/
def Event.minimalLen : List Nat → Bool
  | [] => true
  | ty :: rest => if ty &&& 0xC0 = 0xC0 then VLQ.isMinimal rest else true

/-- Every variable-length event the event loop decodes from the buffer has a
length prefix in minimal form. -/
def Event.allMinimal : Nat → List Nat → Bool
  | 0, _ => true
  | fuel + 1, buf =>
    if buf.isEmpty then true
    else
      match Event.Unpack buf with
      | none => true
      | some (_, rest) => Event.minimalLen buf && Event.allMinimal fuel rest

/-- The chunk that starts the buffer, if it is an FLdt chunk, holds only minimal
length prefixes; its events start behind the 8 byte tag and length header. -/
def Chunk.minimalLens (buf : List Nat) : Bool :=
  if buf.take 4 = tagFLdt then Event.allMinimal (buf.drop 8).length (buf.drop 8) else true

/-- Every chunk the chunk loop decodes from the buffer holds only minimal length
prefixes. -/
def Chunk.allMinimal : Nat → List Nat → Bool
  | 0, _ => true
  | fuel + 1, buf =>
    if buf.isEmpty then true
    else
      match Chunk.Unpack buf with
      | none => true
      | some (_, rest) => Chunk.minimalLens buf && Chunk.allMinimal fuel rest

/-- Every VLQ length prefix that decoding the buffer as a project reads is in
minimal form. -/
def Project.minimalVLQs (buf : List Nat) : Bool := Chunk.allMinimal buf.length buf

/-! ## Tags that are written back as they were read -/

/-- The four tag bytes that start the buffer are a string padded with NUL bytes:
no other byte follows a NUL byte, so the tag is written back as it was read. -/
def Chunk.plainTag (buf : List Nat) : Bool :=
  decide (putTag (cString (buf.take 4)) = buf.take 4)

/-- Every chunk the chunk loop decodes from the buffer starts with a tag that is
written back as it was read. -/
def Chunk.plainTags : Nat → List Nat → Bool
  | 0, _ => true
  | fuel + 1, buf =>
    if buf.isEmpty then true
    else
      match Chunk.Unpack buf with
      | none => true
      | some (_, rest) => Chunk.plainTag buf && Chunk.plainTags fuel rest

/-- Every chunk tag that decoding the buffer as a project reads is written back
as it was read. -/
def Project.plainTags (buf : List Nat) : Bool := Chunk.plainTags buf.length buf

/-- A file of one chunk whose tag holds a NUL byte in front of other bytes:
`A`, NUL, `C`, `D`, then `Len` 2 and the data bytes 9 and 8. -/
def nulTagInput : List Nat := [65, 0, 67, 68, 2, 0, 0, 0, 9, 8]

/-! ## The events in the order `main` scans them -/

/-- The events of the FLdt chunks of a chunk list, chunk by chunk and event by
event: the order of the two nested loops of `main` (lines 281-314). -/
def Chunk.scanned : List Chunk → List Event
  | [] => []
  | c :: cs =>
    match c.Data.FLdt with
    | some d => d.Event ++ Chunk.scanned cs
    | none => Chunk.scanned cs

/-- The event lets discovery go on: it is not of type 129, and if it is of type
233 its payload decodes as a record array. -/
def Event.Harmless (e : Event) : Prop :=
  e.Typ ≠ 129 ∧ (e.Typ = 233 → ∃ ev, PlaylistItemsEvent.Unpack e.Bytes.Data = some ev)

/-- A project file whose FLdt chunk holds a type 129 event in front of a type 233
event with a one byte payload, which is no record array. -/
def legacyBeforeBadPlaylist : List Nat :=
  [70, 76, 100, 116, 8, 0, 0, 0, 0x81, 0, 0, 0, 0, 0xE9, 1, 0]

/-! ## A payload of more than `2 ^ 32` bytes -/

/-- One text event (type `0xC0`) with the length prefix `2 ^ 32` and the payload
`data`. -/
def hugeEventsOf (data : List Nat) : List Event := [⟨0xC0, 0, 0, 0, ⟨⟨2 ^ 32⟩, data⟩⟩]

/-- A project file of one FLdt chunk that holds `hugeEventsOf data`: behind the 8
byte header lie the type byte, the five byte VLQ of `2 ^ 32` and the payload.
With a payload of `2 ^ 32` bytes these are `2 ^ 32 + 6` bytes, of which the
`uint32` field `Len` can hold the low 32 bits, 6. -/
def hugeInputOf (data : List Nat) : List Nat :=
  [70, 76, 100, 116, 6, 0, 0, 0, 0xC0, 0x80, 0x80, 0x80, 0x80, 0x10] ++ data

/-- The project `hugeInputOf data` decodes to. -/
def hugeProjectOf (data : List Nat) : Project :=
  ⟨[⟨tagFLdt, 6, ⟨none, some ⟨hugeEventsOf data⟩, none⟩⟩]⟩

/-- The payload of `2 ^ 32` zero bytes. -/
def hugeData : List Nat := List.replicate (2 ^ 32) 0

/-- One text event with a payload of `2 ^ 32` zero bytes. -/
def hugeEvents : List Event := hugeEventsOf hugeData

/-- The file of `2 ^ 32 + 14` bytes that holds `hugeEvents` in an FLdt chunk. -/
def hugeInput : List Nat := hugeInputOf hugeData

/-- The project `hugeInput` decodes to. -/
def hugeProject : Project := hugeProjectOf hugeData

/-! ## The record layout, read off a buffer by offset -/

/-- The little endian `uint16` held by the two bytes at offset `off`. -/
def le16 (buf : List Nat) (off : Nat) : Nat :=
  buf.getD off 0 + buf.getD (off + 1) 0 * 256

/-- The little endian `uint32` held by the four bytes at offset `off`. -/
def le32 (buf : List Nat) (off : Nat) : Nat :=
  buf.getD off 0 + buf.getD (off + 1) 0 * 256 + buf.getD (off + 2) 0 * 65536
    + buf.getD (off + 3) 0 * 16777216

/-- The record held by the 32 bytes at offset `off`, field by field in the order
and with the widths of the declaration of `PlaylistItem` (`main.go` lines
124-135): `StartTime` at 0, `PatternBase` at 4, `PatternID` at 6, `Length` at 8,
`Track` at 12, `Unknown1` at 16, `Unknown2` at 18, `Unknown3` at 20, `Unknown4`
at 24 and `Unknown5` at 28. -/
def PlaylistItem.atOffset (buf : List Nat) (off : Nat) : PlaylistItem :=
  ⟨le32 buf off, le16 buf (off + 4), le16 buf (off + 6), le32 buf (off + 8),
    le32 buf (off + 12), le16 buf (off + 16), le16 buf (off + 18), le32 buf (off + 20),
    le32 buf (off + 24), le32 buf (off + 28)⟩

/-! ## Output file names (`main.go` lines 151-158 and 217)

A Go `string` is its bytes: `46` is `'.'`, `45` is `'-'`, `48` is `'0'`.
`os.IsPathSeparator` belongs to the Go standard library and differs between
platforms; the functions below take it as the parameter `isSep`. -/

/-- Go `os.IsPathSeparator` on Unix: `'/'`. -/
def unixSeparator (c : Nat) : Bool := decide (c = 47)

/-- Go `os.IsPathSeparator` on Windows: `'\'` or `'/'`. -/
def windowsSeparator (c : Nat) : Bool := decide (c = 92) || decide (c = 47)

/-- The loop of `stripext`, entered with `i + 1`:
`for i := len(path) - 1; i >= 0 && !os.IsPathSeparator(path[i]); i--` with the
body `if path[i] == '.' { return path[:i] }`, and `return ""` after it. -/
def stripextLoop (isSep : Nat → Bool) (path : List Nat) : Nat → List Nat
  | 0 => []
  | i + 1 =>
    match path[i]? with
    | none => []
    | some c =>
      if isSep c then []
      else if c = 46 then path.take i
      else stripextLoop isSep path i

/-- Go `func stripext(path string) string`. -/
def stripext (isSep : Nat → Bool) (path : List Nat) : List Nat :=
  stripextLoop isSep path path.length

/-- The verb `%03d` of `fmt.Sprintf` on an unsigned integer: its decimal digits,
with zeros on the left up to the width 3. -/
def pad3 (n : Nat) : List Nat :=
  let digits := (Nat.toDigits 10 n).map Char.toNat
  List.replicate (3 - digits.length) 48 ++ digits

/-- Line 217: `fmt.Sprintf("%s-%03d.flp", stripext(inputFileName), 500-track)`,
where `track` is a `uint32` and so is `500-track`. -/
def outputFilename (isSep : Nat → Bool) (inputFileName : List Nat) (track : Nat) : List Nat :=
  stripext isSep inputFileName ++ [45] ++ pad3 ((500 + 2 ^ 32 - track % 2 ^ 32) % 2 ^ 32)
    ++ [46, 102, 108, 112]

/-! ## Where the chunks of a file lie, by their declared lengths -/

/-- The container reading of the specification (its section 4.4), which is not
the reading of the code: a 4 byte tag, a `u32` length and exactly that many
payload bytes, again and again until the buffer is exhausted; `none` when a
length overruns the buffer. It says where the chunks of a file lie when every
`Len` is taken at its word. -/
def specChunks : Nat → List Nat → Option (List (List Nat × Nat × List Nat))
  | 0, buf => if buf.isEmpty then some [] else none
  | fuel + 1, buf =>
    if buf.isEmpty then some []
    else do
      let (ty, buf) ← readBytes 4 buf
      let (len, buf) ← readU32 buf
      let (payload, buf) ← readBytes len buf
      let cs ← specChunks fuel buf
      some ((ty, len, payload) :: cs)

/-- An opaque chunk: the tag `ABCD`, `Len` 2 and the two data bytes 0 and 7. -/
def opaqueChunkBytes : List Nat := [65, 66, 67, 68, 2, 0, 0, 0, 0, 7]

/-- The file `exampleInput` with the opaque chunk `opaqueChunkBytes` behind its
FLdt chunk. -/
def trailingChunkInput : List Nat := exampleInput ++ opaqueChunkBytes

/-- The file `exampleInput` with the opaque chunk `opaqueChunkBytes` between its
FLhd chunk and its FLdt chunk. -/
def opaqueFirstInput : List Nat :=
  exampleInput.take 14 ++ opaqueChunkBytes ++ exampleInput.drop 14

/-- The file `exampleInput` with the one chunk of `nulTagInput`, whose tag bytes
are `A`, NUL, `C`, `D`, between its FLhd chunk and its FLdt chunk. -/
def nulTagFirstInput : List Nat :=
  exampleInput.take 14 ++ nulTagInput ++ exampleInput.drop 14

/-! ## `filterwrite` on the Go heap (`main.go` lines 160-212)

`filterwrite` receives `p Project` by value, but the slice `p.Chunks`, the
pointers `Data.FLdt` and the slices `FLdt.Event` in it refer to memory that the
caller's project refers to as well. This section models that memory: a heap of
objects addressed by their position, in which the backing array of a `[]Chunk`,
a `ChunkFLdt` and the backing array of a `[]Event` are objects, and a slice or a
pointer is the address of one. `append(s[:0:0], s...)` and `&fldt` allocate a new
object at the end of the heap. No statement of `filterwrite` stores into a byte
array or through a `*ChunkFLhd` or `*ChunkUnk`; these stay values. -/

/-- A `Chunk` as it lies in the backing array of a `[]Chunk`: `FLdt` is a
pointer, the address of a `ChunkFLdt` object. -/
structure ChunkCell where
  Typ : List Nat
  Len : Nat
  FLhd : Option ChunkFLhd
  FLdt : Option Nat
  Unknown : Option ChunkUnk
deriving DecidableEq, Repr

/-- The objects of the heap: the backing array of a `[]Chunk`, a `ChunkFLdt`
(its field `Event` is the address of the backing array of a `[]Event`), and the
backing array of a `[]Event`. -/
inductive Obj where
  | chunks (cs : List ChunkCell)
  | fldt (events : Nat)
  | events (es : List Event)
deriving DecidableEq, Repr

/-- The heap: the object at address `a` is the element `a` of the list. -/
abbrev Heap := List Obj

/-- The backing array of a `[]Chunk` at an address. -/
def loadChunks (h : Heap) (a : Nat) : Option (List ChunkCell) :=
  match h[a]? with
  | some (.chunks cs) => some cs
  | _ => none

/-- The `Event` field of the `ChunkFLdt` at an address. -/
def loadFLdt (h : Heap) (a : Nat) : Option Nat :=
  match h[a]? with
  | some (.fldt ev) => some ev
  | _ => none

/-- The backing array of a `[]Event` at an address. -/
def loadEvents (h : Heap) (a : Nat) : Option (List Event) :=
  match h[a]? with
  | some (.events es) => some es
  | _ => none

/-- The chunk a cell stands for, with the pointer `FLdt` followed. -/
def readChunk (h : Heap) (c : ChunkCell) : Option Chunk :=
  match c.FLdt with
  | none => some ⟨c.Typ, c.Len, ⟨c.FLhd, none, c.Unknown⟩⟩
  | some f => do
    let ev ← loadFLdt h f
    let es ← loadEvents h ev
    some ⟨c.Typ, c.Len, ⟨c.FLhd, some ⟨es⟩, c.Unknown⟩⟩

/-- The chunks a backing array stands for. -/
def readChunks (h : Heap) : List ChunkCell → Option (List Chunk)
  | [] => some []
  | c :: cs => do
    let c1 ← readChunk h c
    let cs1 ← readChunks h cs
    some (c1 :: cs1)

/-- The project whose `Chunks` slice is at the address `chunks`: what
`restruct.Pack` and `restruct.SizeOf` see when they follow the pointers. -/
def readProject (h : Heap) (chunks : Nat) : Option Project := do
  let cs ← loadChunks h chunks
  let cs1 ← readChunks h cs
  some ⟨cs1⟩

/-- The address of the backing array of `p.Chunks[i].Data.FLdt.Event`. -/
def eventArray (h : Heap) (chunks i : Nat) : Option Nat := do
  let cs ← loadChunks h chunks
  let c ← cs[i]?
  let f ← c.FLdt
  loadFLdt h f

/-- Load `p.Chunks[i].Data.FLdt.Event[j]`. -/
def loadEvent (h : Heap) (chunks i j : Nat) : Option Event := do
  let ea ← eventArray h chunks i
  let es ← loadEvents h ea
  es[j]?

/-- Store into `p.Chunks[i].Data.FLdt.Event[j]`. -/
def storeEvent (h : Heap) (chunks i j : Nat) (e : Event) : Option Heap := do
  let ea ← eventArray h chunks i
  let es ← loadEvents h ea
  if j < es.length then some (h.set ea (.events (es.set j e))) else none

/-- Store into `p.Chunks[i]`. -/
def storeChunk (h : Heap) (chunks i : Nat) (c : ChunkCell) : Option Heap := do
  let cs ← loadChunks h chunks
  if i < cs.length then some (h.set chunks (.chunks (cs.set i c))) else none

/-- The body of the loop `for j := range p.Chunks[i].Data.FLdt.Event` (lines
174-198): the two stores into `Event[j]` of a type 233 event, the new `Data` and
then `Len.Value = uint64(len(Data))`, each through the path from `p.Chunks`.
`none` is `log.Fatalln` or a fault. -/
def heapFilterEvent (track chunks i j : Nat) (h : Heap) : Option Heap := do
  let e ← loadEvent h chunks i j
  if e.Typ = 233 then
    match PlaylistItemsEvent.Unpack e.Bytes.Data with
    | none => none
    | some ev =>
      let filteredItems := ev.Items.filter fun item => decide (item.Track = track)
      let data := PlaylistItemsEvent.Pack ⟨filteredItems⟩
      let h ← storeEvent h chunks i j { e with Bytes := { e.Bytes with Data := data } }
      let e ← loadEvent h chunks i j
      storeEvent h chunks i j
        { e with Bytes := { e.Bytes with Len := ⟨e.Bytes.Data.length % 2 ^ 64⟩ } }
  else some h

/-- The loop `for j := range p.Chunks[i].Data.FLdt.Event`, with `n` rounds left
from index `j`. -/
def heapFilterEvents (track chunks i : Nat) : Nat → Nat → Heap → Option Heap
  | 0, _, h => some h
  | n + 1, j, h => do
    let h ← heapFilterEvent track chunks i j h
    heapFilterEvents track chunks i n (j + 1) h

/-- The body of the loop `for i := range p.Chunks` (lines 166-212): for a chunk
with an FLdt pointer, copy the `ChunkFLdt` and its event array to new objects,
point `p.Chunks[i].Data.FLdt` at the copy, filter the events of the copy, and
store `uint32(size) - 8` into `p.Chunks[i].Len`. -/
def heapFilterChunk (track chunks i : Nat) (h : Heap) : Option Heap := do
  let cs ← loadChunks h chunks
  let c ← cs[i]?
  match c.FLdt with
  | none => some h
  | some f =>
    -- fldt := *p.Chunks[i].Data.FLdt
    let ev ← loadFLdt h f
    -- fldt.Event = append(fldt.Event[:0:0], fldt.Event...)
    let es ← loadEvents h ev
    let ea := h.length
    let h := h ++ [.events es]
    -- p.Chunks[i].Data.FLdt = &fldt
    let fa := h.length
    let h := h ++ [.fldt ea]
    let h ← storeChunk h chunks i { c with FLdt := some fa }
    let h ← heapFilterEvents track chunks i es.length 0 h
    -- size, err := restruct.SizeOf(p.Chunks[i]); p.Chunks[i].Len = uint32(size) - 8
    let cs ← loadChunks h chunks
    let c ← cs[i]?
    let c1 ← readChunk h c
    let size := c1.SizeOf
    storeChunk h chunks i { c with Len := (size % 2 ^ 32 + 2 ^ 32 - 8) % 2 ^ 32 }

/-- The loop `for i := range p.Chunks`, with `n` rounds left from index `i`. -/
def heapFilterChunks (track chunks : Nat) : Nat → Nat → Heap → Option Heap
  | 0, _, h => some h
  | n + 1, i, h => do
    let h ← heapFilterChunk track chunks i h
    heapFilterChunks track chunks n (i + 1) h

/-- Lines 160-212 of `filterwrite(p, track)` on the heap, `chunks` being the
address in the caller's `p.Chunks`: the new heap and the address in the callee's
`p.Chunks`, which line 162 makes a copy of the caller's array. -/
def heapFilterProject (h : Heap) (chunks track : Nat) : Option (Heap × Nat) := do
  let cs ← loadChunks h chunks
  let a := h.length
  let h := h ++ [.chunks cs]
  let h ← heapFilterChunks track a cs.length 0 h
  some (h, a)

/-- Go `func filterwrite(p Project, track uint32)` on the heap: the heap it
leaves behind and the bytes it hands to `ioutil.WriteFile`. -/
def heapFilterwrite (h : Heap) (chunks track : Nat) : Option (Heap × List Nat) := do
  let (h, a) ← heapFilterProject h chunks track
  let q ← readProject h a
  let out ← q.Pack
  some (h, out)

/-- A heap that holds `exampleProject`: the event array at address 0, the
`ChunkFLdt` at 1 and the chunk array at 2. -/
def exampleHeap : Heap :=
  [.events (exampleEvents [10, 20, 10]), .fldt 0,
   .chunks [⟨tagFLhd, 6, some ⟨0, 1, 96⟩, none, none⟩, ⟨tagFLdt, 105, none, some 1, none⟩]]

/-! ## Properties of the VLQ codec -/

theorem byte_low (b : Nat) (h : b < 128) :
    b &&& 0x7F = b ∧ b &&& 0x80 = 0 ∧ b ||| 0x80 = b + 128 := by
  revert b; decide

set_option maxRecDepth 100000 in
theorem byte_high (b : Nat) (h1 : 128 ≤ b) (h2 : b < 256) :
    b &&& 0x80 = 0x80 ∧ (b &&& 0x7F) ||| 0x80 = b ∧ b &&& 0x7F = b % 128 := by
  have : ∀ b, b < 256 → 128 ≤ b →
      b &&& 0x80 = 0x80 ∧ (b &&& 0x7F) ||| 0x80 = b ∧ b &&& 0x7F = b % 128 := by decide
  exact this b h2 h1

theorem and_7F (n : Nat) : n &&& 0x7F = n % 128 := by
  have := Nat.and_pow_two_sub_one_eq_mod n 7
  simpa using this

theorem shr_7 (n : Nat) : n >>> 7 = n / 128 := by
  simp [Nat.shiftRight_eq_div_pow]

theorem shr_7_lt (n : Nat) (h : n ≠ 0) : n >>> 7 < n := by
  rw [shr_7]; exact Nat.div_lt_self (by omega) (by omega)

theorem VLQ_tail_ne_nil (fuel last n : Nat) : VLQ.tail fuel last n ≠ [] := by
  cases fuel with
  | zero => simp [VLQ.tail]
  | succ f => simp only [VLQ.tail]; split <;> simp

theorem VLQ_tail_length_pos (fuel last n : Nat) : 0 < (VLQ.tail fuel last n).length :=
  List.length_pos.mpr (VLQ_tail_ne_nil fuel last n)

/-- Fuel beyond `n` does not change `VLQ.tail`. -/
theorem VLQ_tail_fuel (f1 : Nat) : ∀ f2 n last, n ≤ f1 → n ≤ f2 →
    VLQ.tail f1 last n = VLQ.tail f2 last n := by
  induction f1 with
  | zero =>
    intro f2 n last h1 _
    have : n = 0 := by omega
    subst this
    cases f2 <;> simp [VLQ.tail]
  | succ f ih =>
    intro f2 n last h1 h2
    cases f2 with
    | zero =>
      have : n = 0 := by omega
      subst this
      simp [VLQ.tail]
    | succ g =>
      simp only [VLQ.tail]
      by_cases hn : n = 0
      · simp [hn]
      · have := shr_7_lt n hn
        rw [if_pos hn, if_pos hn, ih g (n >>> 7) _ (by omega) (by omega)]

theorem VLQ_tail_zero (fuel last : Nat) : VLQ.tail fuel last 0 = [last] := by
  cases fuel <;> simp [VLQ.tail]

theorem VLQ_tail_pos (fuel last n : Nat) (h : n ≤ fuel) (hn : n ≠ 0) :
    VLQ.tail fuel last n
      = (last ||| 0x80) :: VLQ.tail (n >>> 7) (n &&& 0x7F) (n >>> 7) := by
  cases fuel with
  | zero => omega
  | succ f =>
    have := shr_7_lt n hn
    simp only [VLQ.tail, if_pos hn]
    rw [VLQ_tail_fuel f (n >>> 7) (n >>> 7) _ (by omega) (by omega)]

/-- The size loop counts the bytes of `VLQ.tail`. -/
theorem VLQ_sizeLoop_eq (fuel : Nat) : ∀ n result last, n ≤ fuel →
    VLQ.sizeLoop fuel n result + 1 = result + (VLQ.tail (n >>> 7) last (n >>> 7)).length := by
  induction fuel with
  | zero =>
    intro n result last h
    have : n = 0 := by omega
    subst this
    simp [VLQ.sizeLoop, VLQ.tail]
  | succ f ih =>
    intro n result last h
    simp only [VLQ.sizeLoop]
    by_cases hn : n >>> 7 > 0
    · rw [if_pos hn]
      have hn0 : n ≠ 0 := by rintro rfl; simp at hn
      have hlt := shr_7_lt n hn0
      have hne : n >>> 7 ≠ 0 := by omega
      rw [ih (n >>> 7) (result + 1) ((n >>> 7) &&& 0x7F) (by omega),
        VLQ_tail_pos (n >>> 7) last (n >>> 7) (Nat.le_refl _) hne]
      simp only [List.length_cons]; omega
    · rw [if_neg hn]
      have : n >>> 7 = 0 := by omega
      rw [this, VLQ_tail_zero]
      simp

theorem VLQ_SizeOf_eq (v : Nat) : VLQ.SizeOf ⟨v⟩ = (VLQ.bytes v).length := by
  have := VLQ_sizeLoop_eq v v 1 (v &&& 0x7F) (Nat.le_refl _)
  simp only [VLQ.SizeOf, VLQ.bytes]
  omega

theorem setByte_append (pre : List Nat) (x y : Nat) (zs : List Nat) :
    setByte (pre ++ x :: zs) pre.length y = some (pre ++ y :: zs) := by
  simp [setByte]

theorem setByte_append_succ (pre : List Nat) (x z y : Nat) (zs : List Nat) :
    setByte (pre ++ x :: z :: zs) (pre.length + 1) y = some (pre ++ x :: y :: zs) := by
  have := setByte_append (pre ++ [x]) z y zs
  simpa using this

/-- The loop of `VLQ.Pack` on a buffer with room for the bytes. -/
theorem VLQ_packLoop_eq (fuel : Nat) : ∀ n pre last zs, n ≤ fuel →
    (VLQ.tail n last n).length ≤ 1 + zs.length →
    VLQ.packLoop fuel (pre ++ last :: zs) (pre.length + 1) n
      = some (pre ++ VLQ.tail n last n ++ zs.drop ((VLQ.tail n last n).length - 1),
          pre.length + (VLQ.tail n last n).length) := by
  induction fuel with
  | zero =>
    intro n pre last zs h _
    have : n = 0 := by omega
    subst this
    simp [VLQ.packLoop, VLQ.tail]
  | succ f ih =>
    intro n pre last zs h hlen
    by_cases hn : n = 0
    · subst hn
      simp [VLQ.packLoop, VLQ.tail]
    · have hlt := shr_7_lt n hn
      rw [VLQ_tail_pos n last n (Nat.le_refl _) hn] at hlen ⊢
      have hpos := VLQ_tail_length_pos (n >>> 7) (n &&& 0x7F) (n >>> 7)
      cases zs with
      | nil => simp only [List.length_cons, List.length_nil] at hlen; omega
      | cons z zs =>
        simp only [VLQ.packLoop, if_pos hn, Nat.add_sub_cancel]
        have h1 : (pre ++ last :: z :: zs)[pre.length]? = some last := by
          rw [List.getElem?_append_right (Nat.le_refl _)]; simp
        simp only [h1, Option.bind_eq_bind, Option.some_bind, setByte_append,
          setByte_append_succ]
        have hlen2 : (VLQ.tail (n >>> 7) (n &&& 0x7F) (n >>> 7)).length ≤ 1 + zs.length := by
          simp only [List.length_cons] at hlen; omega
        have hle : n >>> 7 ≤ f := by omega
        have := ih (n >>> 7) (pre ++ [last ||| 0x80]) (n &&& 0x7F) zs hle hlen2
        simp only [List.length_append, List.length_singleton, List.append_assoc,
          List.singleton_append] at this
        rw [this]
        simp only [List.length_cons, Nat.add_sub_cancel, List.drop_succ_cons, Option.some.injEq,
          Prod.mk.injEq, List.append_assoc, List.cons_append, List.append_cancel_left_eq,
          List.cons.injEq, true_and]
        refine ⟨?_, by omega⟩
        obtain ⟨m, hm⟩ : ∃ m, (VLQ.tail (n >>> 7) (n &&& 0x7F) (n >>> 7)).length = m + 1 :=
          ⟨_, (Nat.sub_add_cancel hpos).symm⟩
        rw [hm]
        simp

/-- `VLQ.Pack` on a buffer with room for the bytes writes `VLQ.bytes` at its
start and returns the part behind them. -/
theorem VLQ_Pack_eq (v : Nat) (buf : List Nat) (h : (VLQ.bytes v).length ≤ buf.length) :
    VLQ.Pack ⟨v⟩ buf
      = some (VLQ.bytes v ++ buf.drop (VLQ.bytes v).length, buf.drop (VLQ.bytes v).length) := by
  have hpos : 0 < (VLQ.bytes v).length := VLQ_tail_length_pos _ _ _
  cases buf with
  | nil => simp only [List.length_nil] at h; omega
  | cons x zs =>
    have hl := VLQ_packLoop_eq (v >>> 7) (v >>> 7) [] (v &&& 0x7F) zs
      (Nat.le_refl _) (by simp only [VLQ.bytes, List.length_cons] at h; omega)
    have h0 : setByte (x :: zs) 0 (v &&& 0x7F) = some ((v &&& 0x7F) :: zs) := by simp [setByte]
    simp only [VLQ.Pack, h0, Option.bind_eq_bind, Option.some_bind]
    simp only [List.nil_append, List.length_nil, Nat.zero_add] at hl
    rw [hl]
    obtain ⟨m, hm⟩ : ∃ m, (VLQ.tail (v >>> 7) (v &&& 0x7F) (v >>> 7)).length = m + 1 :=
      ⟨_, (Nat.sub_add_cancel hpos).symm⟩
    simp only [VLQ.bytes, hm, Option.some_bind, Nat.add_sub_cancel, List.drop_succ_cons,
      Option.some.injEq, Prod.mk.injEq, true_and]
    rw [List.drop_append_eq_append_drop]
    simp [hm]

/-- The bytes written for a `VLQ` field are `VLQ.bytes`. -/
theorem VLQ_write_eq (v : Nat) : VLQ.write ⟨v⟩ = some (VLQ.bytes v) := by
  have hsz := VLQ_SizeOf_eq v
  have := VLQ_Pack_eq v (List.replicate (VLQ.SizeOf ⟨v⟩) 0) (by simp [hsz])
  simp only [VLQ.write, this, Option.map_some', Option.some.injEq]
  simp [hsz]

/-- The bytes of `VLQ.tail` are VLQ groups standing for `last + 128 * n`. -/
theorem VLQ_tail_groups (fuel : Nat) : ∀ n last, n ≤ fuel → last < 128 →
    VLQ.Groups (VLQ.tail fuel last n)
      ∧ VLQ.groupsValue (VLQ.tail fuel last n) = last + 128 * n := by
  induction fuel with
  | zero =>
    intro n last h hl
    have : n = 0 := by omega
    subst this
    simp only [VLQ.tail, VLQ.Groups, VLQ.groupsValue]
    omega
  | succ f ih =>
    intro n last h hl
    by_cases hn : n = 0
    · subst hn
      simp only [VLQ_tail_zero, VLQ.Groups, VLQ.groupsValue]
      omega
    · have hlt := shr_7_lt n hn
      have hle : n >>> 7 ≤ f := by omega
      have hm : n &&& 0x7F < 128 := by rw [and_7F]; omega
      obtain ⟨hg, hv⟩ := ih (n >>> 7) (n &&& 0x7F) hle hm
      simp only [VLQ.tail, if_pos hn]
      obtain ⟨d, cs, hcs⟩ : ∃ d cs, VLQ.tail f (n &&& 0x7F) (n >>> 7) = d :: cs := by
        cases hc : VLQ.tail f (n &&& 0x7F) (n >>> 7) with
        | nil => exact absurd hc (VLQ_tail_ne_nil _ _ _)
        | cons d cs => exact ⟨d, cs, rfl⟩
      have hor := (byte_low last hl).2.2
      rw [hcs] at hg hv ⊢
      refine ⟨⟨by omega, by omega, hg⟩, ?_⟩
      simp only [VLQ.groupsValue] at hv ⊢
      rw [hv, hor, and_7F, shr_7]
      omega

/-- The last byte of `VLQ.tail` is not zero when a group is left to write. -/
theorem VLQ_tail_getLast (fuel : Nat) : ∀ n last, n ≤ fuel → n ≠ 0 →
    ∀ t, (VLQ.tail fuel last n).getLast? = some t → t ≠ 0 := by
  induction fuel with
  | zero => intro n last h hn; omega
  | succ f ih =>
    intro n last h hn t ht
    have hlt := shr_7_lt n hn
    simp only [VLQ.tail, if_pos hn] at ht
    by_cases h7 : n >>> 7 = 0
    · rw [h7, VLQ_tail_zero] at ht
      simp only [List.getLast?_cons_cons, List.getLast?_singleton, Option.some.injEq] at ht
      rw [and_7F] at ht
      rw [shr_7] at h7
      omega
    · have hne := VLQ_tail_ne_nil f (n &&& 0x7F) (n >>> 7)
      obtain ⟨d, cs, hcs⟩ : ∃ d cs, VLQ.tail f (n &&& 0x7F) (n >>> 7) = d :: cs := by
        cases hc : VLQ.tail f (n &&& 0x7F) (n >>> 7) with
        | nil => exact absurd hc hne
        | cons d cs => exact ⟨d, cs, rfl⟩
      rw [hcs, List.getLast?_cons_cons, ← hcs] at ht
      exact ih (n >>> 7) _ (by omega) h7 t ht

/-- The number of bytes of `VLQ.tail` is the least that holds `n`. -/
theorem VLQ_tail_length_bound (fuel : Nat) : ∀ n last, n ≤ fuel →
    ∃ m, (VLQ.tail fuel last n).length = m + 1 ∧ n < 128 ^ m
      ∧ (m ≠ 0 → 128 ^ (m - 1) ≤ n) := by
  induction fuel with
  | zero =>
    intro n last h
    have : n = 0 := by omega
    subst this
    exact ⟨0, by simp [VLQ.tail]⟩
  | succ f ih =>
    intro n last h
    by_cases hn : n = 0
    · subst hn
      exact ⟨0, by simp [VLQ.tail]⟩
    · have hlt := shr_7_lt n hn
      obtain ⟨m, hm, h1, h2⟩ := ih (n >>> 7) (n &&& 0x7F) (by omega)
      rw [shr_7] at h1 h2
      refine ⟨m + 1, by simp [VLQ.tail, hn, hm], ?_, ?_⟩
      · rw [pow_succ]
        omega
      · intro _
        simp only [Nat.add_sub_cancel]
        by_cases hm0 : m = 0
        · subst hm0
          simp only [pow_zero]
          omega
        · have h3 := h2 hm0
          obtain ⟨k, hk⟩ : ∃ k, m = k + 1 := ⟨m - 1, by omega⟩
          subst hk
          simp only [Nat.add_sub_cancel] at h3
          rw [pow_succ]
          omega

theorem pow128 (k : Nat) : 128 ^ k = 2 ^ (7 * k) := by
  rw [pow_mul]; norm_num

theorem or_shift (acc x shift : Nat) (h : acc < 2 ^ shift) :
    acc ||| x * 2 ^ shift = acc + x * 2 ^ shift := by
  have := Nat.mul_add_lt_is_or h x
  rw [Nat.lor_comm, Nat.mul_comm x, ← this, Nat.add_comm]

theorem VLQ_groupsValue_cons (c : Nat) (cs : List Nat) :
    VLQ.groupsValue (c :: cs) = c % 128 + 128 * VLQ.groupsValue cs := rfl

theorem VLQ_unpackLoop_cons (b : Nat) (rest : List Nat) (n shift : Nat) :
    VLQ.unpackLoop (b :: rest) n shift
      = if b &&& 0x80 = 0 then some (n ||| (((b &&& 0x7F) <<< shift) % 2 ^ 64), rest)
        else VLQ.unpackLoop rest (n ||| (((b &&& 0x7F) <<< shift) % 2 ^ 64)) (shift + 7) := rfl

/-- Decoding a sequence of VLQ groups that fits 64 bits. -/
theorem VLQ_unpackLoop_groups : ∀ (gs rest : List Nat) (acc shift : Nat), VLQ.Groups gs →
    acc < 2 ^ shift → acc + VLQ.groupsValue gs * 2 ^ shift < 2 ^ 64 →
    VLQ.unpackLoop (gs ++ rest) acc shift
      = some (acc + VLQ.groupsValue gs * 2 ^ shift, rest)
  | [], _, _, _, hg, _, _ => by simp [VLQ.Groups] at hg
  | [t], rest, acc, shift, hg, hacc, hlt => by
    simp only [VLQ.Groups] at hg
    obtain ⟨h1, h2, -⟩ := byte_low t hg
    have hv : VLQ.groupsValue [t] = t := by simp only [VLQ.groupsValue]; omega
    rw [hv] at hlt ⊢
    rw [List.singleton_append, VLQ_unpackLoop_cons, h1, h2, if_pos rfl, Nat.shiftLeft_eq,
      Nat.mod_eq_of_lt (by omega), or_shift _ _ _ hacc]
  | c :: d :: cs, rest, acc, shift, hg, hacc, hlt => by
    simp only [VLQ.Groups] at hg
    obtain ⟨hc1, hc2, hg2⟩ := hg
    obtain ⟨h1, -, h3⟩ := byte_high c hc1 hc2
    rw [VLQ_groupsValue_cons] at hlt ⊢
    have hp : 2 ^ (shift + 7) = 128 * 2 ^ shift := by rw [pow_add]; omega
    have hmod : c % 128 < 128 := Nat.mod_lt _ (by omega)
    have hmul : c % 128 * 2 ^ shift ≤ 127 * 2 ^ shift := Nat.mul_le_mul_right _ (by omega)
    have hexp : (c % 128 + 128 * VLQ.groupsValue (d :: cs)) * 2 ^ shift
        = c % 128 * 2 ^ shift + VLQ.groupsValue (d :: cs) * (128 * 2 ^ shift) := by ring
    rw [hexp] at hlt
    have ih := VLQ_unpackLoop_groups (d :: cs) rest (acc + c % 128 * 2 ^ shift) (shift + 7) hg2
      (by rw [hp]; omega) (by rw [hp]; omega)
    rw [List.cons_append, VLQ_unpackLoop_cons, h1, h3, if_neg (by omega), Nat.shiftLeft_eq,
      Nat.mod_eq_of_lt (by omega), or_shift _ _ _ hacc, ih, hp, hexp]
    congr 2
    omega

/-- Unpacking the bytes of the VLQ of a 64 bit value gives the value back. -/
theorem VLQ_Unpack_bytes (v : Nat) (hv : v < 2 ^ 64) (rest : List Nat) :
    VLQ.Unpack (VLQ.bytes v ++ rest) = some (⟨v⟩, rest) := by
  have hm : v &&& 0x7F < 128 := by rw [and_7F]; omega
  obtain ⟨hg, hval⟩ := VLQ_tail_groups (v >>> 7) (v >>> 7) (v &&& 0x7F) (Nat.le_refl _) hm
  have hval2 : VLQ.groupsValue (VLQ.bytes v) = v := by
    rw [VLQ.bytes, hval, and_7F, shr_7]; omega
  have := VLQ_unpackLoop_groups (VLQ.bytes v) rest 0 0 hg (by simp) (by simpa [hval2] using hv)
  simp [VLQ.Unpack, this, hval2]

theorem VLQ_groups_continuation : ∀ (gs : List Nat), VLQ.Groups gs →
    (∀ i b, i + 1 < gs.length → gs[i]? = some b → b &&& 0x80 = 0x80)
      ∧ (∀ b, gs.getLast? = some b → b &&& 0x80 = 0)
  | [], hg => by simp [VLQ.Groups] at hg
  | [t], hg => by
    simp only [VLQ.Groups] at hg
    refine ⟨fun i b hi => by simp at hi, fun b hb => ?_⟩
    simp only [List.getLast?_singleton, Option.some.injEq] at hb
    subst hb
    exact (byte_low t hg).2.1
  | c :: d :: cs, hg => by
    simp only [VLQ.Groups] at hg
    obtain ⟨hc1, hc2, hg2⟩ := hg
    obtain ⟨ih1, ih2⟩ := VLQ_groups_continuation (d :: cs) hg2
    refine ⟨fun i b hi hb => ?_, fun b hb => ?_⟩
    · cases i with
      | zero =>
        simp only [List.getElem?_cons_zero, Option.some.injEq] at hb
        subst hb
        exact (byte_high c hc1 hc2).1
      | succ j =>
        simp only [List.getElem?_cons_succ] at hb
        exact ih1 j b (by simp only [List.length_cons] at hi ⊢; omega) hb
    · rw [List.getLast?_cons_cons] at hb
      exact ih2 b hb

theorem VLQ_bytes_groups (v : Nat) :
    VLQ.Groups (VLQ.bytes v) ∧ VLQ.groupsValue (VLQ.bytes v) = v := by
  have hm : v &&& 0x7F < 128 := by rw [and_7F]; omega
  obtain ⟨hg, hval⟩ := VLQ_tail_groups (v >>> 7) (v >>> 7) (v &&& 0x7F) (Nat.le_refl _) hm
  refine ⟨hg, ?_⟩
  rw [VLQ.bytes, hval, and_7F, shr_7]; omega

theorem VLQ_bytes_getLast (v : Nat) (hv : 0 < v) :
    ∀ t, (VLQ.bytes v).getLast? = some t → t ≠ 0 := by
  intro t ht
  by_cases h7 : v >>> 7 = 0
  · rw [VLQ.bytes, h7, VLQ_tail_zero, List.getLast?_singleton, and_7F] at ht
    rw [shr_7] at h7
    simp only [Option.some.injEq] at ht
    omega
  · exact VLQ_tail_getLast _ _ _ (Nat.le_refl _) h7 t ht

theorem VLQ_bytes_length (v : Nat) :
    1 ≤ (VLQ.bytes v).length ∧ v < 2 ^ (7 * (VLQ.bytes v).length)
      ∧ ∀ k, 1 ≤ k → v < 2 ^ (7 * k) → (VLQ.bytes v).length ≤ k := by
  obtain ⟨m, hm, h1, h2⟩ := VLQ_tail_length_bound (v >>> 7) (v >>> 7) (v &&& 0x7F) (Nat.le_refl _)
  rw [shr_7] at h1 h2
  have hlen : (VLQ.bytes v).length = m + 1 := hm
  rw [hlen]
  refine ⟨by omega, ?_, ?_⟩
  · rw [← pow128, pow_succ]; omega
  · intro k hk hvk
    by_contra hcon
    have hkm : k ≤ m := by omega
    have hm0 : m ≠ 0 := by omega
    have h3 := h2 hm0
    rw [← pow128] at hvk
    have h4 : 128 ^ k ≤ 128 ^ m := Nat.pow_le_pow_right (by omega) hkm
    obtain ⟨j, hj⟩ : ∃ j, m = j + 1 := ⟨m - 1, by omega⟩
    subst hj
    simp only [Nat.add_sub_cancel] at h3
    rw [pow_succ] at h4
    omega

/-- C4: for every uint64 value `v` (including `0` and `2 ^ 64 - 1`), `VLQ.Unpack`
applied to the buffer `VLQ.Pack` wrote `v` into returns exactly `v` and the very
slice `VLQ.Pack` returned, so it consumes exactly the `VLQ.SizeOf` bytes written;
the same holds for the bytes of a packed `VLQ` field followed by any `rest`. -/
theorem VLQ_unpack_pack_roundtrip (v : Nat) (hv : v < 2 ^ 64) (buf : List Nat)
    (hbuf : VLQ.SizeOf ⟨v⟩ ≤ buf.length) :
    (∃ out rem, VLQ.Pack ⟨v⟩ buf = some (out, rem)
        ∧ VLQ.Unpack out = some (⟨v⟩, rem)
        ∧ out.length = buf.length
        ∧ rem.length + VLQ.SizeOf ⟨v⟩ = out.length)
      ∧ ∃ bs, VLQ.write ⟨v⟩ = some bs ∧ bs.length = VLQ.SizeOf ⟨v⟩
        ∧ ∀ rest, VLQ.Unpack (bs ++ rest) = some (⟨v⟩, rest)
          ∧ (bs ++ rest).length - rest.length = bs.length := by
  have hsz := VLQ_SizeOf_eq v
  constructor
  · refine ⟨_, _, VLQ_Pack_eq v buf (by omega), VLQ_Unpack_bytes v hv _, ?_, ?_⟩
    · simp only [List.length_append, List.length_drop]; omega
    · simp only [List.length_append, List.length_drop]; omega
  · exact ⟨_, VLQ_write_eq v, hsz.symm, fun rest => ⟨VLQ_Unpack_bytes v hv rest, by simp⟩⟩

theorem VLQ_unpack_pack_roundtrip_witness :
    2 ^ 64 - 1 < 2 ^ 64 ∧ VLQ.SizeOf ⟨2 ^ 64 - 1⟩ ≤ (List.replicate 10 0).length
      ∧ VLQ.Pack ⟨2 ^ 64 - 1⟩ (List.replicate 10 0)
          = some ([255, 255, 255, 255, 255, 255, 255, 255, 255, 1], [])
      ∧ ((∃ out rem, VLQ.Pack ⟨2 ^ 64 - 1⟩ (List.replicate 10 0) = some (out, rem)
          ∧ VLQ.Unpack out = some (⟨2 ^ 64 - 1⟩, rem)
          ∧ out.length = (List.replicate 10 0).length
          ∧ rem.length + VLQ.SizeOf ⟨2 ^ 64 - 1⟩ = out.length)
        ∧ ∃ bs, VLQ.write ⟨2 ^ 64 - 1⟩ = some bs ∧ bs.length = VLQ.SizeOf ⟨2 ^ 64 - 1⟩
          ∧ ∀ rest, VLQ.Unpack (bs ++ rest) = some (⟨2 ^ 64 - 1⟩, rest)
            ∧ (bs ++ rest).length - rest.length = bs.length) :=
  ⟨by decide, by decide, by decide,
    VLQ_unpack_pack_roundtrip (2 ^ 64 - 1) (by decide) (List.replicate 10 0) (by decide)⟩

/-- C5: for every value `v`, the bytes `VLQ.Pack` writes (into any buffer with
room, and so for a packed `VLQ` field) are the minimal VLQ of `v`: every byte but
the last has bit `0x80` set, the last has it clear, the 7 bit groups stand for
`v`, their number is the least `k ≥ 1` with `v < 2 ^ (7 * k)` and is what
`VLQ.SizeOf` returns, `v = 0` gives the single byte `0x00`, and for `v > 0` the
last byte is not zero. -/
theorem VLQ_pack_minimal (v : Nat) :
    ∃ bs, VLQ.write ⟨v⟩ = some bs
      ∧ (∀ buf : List Nat, bs.length ≤ buf.length →
          VLQ.Pack ⟨v⟩ buf = some (bs ++ buf.drop bs.length, buf.drop bs.length))
      ∧ bs.length = VLQ.SizeOf ⟨v⟩
      ∧ (∀ i b, i + 1 < bs.length → bs[i]? = some b → b &&& 0x80 = 0x80)
      ∧ (∃ t, bs.getLast? = some t ∧ t &&& 0x80 = 0 ∧ (0 < v → t ≠ 0))
      ∧ VLQ.groupsValue bs = v
      ∧ 1 ≤ bs.length ∧ v < 2 ^ (7 * bs.length)
      ∧ (∀ k, 1 ≤ k → v < 2 ^ (7 * k) → bs.length ≤ k)
      ∧ (v = 0 → bs = [0]) := by
  obtain ⟨hg, hval⟩ := VLQ_bytes_groups v
  obtain ⟨hc1, hc2⟩ := VLQ_groups_continuation _ hg
  obtain ⟨hl1, hl2, hl3⟩ := VLQ_bytes_length v
  refine ⟨VLQ.bytes v, VLQ_write_eq v, fun buf hb => VLQ_Pack_eq v buf hb,
    (VLQ_SizeOf_eq v).symm, hc1, ?_, hval, hl1, hl2, hl3, ?_⟩
  · have hne : VLQ.bytes v ≠ [] := VLQ_tail_ne_nil _ _ _
    refine ⟨(VLQ.bytes v).getLast hne, List.getLast?_eq_getLast _ hne, ?_, ?_⟩
    · exact hc2 _ (List.getLast?_eq_getLast _ hne)
    · intro hv
      exact VLQ_bytes_getLast v hv _ (List.getLast?_eq_getLast _ hne)
  · rintro rfl
    rfl

/-! ## Byte level lemmas -/

@[simp] theorem IsBytes_nil : IsBytes [] := by simp [IsBytes]

@[simp] theorem IsBytes_cons (b : Nat) (bs : List Nat) :
    IsBytes (b :: bs) ↔ b < 256 ∧ IsBytes bs := by simp [IsBytes]

@[simp] theorem IsBytes_append (xs ys : List Nat) :
    IsBytes (xs ++ ys) ↔ IsBytes xs ∧ IsBytes ys := by
  simp only [IsBytes, List.mem_append]
  constructor
  · intro h; exact ⟨fun b hb => h b (Or.inl hb), fun b hb => h b (Or.inr hb)⟩
  · rintro ⟨h1, h2⟩ b (hb | hb)
    · exact h1 b hb
    · exact h2 b hb

theorem IsBytes_take (n : Nat) (xs : List Nat) (h : IsBytes xs) : IsBytes (xs.take n) :=
  fun b hb => h b (List.mem_of_mem_take hb)

theorem IsBytes_drop (n : Nat) (xs : List Nat) (h : IsBytes xs) : IsBytes (xs.drop n) :=
  fun b hb => h b (List.mem_of_mem_drop hb)

theorem readU8_some {buf rest : List Nat} {v : Nat} (h : readU8 buf = some (v, rest)) :
    buf = v :: rest := by
  cases buf with
  | nil => simp [readU8] at h
  | cons b bs => simp only [readU8, Option.some.injEq, Prod.mk.injEq] at h; rw [h.1, h.2]

theorem readU16_some {buf rest : List Nat} {v : Nat} (hb : IsBytes buf)
    (h : readU16 buf = some (v, rest)) :
    buf = putU16 v ++ rest ∧ v < 65536 ∧ IsBytes rest := by
  match buf, h, hb with
  | b0 :: b1 :: bs, h, hb =>
    simp only [readU16, Option.some.injEq, Prod.mk.injEq] at h
    simp only [IsBytes_cons] at hb
    obtain ⟨h1, h2⟩ := h
    subst h1 h2
    refine ⟨?_, by omega, hb.2.2⟩
    simp only [putU16, List.cons_append, List.nil_append, List.cons.injEq, and_true]
    omega

theorem readU32_some {buf rest : List Nat} {v : Nat} (hb : IsBytes buf)
    (h : readU32 buf = some (v, rest)) :
    buf = putU32 v ++ rest ∧ v < 2 ^ 32 ∧ IsBytes rest := by
  match buf, h, hb with
  | b0 :: b1 :: b2 :: b3 :: bs, h, hb =>
    simp only [readU32, Option.some.injEq, Prod.mk.injEq] at h
    simp only [IsBytes_cons] at hb
    obtain ⟨h1, h2⟩ := h
    subst h1 h2
    refine ⟨?_, by omega, hb.2.2.2.2⟩
    simp only [putU32, List.cons_append, List.nil_append, List.cons.injEq, and_true]
    omega

theorem readBytes_some {n : Nat} {buf d rest : List Nat} (h : readBytes n buf = some (d, rest)) :
    buf = d ++ rest ∧ d.length = n := by
  simp only [readBytes] at h
  split at h
  · simp only [Option.some.injEq, Prod.mk.injEq] at h
    obtain ⟨h1, h2⟩ := h
    subst h1 h2
    exact ⟨(List.take_append_drop n buf).symm, by simp; omega⟩
  · exact absurd h (by simp)

theorem readU8_put (v : Nat) (hv : v < 256) (rest : List Nat) :
    readU8 (putU8 v ++ rest) = some (v, rest) := by
  simp [readU8, putU8, Nat.mod_eq_of_lt hv]

theorem readU16_put (v : Nat) (hv : v < 65536) (rest : List Nat) :
    readU16 (putU16 v ++ rest) = some (v, rest) := by
  simp only [putU16, List.cons_append, List.nil_append, readU16, Option.some.injEq,
    Prod.mk.injEq, and_true]
  omega

theorem readU32_put (v : Nat) (hv : v < 2 ^ 32) (rest : List Nat) :
    readU32 (putU32 v ++ rest) = some (v, rest) := by
  simp only [putU32, List.cons_append, List.nil_append, readU32, Option.some.injEq,
    Prod.mk.injEq, and_true]
  omega

theorem readBytes_append (d rest : List Nat) :
    readBytes d.length (d ++ rest) = some (d, rest) := by
  simp [readBytes]

theorem putU16_length (v : Nat) : (putU16 v).length = 2 := rfl

theorem putU32_length (v : Nat) : (putU32 v).length = 4 := rfl

theorem IsBytes_putU8 (v : Nat) : IsBytes (putU8 v) := by
  simp only [putU8, IsBytes_cons, IsBytes_nil, and_true]; omega

theorem IsBytes_putU16 (v : Nat) : IsBytes (putU16 v) := by
  simp only [putU16, IsBytes_cons, IsBytes_nil, and_true]; omega

theorem IsBytes_putU32 (v : Nat) : IsBytes (putU32 v) := by
  simp only [putU32, IsBytes_cons, IsBytes_nil, and_true]; omega

/-! ## What `VLQ.Unpack` returns on an arbitrary buffer -/

set_option maxRecDepth 100000 in
theorem byte_bit7 (b : Nat) (hb : b < 256) : (b &&& 0x80 = 0 ↔ b < 128) := by
  have : ∀ b, b < 256 → (b &&& 0x80 = 0 ↔ b < 128) := by decide
  exact this b hb

theorem and_7F_lt (b : Nat) : b &&& 0x7F < 128 := by
  rw [and_7F]; omega

/-- The bytes `VLQ.Unpack` consumes are in front of the slice it returns; in a
byte buffer they are continuation bytes followed by a terminating byte. -/
theorem VLQ_unpackLoop_split : ∀ (buf : List Nat) (acc shift v : Nat) (rest : List Nat),
    VLQ.unpackLoop buf acc shift = some (v, rest) →
    ∃ gs, buf = gs ++ rest ∧ gs ≠ [] ∧ (IsBytes buf → VLQ.Groups gs)
  | [], _, _, _, _, h => by simp [VLQ.unpackLoop] at h
  | b :: bs, acc, shift, v, rest, h => by
    rw [VLQ_unpackLoop_cons] at h
    by_cases hb : b &&& 0x80 = 0
    · rw [if_pos hb] at h
      simp only [Option.some.injEq, Prod.mk.injEq] at h
      refine ⟨[b], by simp [h.2], by simp, fun hB => ?_⟩
      simp only [IsBytes_cons] at hB
      exact (byte_bit7 b hB.1).mp hb
    · rw [if_neg hb] at h
      obtain ⟨gs, h1, h2, h3⟩ := VLQ_unpackLoop_split bs _ _ v rest h
      refine ⟨b :: gs, by simp [h1], by simp, fun hB => ?_⟩
      simp only [IsBytes_cons] at hB
      have hg := h3 hB.2
      have hb128 : 128 ≤ b := by
        by_contra hc
        exact hb ((byte_bit7 b hB.1).mpr (by omega))
      cases gs with
      | nil => exact absurd rfl h2
      | cons d cs => exact ⟨hb128, hB.1, hg⟩

theorem VLQ_unpackLoop_lt : ∀ (buf : List Nat) (acc shift v : Nat) (rest : List Nat),
    VLQ.unpackLoop buf acc shift = some (v, rest) → acc < 2 ^ 64 → v < 2 ^ 64
  | [], _, _, _, _, h, _ => by simp [VLQ.unpackLoop] at h
  | b :: bs, acc, shift, v, rest, h, hacc => by
    rw [VLQ_unpackLoop_cons] at h
    have hor : acc ||| (b &&& 0x7F) <<< shift % 2 ^ 64 < 2 ^ 64 :=
      Nat.or_lt_two_pow hacc (Nat.mod_lt _ (by positivity))
    by_cases hb : b &&& 0x80 = 0
    · rw [if_pos hb] at h
      simp only [Option.some.injEq, Prod.mk.injEq] at h
      rw [← h.1]; exact hor
    · rw [if_neg hb] at h
      exact VLQ_unpackLoop_lt bs _ _ v rest h hor

/-- The decoded value fits the 7 bit groups that were consumed. -/
theorem VLQ_unpackLoop_bound : ∀ (buf : List Nat) (acc shift v : Nat) (rest : List Nat),
    VLQ.unpackLoop buf acc shift = some (v, rest) → acc < 2 ^ shift →
    v < 2 ^ (shift + 7 * (buf.length - rest.length)) ∧ rest.length < buf.length
  | [], _, _, _, _, h, _ => by simp [VLQ.unpackLoop] at h
  | b :: bs, acc, shift, v, rest, h, hacc => by
    rw [VLQ_unpackLoop_cons] at h
    have hp : 2 ^ (shift + 7) = 128 * 2 ^ shift := by rw [pow_add]; omega
    have hx : (b &&& 0x7F) <<< shift % 2 ^ 64 < 2 ^ (shift + 7) := by
      refine lt_of_le_of_lt (Nat.mod_le _ _) ?_
      rw [Nat.shiftLeft_eq, hp]
      exact Nat.mul_lt_mul_of_pos_right (and_7F_lt b) (by positivity)
    have hacc2 : acc < 2 ^ (shift + 7) := by rw [hp]; omega
    have hor : acc ||| (b &&& 0x7F) <<< shift % 2 ^ 64 < 2 ^ (shift + 7) :=
      Nat.or_lt_two_pow hacc2 hx
    by_cases hb : b &&& 0x80 = 0
    · rw [if_pos hb] at h
      simp only [Option.some.injEq, Prod.mk.injEq] at h
      obtain ⟨h1, h2⟩ := h
      subst h1 h2
      simp only [List.length_cons, Nat.add_sub_cancel_left, Nat.lt_add_one, and_true]
      exact hor
    · rw [if_neg hb] at h
      obtain ⟨ih1, ih2⟩ := VLQ_unpackLoop_bound bs _ _ v rest h hor
      refine ⟨?_, by simp only [List.length_cons]; omega⟩
      have : shift + 7 + 7 * (bs.length - rest.length)
          = shift + 7 * ((b :: bs).length - rest.length) := by
        simp only [List.length_cons]; omega
      rw [← this]; exact ih1

/-- The minimal VLQ of a value is no longer than any VLQ that decodes to it. -/
theorem VLQ_SizeOf_le_consumed (buf : List Nat) (v : VLQ) (rest : List Nat)
    (h : VLQ.Unpack buf = some (v, rest)) :
    v.Value < 2 ^ 64 ∧ rest.length < buf.length
      ∧ v.SizeOf + rest.length ≤ buf.length := by
  simp only [VLQ.Unpack, Option.map_eq_some'] at h
  obtain ⟨⟨n, r⟩, h1, h2⟩ := h
  simp only [Prod.mk.injEq] at h2
  obtain ⟨h2, h3⟩ := h2
  subst h2 h3
  obtain ⟨hb1, hb2⟩ := VLQ_unpackLoop_bound buf 0 0 n r h1 (by simp)
  refine ⟨VLQ_unpackLoop_lt buf 0 0 n r h1 (by simp), hb2, ?_⟩
  have := (VLQ_bytes_length n).2.2 (buf.length - r.length) (by omega) (by simpa using hb1)
  rw [VLQ_SizeOf_eq]
  omega

theorem VLQ_SizeOf_mono (a b : Nat) (h : a ≤ b) : VLQ.SizeOf ⟨a⟩ ≤ VLQ.SizeOf ⟨b⟩ := by
  rw [VLQ_SizeOf_eq, VLQ_SizeOf_eq]
  obtain ⟨h1, h2, -⟩ := VLQ_bytes_length b
  exact (VLQ_bytes_length a).2.2 _ h1 (by omega)

/-! ## What decoding guarantees -/

set_option maxRecDepth 100000 in
theorem byte_class (ty : Nat) (h : ty < 256) :
    ty &&& 0xC0 = 0x00 ∨ ty &&& 0xC0 = 0x40 ∨ ty &&& 0xC0 = 0x80 ∨ ty &&& 0xC0 = 0xC0 := by
  have : ∀ ty, ty < 256 →
      (ty &&& 0xC0 = 0x00 ∨ ty &&& 0xC0 = 0x40 ∨ ty &&& 0xC0 = 0x80 ∨ ty &&& 0xC0 = 0xC0) := by
    decide
  exact this ty h

theorem Event_Unpack_nil : Event.Unpack [] = none := rfl

theorem Event_Unpack_c0 (ty : Nat) (bs : List Nat) (hc : ty &&& 0xC0 = 0x00) :
    Event.Unpack (ty :: bs)
      = (readU8 bs).map fun r => (⟨ty, r.1, 0, 0, ⟨⟨0⟩, []⟩⟩, r.2) := by
  unfold Event.Unpack
  simp only [Option.bind_eq_bind, Option.some_bind, hc, readU8]
  cases bs <;> simp

theorem Event_Unpack_c1 (ty : Nat) (bs : List Nat) (hc : ty &&& 0xC0 = 0x40) :
    Event.Unpack (ty :: bs)
      = (readU16 bs).map fun r => (⟨ty, 0, r.1, 0, ⟨⟨0⟩, []⟩⟩, r.2) := by
  unfold Event.Unpack
  simp only [Option.bind_eq_bind, Option.some_bind, hc, readU8]
  cases readU16 bs <;> simp

theorem Event_Unpack_c2 (ty : Nat) (bs : List Nat) (hc : ty &&& 0xC0 = 0x80) :
    Event.Unpack (ty :: bs)
      = (readU32 bs).map fun r => (⟨ty, 0, 0, r.1, ⟨⟨0⟩, []⟩⟩, r.2) := by
  unfold Event.Unpack
  simp only [Option.bind_eq_bind, Option.some_bind, hc, readU8]
  cases readU32 bs <;> simp

theorem Event_Unpack_c3 (ty : Nat) (bs : List Nat) (hc : ty &&& 0xC0 = 0xC0) :
    Event.Unpack (ty :: bs)
      = (EventBytes.Unpack bs).map fun r => (⟨ty, 0, 0, 0, r.1⟩, r.2) := by
  unfold Event.Unpack
  simp only [Option.bind_eq_bind, Option.some_bind, hc, readU8]
  cases EventBytes.Unpack bs <;> simp

theorem Event_Pack_c0 (e : Event) (hc : e.Typ &&& 0xC0 = 0x00) :
    e.Pack = some (putU8 e.Typ ++ putU8 e.Int8) := by
  simp [Event.Pack, hc]

theorem Event_Pack_c1 (e : Event) (hc : e.Typ &&& 0xC0 = 0x40) :
    e.Pack = some (putU8 e.Typ ++ putU16 e.Int16) := by
  simp [Event.Pack, hc]

theorem Event_Pack_c2 (e : Event) (hc : e.Typ &&& 0xC0 = 0x80) :
    e.Pack = some (putU8 e.Typ ++ putU32 e.Int32) := by
  simp [Event.Pack, hc]

theorem EventBytes_Pack_eq (b : EventBytes) (hl : b.Data.length = b.Len.Value) :
    b.Pack = some (VLQ.bytes b.Len.Value ++ b.Data) := by
  obtain ⟨⟨v⟩, d⟩ := b
  simp only at hl
  simp [EventBytes.Pack, VLQ_write_eq, hl]

/-- Packing `EventBytes` fails exactly when `Data` has not the length `Len.Value`. -/
theorem EventBytes_Pack_some {b : EventBytes} {bs : List Nat} (h : b.Pack = some bs) :
    b.Data.length = b.Len.Value ∧ VLQ.bytes b.Len.Value ++ b.Data = bs := by
  by_cases hl : b.Data.length = b.Len.Value
  · rw [EventBytes_Pack_eq b hl] at h
    injection h with h
    exact ⟨hl, h⟩
  · obtain ⟨⟨v⟩, d⟩ := b
    simp only at hl
    simp [EventBytes.Pack, VLQ_write_eq, hl] at h

theorem Event_Pack_c3 (e : Event) (hc : e.Typ &&& 0xC0 = 0xC0)
    (hl : e.Bytes.Data.length = e.Bytes.Len.Value) :
    e.Pack = some (putU8 e.Typ ++ (VLQ.bytes e.Bytes.Len.Value ++ e.Bytes.Data)) := by
  simp [Event.Pack, hc, EventBytes_Pack_eq _ hl]

theorem Event_Pack_c3_some {e : Event} (hc : e.Typ &&& 0xC0 = 0xC0) {bs : List Nat}
    (h : e.Pack = some bs) :
    putU8 e.Typ ++ (VLQ.bytes e.Bytes.Len.Value ++ e.Bytes.Data) = bs := by
  by_cases hl : e.Bytes.Data.length = e.Bytes.Len.Value
  · rw [Event_Pack_c3 e hc hl] at h
    injection h
  · simp only [Event.Pack, hc, if_true, Option.bind_eq_bind, Option.bind_eq_some] at h
    obtain ⟨x, hx, -⟩ := h
    exact absurd (EventBytes_Pack_some hx).1 hl

theorem Event_SizeOf_c0 (e : Event) (hc : e.Typ &&& 0xC0 = 0x00) : e.SizeOf = 2 := by
  simp [Event.SizeOf, hc]

theorem Event_SizeOf_c1 (e : Event) (hc : e.Typ &&& 0xC0 = 0x40) : e.SizeOf = 3 := by
  simp [Event.SizeOf, hc]

theorem Event_SizeOf_c2 (e : Event) (hc : e.Typ &&& 0xC0 = 0x80) : e.SizeOf = 5 := by
  simp [Event.SizeOf, hc]

theorem Event_SizeOf_c3 (e : Event) (hc : e.Typ &&& 0xC0 = 0xC0) :
    e.SizeOf = 1 + ((VLQ.bytes e.Bytes.Len.Value).length + e.Bytes.Data.length) := by
  obtain ⟨ty, i8, i16, i32, ⟨⟨v⟩, d⟩⟩ := e
  simp only at hc
  simp [Event.SizeOf, hc, EventBytes.SizeOf, VLQ_SizeOf_eq]

theorem EventBytes_Unpack_some {buf rest : List Nat} {b : EventBytes}
    (h : EventBytes.Unpack buf = some (b, rest)) :
    b.Len.Value < 2 ^ 64 ∧ b.Data.length = b.Len.Value
      ∧ b.SizeOf + rest.length ≤ buf.length
      ∧ (IsBytes buf → IsBytes b.Data ∧ IsBytes rest)
      ∧ ∃ gs, buf = gs ++ b.Data ++ rest ∧ VLQ.Unpack (gs ++ b.Data ++ rest)
          = some (b.Len, b.Data ++ rest) := by
  simp only [EventBytes.Unpack, Option.bind_eq_bind, Option.bind_eq_some] at h
  obtain ⟨⟨len, r1⟩, h1, ⟨data, r2⟩, h2, h3⟩ := h
  simp only [Option.some.injEq, Prod.mk.injEq] at h3
  obtain ⟨h3, h4⟩ := h3
  subst h3 h4
  simp only at h2
  obtain ⟨hd1, hd2⟩ := readBytes_some h2
  obtain ⟨hv1, hv2, hv3⟩ := VLQ_SizeOf_le_consumed buf len r1 h1
  have hsplit : ∃ gs, buf = gs ++ r1 := by
    simp only [VLQ.Unpack, Option.map_eq_some'] at h1
    obtain ⟨⟨n, r⟩, h1, h5⟩ := h1
    simp only [Prod.mk.injEq] at h5
    obtain ⟨gs, hg, -⟩ := VLQ_unpackLoop_split buf 0 0 n r h1
    exact ⟨gs, by rw [hg, h5.2]⟩
  obtain ⟨gs, hgs⟩ := hsplit
  refine ⟨hv1, hd2, ?_, ?_, gs, ?_, ?_⟩
  · simp only [EventBytes.SizeOf]
    rw [hd1] at hv3
    simp only [List.length_append] at hv3
    omega
  · intro hB
    rw [hgs, hd1] at hB
    simp only [IsBytes_append] at hB
    exact ⟨hB.2.1, hB.2.2⟩
  · rw [hgs, hd1, List.append_assoc]
  · simp only [List.append_assoc]; rw [← hd1, ← hgs]; exact h1

/-- A decoded event is well formed, and its packed size is at most the number
of bytes it was decoded from. -/
theorem Event_Unpack_some {buf rest : List Nat} {e : Event} (hB : IsBytes buf)
    (h : Event.Unpack buf = some (e, rest)) :
    e.WF ∧ IsBytes rest ∧ e.SizeOf + rest.length ≤ buf.length ∧ rest.length < buf.length := by
  cases buf with
  | nil => simp [Event_Unpack_nil] at h
  | cons ty bs =>
    simp only [IsBytes_cons] at hB
    obtain ⟨hty, hbs⟩ := hB
    rcases byte_class ty hty with hc | hc | hc | hc
    · rw [Event_Unpack_c0 ty bs hc] at h
      simp only [Option.map_eq_some'] at h
      obtain ⟨⟨v, r⟩, h1, h2⟩ := h
      simp only [Prod.mk.injEq] at h2
      obtain ⟨h2, h3⟩ := h2
      subst h2 h3
      have := readU8_some h1
      subst this
      simp only [IsBytes_cons] at hbs
      refine ⟨?_, hbs.2, ?_, by simp only [List.length_cons, List.length_append, putU16_length, putU32_length]; omega⟩
      · simp [Event.WF, hc, hty, hbs.1]
      · rw [Event_SizeOf_c0 _ hc]; simp only [List.length_cons, List.length_append, putU16_length, putU32_length]; omega
    · rw [Event_Unpack_c1 ty bs hc] at h
      simp only [Option.map_eq_some'] at h
      obtain ⟨⟨v, r⟩, h1, h2⟩ := h
      simp only [Prod.mk.injEq] at h2
      obtain ⟨h2, h3⟩ := h2
      subst h2 h3
      obtain ⟨h4, h5, h6⟩ := readU16_some hbs h1
      subst h4
      refine ⟨?_, h6, ?_, by simp only [List.length_cons, List.length_append, putU16_length, putU32_length]; omega⟩
      · simp [Event.WF, hc, hty, h5]
      · rw [Event_SizeOf_c1 _ hc]; simp only [List.length_cons, List.length_append, putU16_length, putU32_length]; omega
    · rw [Event_Unpack_c2 ty bs hc] at h
      simp only [Option.map_eq_some'] at h
      obtain ⟨⟨v, r⟩, h1, h2⟩ := h
      simp only [Prod.mk.injEq] at h2
      obtain ⟨h2, h3⟩ := h2
      subst h2 h3
      obtain ⟨h4, h5, h6⟩ := readU32_some hbs h1
      subst h4
      refine ⟨?_, h6, ?_, by simp only [List.length_cons, List.length_append, putU16_length, putU32_length]; omega⟩
      · simp only [Event.WF, hc, hty]; simpa using h5
      · rw [Event_SizeOf_c2 _ hc]; simp only [List.length_cons, List.length_append, putU16_length, putU32_length]; omega
    · rw [Event_Unpack_c3 ty bs hc] at h
      simp only [Option.map_eq_some'] at h
      obtain ⟨⟨b, r⟩, h1, h2⟩ := h
      simp only [Prod.mk.injEq] at h2
      obtain ⟨h2, h3⟩ := h2
      subst h2 h3
      obtain ⟨h4, h5, h6, h7, -⟩ := EventBytes_Unpack_some h1
      obtain ⟨h8, h9⟩ := h7 hbs
      refine ⟨?_, h9, ?_, ?_⟩
      · have h4' : b.Len.Value < 18446744073709551616 := h4
        simp only [Event.WF, hc, hty]; simp [h4', h5, h8]
      · simp only [Event.SizeOf, hc, List.length_cons]
        simp only [Nat.reduceEqDiff, if_false, if_true]
        omega
      · simp only [List.length_cons]; omega

/-- Enough fuel: the loop over events does not depend on fuel beyond the length
of the buffer. -/
theorem Event_unpackAll_some (fuel : Nat) : ∀ (buf : List Nat) (es : List Event),
    IsBytes buf → Event.unpackAll fuel buf = some es →
    (∀ e ∈ es, e.WF) ∧ Event.sizeAll es ≤ buf.length := by
  induction fuel with
  | zero =>
    intro buf es hB h
    simp only [Event.unpackAll] at h
    split at h
    · simp only [Option.some.injEq] at h; subst h; simp [Event.sizeAll]
    · exact absurd h (by simp)
  | succ f ih =>
    intro buf es hB h
    simp only [Event.unpackAll] at h
    split at h
    · simp only [Option.some.injEq] at h; subst h; simp [Event.sizeAll]
    · simp only [Option.bind_eq_bind, Option.bind_eq_some] at h
      obtain ⟨⟨e, rest⟩, h1, es1, h2, h3⟩ := h
      simp only [Option.some.injEq] at h3
      subst h3
      obtain ⟨hw, hr, hs, -⟩ := Event_Unpack_some hB h1
      obtain ⟨ih1, ih2⟩ := ih rest es1 hr h2
      refine ⟨?_, ?_⟩
      · intro x hx
        simp only [List.mem_cons] at hx
        rcases hx with rfl | hx
        · exact hw
        · exact ih1 x hx
      · simp only [Event.sizeAll]; omega

/-! ### The tag string -/

theorem cString_nil : cString [] = [] := rfl

theorem cString_cons_zero (r : List Nat) : cString (0 :: r) = [] := rfl

theorem cString_cons_ne (b : Nat) (r : List Nat) (hb : b ≠ 0) :
    cString (b :: r) = b :: cString r := by
  simp only [cString, List.takeWhile_cons]
  rw [if_pos (by simpa using hb)]

theorem cString_length_le : ∀ (raw : List Nat), (cString raw).length ≤ raw.length
  | [] => Nat.le_refl _
  | b :: r => by
    by_cases hb : b = 0
    · subst hb
      rw [cString_cons_zero]
      exact Nat.zero_le _
    · rw [cString_cons_ne b r hb, List.length_cons, List.length_cons]
      exact Nat.succ_le_succ (cString_length_le r)

theorem cString_ne_zero : ∀ (raw : List Nat), ∀ b ∈ cString raw, b ≠ 0
  | [], b, hb => by simp [cString_nil] at hb
  | x :: r, b, hb => by
    by_cases hx : x = 0
    · subst hx
      rw [cString_cons_zero] at hb
      exact absurd hb (List.not_mem_nil _)
    · rw [cString_cons_ne x r hx, List.mem_cons] at hb
      rcases hb with rfl | hb
      · exact hx
      · exact cString_ne_zero r b hb

theorem cString_subset : ∀ (raw : List Nat), ∀ b ∈ cString raw, b ∈ raw
  | [], b, hb => by simp [cString_nil] at hb
  | x :: r, b, hb => by
    by_cases hx : x = 0
    · subst hx
      rw [cString_cons_zero] at hb
      exact absurd hb (List.not_mem_nil _)
    · rw [cString_cons_ne x r hx, List.mem_cons] at hb
      rcases hb with rfl | hb
      · exact List.mem_cons_self _ _
      · exact List.mem_cons_of_mem _ (cString_subset r b hb)

theorem cString_IsBytes {raw : List Nat} (h : IsBytes raw) : IsBytes (cString raw) :=
  fun b hb => h b (cString_subset raw b hb)

/-- Reading the string stops at the padding. -/
theorem cString_pad : ∀ (ty : List Nat) (n : Nat), (∀ b ∈ ty, b ≠ 0) →
    cString (ty ++ List.replicate n 0) = ty
  | [], n, _ => by
    cases n with
    | zero => rfl
    | succ n => rw [List.nil_append, List.replicate_succ, cString_cons_zero]
  | b :: ty, n, h => by
    have hb : b ≠ 0 := h b (List.mem_cons_self _ _)
    rw [List.cons_append, cString_cons_ne _ _ hb,
      cString_pad ty n (fun x hx => h x (List.mem_cons_of_mem _ hx))]

/-- A string without NUL byte is the string read off it. -/
theorem cString_self (ty : List Nat) (h : ∀ b ∈ ty, b ≠ 0) : cString ty = ty := by
  have := cString_pad ty 0 h
  simpa using this

/-- A string as long as the bytes it is read off is these bytes. -/
theorem cString_full : ∀ (raw : List Nat), (cString raw).length = raw.length →
    cString raw = raw
  | [], _ => rfl
  | b :: r, h => by
    by_cases hb : b = 0
    · subst hb
      rw [cString_cons_zero] at h
      simp at h
    · rw [cString_cons_ne b r hb] at h ⊢
      simp only [List.length_cons, Nat.add_right_cancel_iff] at h
      rw [cString_full r h]

theorem putTag_pad (ty : List Nat) (h : ty.length ≤ 4) :
    putTag ty = ty ++ List.replicate (4 - ty.length) 0 := by
  simp only [putTag]
  rw [List.take_append_eq_append_take, List.take_of_length_le h, List.take_replicate]
  congr 2
  omega

theorem putTag_IsBytes {ty : List Nat} (h : IsBytes ty) : IsBytes (putTag ty) := by
  intro b hb
  simp only [putTag] at hb
  have hb2 := List.mem_of_mem_take hb
  rw [List.mem_append] at hb2
  rcases hb2 with hb2 | hb2
  · exact h b hb2
  · rw [List.mem_replicate] at hb2
    omega

/-- The tag bytes written for a tag string read back as the string. -/
theorem cString_putTag (ty : List Nat) (hl : ty.length ≤ 4) (hz : ∀ b ∈ ty, b ≠ 0) :
    cString (putTag ty) = ty := by
  rw [putTag_pad ty hl, cString_pad ty _ hz]

/-- Four tag bytes that read as a string of four bytes are that string. -/
theorem cString_eq_four {raw ty : List Nat} (hr : raw.length = 4) (ht : ty.length = 4)
    (h : cString raw = ty) : raw = ty := by
  rw [← h]
  exact (cString_full raw (by rw [h, ht, hr])).symm

/-- A decoded chunk is well formed; an FLdt chunk leaves nothing behind it; and
the packed size of the payload is at most the number of bytes decoded. -/
theorem Chunk_Unpack_some {buf rest : List Nat} {c : Chunk} (hB : IsBytes buf)
    (h : Chunk.Unpack buf = some (c, rest)) :
    c.WF ∧ IsBytes rest ∧ rest.length < buf.length ∧ (c.Typ = tagFLdt → rest = [])
      ∧ c.Data.SizeOf c.Typ + 8 + rest.length ≤ buf.length := by
  simp only [Chunk.Unpack, Option.bind_eq_bind, Option.bind_eq_some] at h
  obtain ⟨⟨raw, r1⟩, h1, ⟨len, r2⟩, h2, h3⟩ := h
  simp only at h2 h3
  obtain ⟨hd1, hd2⟩ := readBytes_some h1
  subst hd1
  simp only [IsBytes_append] at hB
  obtain ⟨hl1, hl2, hl3⟩ := readU32_some hB.2 h2
  subst hl1
  have hty : (cString raw).length ≤ 4 ∧ ∀ b ∈ cString raw, b ≠ 0 :=
    ⟨by have := cString_length_le raw; omega, cString_ne_zero raw⟩
  have htB : IsBytes (cString raw) := cString_IsBytes hB.1
  by_cases ht1 : cString raw = tagFLhd
  · rw [if_pos ht1] at h3
    simp only [ChunkFLhd.Unpack, Option.bind_eq_bind, Option.bind_eq_some] at h3
    obtain ⟨⟨hd, r3⟩, ⟨⟨a, ra⟩, ha, ⟨b, rb⟩, hb, ⟨d, rd⟩, hd', h4⟩, h5⟩ := h3
    simp only at hb hd' h4
    simp only [Option.some.injEq, Prod.mk.injEq] at h4 h5
    obtain ⟨h4a, h4b⟩ := h4
    obtain ⟨h5a, h5b⟩ := h5
    subst h4a h4b h5a h5b
    obtain ⟨ea, la, ia⟩ := readU16_some hl3 ha
    obtain ⟨eb, lb, ib⟩ := readU16_some ia hb
    obtain ⟨ed, ld, id'⟩ := readU16_some ib hd'
    subst ea eb ed
    refine ⟨?_, id', ?_, ?_, ?_⟩
    · simp only [Chunk.WF]
      refine ⟨hty, htB, hl2, ?_⟩
      rw [if_pos ht1]
      exact ⟨_, rfl, la, lb, ld⟩
    · simp only [List.length_cons, List.length_append, List.length_nil, putU16_length, putU32_length, hd2]; omega
    · intro hc; simp only at hc; rw [ht1] at hc; exact absurd hc (by decide)
    · simp only [ChunkData.SizeOf, if_pos ht1]; simp only [List.length_cons, List.length_append, List.length_nil, putU16_length, putU32_length, hd2]; omega
  · rw [if_neg ht1] at h3
    by_cases ht2 : cString raw = tagFLdt
    · rw [if_pos ht2] at h3
      simp only [ChunkFLdt.Unpack, Option.bind_eq_bind, Option.bind_eq_some,
        Option.map_eq_some'] at h3
      obtain ⟨⟨d, r3⟩, ⟨es, hes, h4⟩, h5⟩ := h3
      simp only [Option.some.injEq, Prod.mk.injEq] at h4 h5
      obtain ⟨h4a, h4b⟩ := h4
      obtain ⟨h5a, h5b⟩ := h5
      subst h4a h4b h5a h5b
      obtain ⟨hw, hs⟩ := Event_unpackAll_some _ _ _ hl3 hes
      refine ⟨?_, by simp, ?_, fun _ => rfl, ?_⟩
      · simp only [Chunk.WF]
        refine ⟨hty, htB, hl2, ?_⟩
        rw [if_neg ht1, if_pos ht2]
        exact ⟨_, rfl, hw⟩
      · simp only [List.length_cons, List.length_append, List.length_nil, putU16_length, putU32_length, hd2]; omega
      · simp only [ChunkData.SizeOf, if_neg ht1, if_pos ht2]; simp only [List.length_cons, List.length_append, List.length_nil, putU16_length, putU32_length, hd2]; omega
    · rw [if_neg ht2] at h3
      simp only [ChunkUnk.Unpack, Option.bind_eq_bind, Option.bind_eq_some] at h3
      obtain ⟨⟨u, r3⟩, ⟨⟨d, r4⟩, hd, h4⟩, h5⟩ := h3
      simp only [Option.some.injEq, Prod.mk.injEq] at h4 h5
      obtain ⟨h4a, h4b⟩ := h4
      obtain ⟨h5a, h5b⟩ := h5
      subst h4a h4b h5a h5b
      obtain ⟨hu1, hu2⟩ := readBytes_some hd
      subst hu1
      simp only [IsBytes_append] at hl3
      refine ⟨?_, hl3.2, ?_, ?_, ?_⟩
      · simp only [Chunk.WF]
        refine ⟨hty, htB, hl2, ?_⟩
        rw [if_neg ht1, if_neg ht2]
        exact ⟨_, rfl, hu2, hl3.1⟩
      · simp only [List.length_cons, List.length_append, List.length_nil, putU16_length, putU32_length, hd2]; omega
      · intro hc; exact absurd hc ht2
      · simp only [ChunkData.SizeOf, if_neg ht1, if_neg ht2]; simp only [List.length_cons, List.length_append, List.length_nil, putU16_length, putU32_length, hd2]; omega

theorem Chunk_unpackAll_some (fuel : Nat) : ∀ (buf : List Nat) (cs : List Chunk),
    IsBytes buf → Chunk.unpackAll fuel buf = some cs →
    Chunk.WFAll cs ∧ ∀ c ∈ cs, c.Data.SizeOf c.Typ + 8 ≤ buf.length := by
  induction fuel with
  | zero =>
    intro buf cs hB h
    simp only [Chunk.unpackAll] at h
    split at h
    · simp only [Option.some.injEq] at h; subst h; simp [Chunk.WFAll]
    · exact absurd h (by simp)
  | succ f ih =>
    intro buf cs hB h
    simp only [Chunk.unpackAll] at h
    split at h
    · simp only [Option.some.injEq] at h; subst h; simp [Chunk.WFAll]
    · rename_i hne
      simp only [Option.bind_eq_bind, Option.bind_eq_some] at h
      obtain ⟨⟨c, rest⟩, h1, cs1, h2, h3⟩ := h
      simp only [Option.some.injEq] at h3
      subst h3
      obtain ⟨hw, hr, hlt, hlast, hs⟩ := Chunk_Unpack_some hB h1
      obtain ⟨ih1, ih2⟩ := ih rest cs1 hr h2
      refine ⟨⟨hw, ?_, ih1⟩, ?_⟩
      · intro hc
        have hrest := hlast hc
        subst hrest
        cases f with
        | zero => simp [Chunk.unpackAll] at h2; exact h2
        | succ g => simp [Chunk.unpackAll] at h2; exact h2
      · intro x hx
        simp only [List.mem_cons] at hx
        rcases hx with rfl | hx
        · omega
        · have := ih2 x hx; omega

/-- The chunks of a project decoded from a byte buffer are well formed. -/
theorem Project_Unpack_some {buf : List Nat} {p : Project} (hB : IsBytes buf)
    (h : Project.Unpack buf = some p) :
    Chunk.WFAll p.Chunks ∧ ∀ c ∈ p.Chunks, c.Data.SizeOf c.Typ + 8 ≤ buf.length := by
  simp only [Project.Unpack, Option.map_eq_some'] at h
  obtain ⟨cs, h1, h2⟩ := h
  subst h2
  exact Chunk_unpackAll_some _ _ _ hB h1

/-! ## The record array codec -/

theorem PlaylistItem_Pack_length (it : PlaylistItem) : it.Pack.length = 32 := by
  simp [PlaylistItem.Pack, putU16_length, putU32_length]

theorem PlaylistItem_IsBytes_Pack (it : PlaylistItem) : IsBytes it.Pack := by
  simp [PlaylistItem.Pack, IsBytes_putU16, IsBytes_putU32]

/-- A decoded record is in range and its encoding is what it was decoded from. -/
theorem PlaylistItem_Unpack_some {buf rest : List Nat} {it : PlaylistItem} (hB : IsBytes buf)
    (h : PlaylistItem.Unpack buf = some (it, rest)) :
    buf = it.Pack ++ rest ∧ it.InRange ∧ IsBytes rest := by
  simp only [PlaylistItem.Unpack, Option.bind_eq_bind, Option.bind_eq_some] at h
  obtain ⟨⟨a0, r0⟩, h0, ⟨a1, r1⟩, h1, ⟨a2, r2⟩, h2, ⟨a3, r3⟩, h3, ⟨a4, r4⟩, h4,
    ⟨a5, r5⟩, h5, ⟨a6, r6⟩, h6, ⟨a7, r7⟩, h7, ⟨a8, r8⟩, h8, ⟨a9, r9⟩, h9, h10⟩ := h
  simp only at h1 h2 h3 h4 h5 h6 h7 h8 h9 h10
  simp only [Option.some.injEq, Prod.mk.injEq] at h10
  obtain ⟨h10, h11⟩ := h10
  subst h10 h11
  obtain ⟨e0, l0, i0⟩ := readU32_some hB h0
  obtain ⟨e1, l1, i1⟩ := readU16_some i0 h1
  obtain ⟨e2, l2, i2⟩ := readU16_some i1 h2
  obtain ⟨e3, l3, i3⟩ := readU32_some i2 h3
  obtain ⟨e4, l4, i4⟩ := readU32_some i3 h4
  obtain ⟨e5, l5, i5⟩ := readU16_some i4 h5
  obtain ⟨e6, l6, i6⟩ := readU16_some i5 h6
  obtain ⟨e7, l7, i7⟩ := readU32_some i6 h7
  obtain ⟨e8, l8, i8⟩ := readU32_some i7 h8
  obtain ⟨e9, l9, i9⟩ := readU32_some i8 h9
  refine ⟨?_, ⟨l0, l1, l2, l3, l4, l5, l6, l7, l8, l9⟩, i9⟩
  rw [e0, e1, e2, e3, e4, e5, e6, e7, e8, e9]
  simp [PlaylistItem.Pack]

/-- Decoding the encoding of a record in range gives the record back. -/
theorem PlaylistItem_Unpack_Pack (it : PlaylistItem) (h : it.InRange) (rest : List Nat) :
    PlaylistItem.Unpack (it.Pack ++ rest) = some (it, rest) := by
  obtain ⟨l0, l1, l2, l3, l4, l5, l6, l7, l8, l9⟩ := h
  simp only [PlaylistItem.Unpack, PlaylistItem.Pack, List.append_assoc, Option.bind_eq_bind]
  rw [readU32_put _ l0]; simp only [Option.some_bind]
  rw [readU16_put _ l1]; simp only [Option.some_bind]
  rw [readU16_put _ l2]; simp only [Option.some_bind]
  rw [readU32_put _ l3]; simp only [Option.some_bind]
  rw [readU32_put _ l4]; simp only [Option.some_bind]
  rw [readU16_put _ l5]; simp only [Option.some_bind]
  rw [readU16_put _ l6]; simp only [Option.some_bind]
  rw [readU32_put _ l7]; simp only [Option.some_bind]
  rw [readU32_put _ l8]; simp only [Option.some_bind]
  rw [readU32_put _ l9]; simp only [Option.some_bind]

theorem PlaylistItemsEvent_Pack_nil : PlaylistItemsEvent.Pack ⟨[]⟩ = [] := rfl

theorem PlaylistItemsEvent_Pack_cons (it : PlaylistItem) (items : List PlaylistItem) :
    PlaylistItemsEvent.Pack ⟨it :: items⟩ = it.Pack ++ PlaylistItemsEvent.Pack ⟨items⟩ := rfl

theorem PlaylistItemsEvent_Pack_length (items : List PlaylistItem) :
    (PlaylistItemsEvent.Pack ⟨items⟩).length = 32 * items.length := by
  induction items with
  | nil => rfl
  | cons it items ih =>
    rw [PlaylistItemsEvent_Pack_cons, List.length_append, ih, PlaylistItem_Pack_length,
      List.length_cons]
    omega

theorem PlaylistItemsEvent_IsBytes_Pack (items : List PlaylistItem) :
    IsBytes (PlaylistItemsEvent.Pack ⟨items⟩) := by
  induction items with
  | nil => simp [PlaylistItemsEvent_Pack_nil]
  | cons it items ih =>
    rw [PlaylistItemsEvent_Pack_cons, IsBytes_append]
    exact ⟨PlaylistItem_IsBytes_Pack it, ih⟩

theorem PlaylistItem_unpackAll_some (fuel : Nat) : ∀ (buf : List Nat)
    (items : List PlaylistItem), IsBytes buf → PlaylistItem.unpackAll fuel buf = some items →
    buf = PlaylistItemsEvent.Pack ⟨items⟩ ∧ ∀ it ∈ items, it.InRange := by
  induction fuel with
  | zero =>
    intro buf items hB h
    simp only [PlaylistItem.unpackAll] at h
    split at h
    · rename_i he
      simp only [Option.some.injEq] at h; subst h
      exact ⟨by simpa using he, by simp⟩
    · exact absurd h (by simp)
  | succ f ih =>
    intro buf items hB h
    simp only [PlaylistItem.unpackAll] at h
    split at h
    · rename_i he
      simp only [Option.some.injEq] at h; subst h
      exact ⟨by simpa using he, by simp⟩
    · simp only [Option.bind_eq_bind, Option.bind_eq_some] at h
      obtain ⟨⟨it, rest⟩, h1, its, h2, h3⟩ := h
      simp only [Option.some.injEq] at h3
      subst h3
      obtain ⟨hb, hr, hi⟩ := PlaylistItem_Unpack_some hB h1
      obtain ⟨ih1, ih2⟩ := ih rest its hi h2
      refine ⟨by rw [PlaylistItemsEvent_Pack_cons, ← ih1, ← hb], ?_⟩
      intro x hx
      simp only [List.mem_cons] at hx
      rcases hx with rfl | hx
      · exact hr
      · exact ih2 x hx

theorem PlaylistItem_unpackAll_Pack : ∀ (items : List PlaylistItem) (fuel : Nat),
    (∀ it ∈ items, it.InRange) → items.length ≤ fuel →
    PlaylistItem.unpackAll fuel (PlaylistItemsEvent.Pack ⟨items⟩) = some items
  | [], fuel, _, _ => by cases fuel <;> simp [PlaylistItem.unpackAll, PlaylistItemsEvent_Pack_nil]
  | it :: items, 0, _, hf => by simp at hf
  | it :: items, fuel + 1, hr, hf => by
    have hne : (PlaylistItemsEvent.Pack ⟨it :: items⟩).isEmpty = false := by
      rw [List.isEmpty_eq_false, ← List.length_pos, PlaylistItemsEvent_Pack_length]
      simp
    simp only [PlaylistItem.unpackAll, hne, Bool.false_eq_true, if_false]
    rw [PlaylistItemsEvent_Pack_cons,
      PlaylistItem_Unpack_Pack it (hr it (List.mem_cons_self _ _))]
    have ih := PlaylistItem_unpackAll_Pack items fuel
      (fun x hx => hr x (List.mem_cons_of_mem _ hx)) (by simpa using hf)
    simp [ih]

/-- A record array decoded from bytes: its payload is the encoding of the
records, which are in range. -/
theorem PlaylistItemsEvent_Unpack_some {buf : List Nat} {ev : PlaylistItemsEvent}
    (hB : IsBytes buf) (h : PlaylistItemsEvent.Unpack buf = some ev) :
    buf = PlaylistItemsEvent.Pack ⟨ev.Items⟩ ∧ (∀ it ∈ ev.Items, it.InRange)
      ∧ buf.length = 32 * ev.Items.length := by
  simp only [PlaylistItemsEvent.Unpack, Option.map_eq_some'] at h
  obtain ⟨items, h1, h2⟩ := h
  subst h2
  obtain ⟨h3, h4⟩ := PlaylistItem_unpackAll_some _ _ _ hB h1
  refine ⟨h3, h4, ?_⟩
  conv_lhs => rw [h3]
  exact PlaylistItemsEvent_Pack_length items

/-- Decoding the encoding of records in range gives the records back. -/
theorem PlaylistItemsEvent_Unpack_Pack (items : List PlaylistItem)
    (hr : ∀ it ∈ items, it.InRange) :
    PlaylistItemsEvent.Unpack (PlaylistItemsEvent.Pack ⟨items⟩) = some ⟨items⟩ := by
  simp only [PlaylistItemsEvent.Unpack]
  rw [PlaylistItem_unpackAll_Pack items _ hr (by rw [PlaylistItemsEvent_Pack_length]; omega)]
  rfl

/-! ## The filter -/

theorem filterEvent_other (track : Nat) (e : Event) (h : e.Typ ≠ 233) :
    filterEvent track e = some e := by
  simp [filterEvent, h]

theorem filterEvent_playlist (track : Nat) (e : Event) (h : e.Typ = 233) :
    filterEvent track e
      = (PlaylistItemsEvent.Unpack e.Bytes.Data).map fun ev =>
          { e with Bytes :=
              { Len := ⟨(PlaylistItemsEvent.Pack
                  ⟨ev.Items.filter fun item => decide (item.Track = track)⟩).length % 2 ^ 64⟩,
                Data := PlaylistItemsEvent.Pack
                  ⟨ev.Items.filter fun item => decide (item.Track = track)⟩ } } := by
  simp only [filterEvent, h, if_true]
  cases PlaylistItemsEvent.Unpack e.Bytes.Data <;> rfl

/-- The event loop of the filter keeps the number and the order of the events. -/
theorem filterEvents_some (track : Nat) : ∀ (es es' : List Event),
    filterEvents track es = some es' →
    es'.length = es.length
      ∧ ∀ (j : Nat) (e e' : Event), es[j]? = some e → es'[j]? = some e' →
          filterEvent track e = some e'
  | [], es', h => by
    simp only [filterEvents, Option.some.injEq] at h
    subst h
    simp
  | e :: es, es', h => by
    simp only [filterEvents, Option.bind_eq_bind, Option.bind_eq_some] at h
    obtain ⟨e1, h1, es1, h2, h3⟩ := h
    simp only [Option.some.injEq] at h3
    subst h3
    obtain ⟨ih1, ih2⟩ := filterEvents_some track es es1 h2
    refine ⟨by simp [ih1], ?_⟩
    intro j x x' hx hx'
    cases j with
    | zero =>
      simp only [List.getElem?_cons_zero, Option.some.injEq] at hx hx'
      subst hx hx'
      exact h1
    | succ k =>
      simp only [List.getElem?_cons_succ] at hx hx'
      exact ih2 k x x' hx hx'

/-- The event loop of the filter finishes when every event can be filtered. -/
theorem filterEvents_isSome (track : Nat) : ∀ (es : List Event),
    (∀ e ∈ es, ∃ e', filterEvent track e = some e') → ∃ es', filterEvents track es = some es'
  | [], _ => ⟨[], rfl⟩
  | e :: es, h => by
    obtain ⟨e', he⟩ := h e (List.mem_cons_self _ _)
    obtain ⟨es', hes⟩ := filterEvents_isSome track es
      (fun x hx => h x (List.mem_cons_of_mem _ hx))
    exact ⟨e' :: es', by simp [filterEvents, he, hes]⟩

theorem filterEvents_mem (track : Nat) : ∀ (es es' : List Event),
    filterEvents track es = some es' →
    (∀ e' ∈ es', ∃ e ∈ es, filterEvent track e = some e')
      ∧ (∀ e ∈ es, ∃ e', filterEvent track e = some e')
  | [], es', h => by
    simp only [filterEvents, Option.some.injEq] at h
    subst h
    simp
  | e :: es, es', h => by
    simp only [filterEvents, Option.bind_eq_bind, Option.bind_eq_some] at h
    obtain ⟨e1, h1, es1, h2, h3⟩ := h
    simp only [Option.some.injEq] at h3
    subst h3
    obtain ⟨ih1, ih2⟩ := filterEvents_mem track es es1 h2
    constructor
    · intro x hx
      simp only [List.mem_cons] at hx
      rcases hx with rfl | hx
      · exact ⟨e, List.mem_cons_self _ _, h1⟩
      · obtain ⟨y, hy, hy'⟩ := ih1 x hx
        exact ⟨y, List.mem_cons_of_mem _ hy, hy'⟩
    · intro x hx
      simp only [List.mem_cons] at hx
      rcases hx with rfl | hx
      · exact ⟨e1, h1⟩
      · exact ih2 x hx

theorem filterChunk_other (track : Nat) (c : Chunk) (h : c.Data.FLdt = none) :
    filterChunk track c = some c := by
  simp [filterChunk, h]

theorem filterChunk_FLdt (track : Nat) (c : Chunk) (d : ChunkFLdt) (h : c.Data.FLdt = some d) :
    filterChunk track c
      = (filterEvents track d.Event).map fun events =>
          { Typ := c.Typ,
            Len := ((Chunk.SizeOf { c with Data := { c.Data with FLdt := some ⟨events⟩ } })
              % 2 ^ 32 + 2 ^ 32 - 8) % 2 ^ 32,
            Data := { c.Data with FLdt := some ⟨events⟩ } } := by
  simp only [filterChunk, h, Option.bind_eq_bind]
  cases filterEvents track d.Event <;> rfl

/-- The chunk loop of the filter keeps the number and the order of the chunks. -/
theorem filterChunks_some (track : Nat) : ∀ (cs cs' : List Chunk),
    filterChunks track cs = some cs' →
    cs'.length = cs.length
      ∧ ∀ (i : Nat) (c c' : Chunk), cs[i]? = some c → cs'[i]? = some c' →
          filterChunk track c = some c'
  | [], cs', h => by
    simp only [filterChunks, Option.some.injEq] at h
    subst h
    simp
  | c :: cs, cs', h => by
    simp only [filterChunks, Option.bind_eq_bind, Option.bind_eq_some] at h
    obtain ⟨c1, h1, cs1, h2, h3⟩ := h
    simp only [Option.some.injEq] at h3
    subst h3
    obtain ⟨ih1, ih2⟩ := filterChunks_some track cs cs1 h2
    refine ⟨by simp [ih1], ?_⟩
    intro j x x' hx hx'
    cases j with
    | zero =>
      simp only [List.getElem?_cons_zero, Option.some.injEq] at hx hx'
      subst hx hx'
      exact h1
    | succ k =>
      simp only [List.getElem?_cons_succ] at hx hx'
      exact ih2 k x x' hx hx'

theorem filterChunks_isSome (track : Nat) : ∀ (cs : List Chunk),
    (∀ c ∈ cs, ∃ c', filterChunk track c = some c') → ∃ cs', filterChunks track cs = some cs'
  | [], _ => ⟨[], rfl⟩
  | c :: cs, h => by
    obtain ⟨c', hc⟩ := h c (List.mem_cons_self _ _)
    obtain ⟨cs', hcs⟩ := filterChunks_isSome track cs
      (fun x hx => h x (List.mem_cons_of_mem _ hx))
    exact ⟨c' :: cs', by simp [filterChunks, hc, hcs]⟩

theorem filterChunks_mem (track : Nat) : ∀ (cs cs' : List Chunk),
    filterChunks track cs = some cs' →
    ∀ c' ∈ cs', ∃ c ∈ cs, filterChunk track c = some c'
  | [], cs', h => by
    simp only [filterChunks, Option.some.injEq] at h
    subst h
    simp
  | c :: cs, cs', h => by
    simp only [filterChunks, Option.bind_eq_bind, Option.bind_eq_some] at h
    obtain ⟨c1, h1, cs1, h2, h3⟩ := h
    simp only [Option.some.injEq] at h3
    subst h3
    have ih := filterChunks_mem track cs cs1 h2
    intro x hx
    simp only [List.mem_cons] at hx
    rcases hx with rfl | hx
    · exact ⟨c, List.mem_cons_self _ _, h1⟩
    · obtain ⟨y, hy, hy'⟩ := ih x hx
      exact ⟨y, List.mem_cons_of_mem _ hy, hy'⟩

/-! ## Discovery -/

theorem mapSet_mem (m : List Int) (k T : Int) : T ∈ mapSet m k ↔ T ∈ m ∨ T = k := by
  simp only [mapSet]
  split
  · constructor
    · exact Or.inl
    · rintro (h | rfl)
      · exact h
      · assumption
  · simp only [List.mem_cons]; tauto

theorem mapSet_nodup (m : List Int) (k : Int) (h : m.Nodup) : (mapSet m k).Nodup := by
  simp only [mapSet]
  split
  · exact h
  · rename_i hk
    exact List.nodup_cons.mpr ⟨hk, h⟩

theorem foldl_mapSet (items : List PlaylistItem) : ∀ (m : List Int),
    (∀ T, T ∈ items.foldl (fun m item => mapSet m (500 - (item.Track : Int))) m
        ↔ T ∈ m ∨ ∃ it ∈ items, T = 500 - (it.Track : Int))
      ∧ (m.Nodup →
        (items.foldl (fun m item => mapSet m (500 - (item.Track : Int))) m).Nodup) := by
  induction items with
  | nil => intro m; simp
  | cons it items ih =>
    intro m
    obtain ⟨ih1, ih2⟩ := ih (mapSet m (500 - (it.Track : Int)))
    simp only [List.foldl_cons]
    refine ⟨fun T => ?_, fun hm => ih2 (mapSet_nodup _ _ hm)⟩
    rw [ih1 T, mapSet_mem]
    simp only [List.mem_cons, exists_eq_or_imp]
    tauto

/-- One step of the discovery loop that does not stop the run. -/
theorem discoverEvent_ok {m m' : List Int} {e : Event} (h : discoverEvent m e = .ok m') :
    e.Typ ≠ 129
      ∧ (e.Typ = 233 → ∃ ev, PlaylistItemsEvent.Unpack e.Bytes.Data = some ev)
      ∧ (m.Nodup → m'.Nodup)
      ∧ ∀ T, T ∈ m' ↔ T ∈ m ∨ (e.Typ = 233 ∧ ∃ ev,
          PlaylistItemsEvent.Unpack e.Bytes.Data = some ev
            ∧ ∃ it ∈ ev.Items, T = 500 - (it.Track : Int)) := by
  simp only [discoverEvent] at h
  by_cases h1 : e.Typ = 129
  · simp [h1] at h
  · rw [if_neg h1] at h
    by_cases h2 : e.Typ = 233
    · rw [if_pos h2] at h
      cases hu : PlaylistItemsEvent.Unpack e.Bytes.Data with
      | none => simp [hu] at h
      | some ev =>
        simp only [hu, Except.ok.injEq] at h
        subst h
        obtain ⟨f1, f2⟩ := foldl_mapSet ev.Items m
        refine ⟨h1, fun _ => ⟨ev, rfl⟩, f2, fun T => ?_⟩
        rw [f1 T]
        simp [h2]
    · rw [if_neg h2] at h
      simp only [Except.ok.injEq] at h
      subst h
      exact ⟨h1, fun hc => absurd hc h2, id, fun T => by simp [h2]⟩

theorem Event_HasTrack_cons (e : Event) (es : List Event) (T : Int) :
    Event.HasTrack (e :: es) T
      ↔ (e.Typ = 233 ∧ ∃ ev, PlaylistItemsEvent.Unpack e.Bytes.Data = some ev
          ∧ ∃ it ∈ ev.Items, T = 500 - (it.Track : Int)) ∨ Event.HasTrack es T := by
  simp only [Event.HasTrack, List.mem_cons, exists_eq_or_imp]

theorem discoverEvents_nil (m : List Int) : discoverEvents m [] = .ok m := rfl

theorem discoverEvents_cons (m : List Int) (e : Event) (es : List Event) :
    discoverEvents m (e :: es)
      = match discoverEvent m e with
        | .error err => .error err
        | .ok m1 => discoverEvents m1 es := rfl

theorem discoverEvents_ok (es : List Event) : ∀ (m m' : List Int),
    discoverEvents m es = .ok m' →
    (∀ e ∈ es, e.Typ ≠ 129)
      ∧ (∀ e ∈ es, e.Typ = 233 → ∃ ev, PlaylistItemsEvent.Unpack e.Bytes.Data = some ev)
      ∧ (m.Nodup → m'.Nodup)
      ∧ ∀ T, T ∈ m' ↔ T ∈ m ∨ Event.HasTrack es T := by
  induction es with
  | nil =>
    intro m m' h
    rw [discoverEvents_nil] at h
    simp only [Except.ok.injEq] at h
    subst h
    simp [Event.HasTrack]
  | cons e es ih =>
    intro m m' h
    rw [discoverEvents_cons] at h
    cases he : discoverEvent m e with
    | error err => rw [he] at h; exact absurd h (by simp)
    | ok m1 =>
      rw [he] at h
      obtain ⟨a1, a2, a3, a4⟩ := discoverEvent_ok he
      obtain ⟨b1, b2, b3, b4⟩ := ih m1 m' h
      refine ⟨?_, ?_, fun hm => b3 (a3 hm), fun T => ?_⟩
      · intro x hx
        simp only [List.mem_cons] at hx
        rcases hx with rfl | hx
        · exact a1
        · exact b1 x hx
      · intro x hx
        simp only [List.mem_cons] at hx
        rcases hx with rfl | hx
        · exact a2
        · exact b2 x hx
      · rw [b4 T, a4 T, Event_HasTrack_cons, or_assoc]

theorem discoverEvent_error {m : List Int} {e : Event} {err : Fatal}
    (h : discoverEvent m e = .error err) :
    (err = .tooOld ∧ e.Typ = 129)
      ∨ (err = .playlistParseFailed ∧ e.Typ = 233
          ∧ PlaylistItemsEvent.Unpack e.Bytes.Data = none) := by
  unfold discoverEvent at h
  by_cases h1 : e.Typ = 129
  · rw [if_pos h1] at h
    injection h with h
    exact Or.inl ⟨h.symm, h1⟩
  · rw [if_neg h1] at h
    by_cases h2 : e.Typ = 233
    · rw [if_pos h2] at h
      cases hu : PlaylistItemsEvent.Unpack e.Bytes.Data with
      | none =>
        rw [hu] at h
        injection h with h
        exact Or.inr ⟨h.symm, h2, rfl⟩
      | some ev =>
        rw [hu] at h
        injection h
    · rw [if_neg h2] at h
      injection h

theorem discoverEvents_error (es : List Event) : ∀ (m : List Int) (err : Fatal),
    discoverEvents m es = .error err →
    (err = .tooOld ∧ ∃ e ∈ es, e.Typ = 129)
      ∨ (err = .playlistParseFailed
          ∧ ∃ e ∈ es, e.Typ = 233 ∧ PlaylistItemsEvent.Unpack e.Bytes.Data = none) := by
  induction es with
  | nil => intro m err h; rw [discoverEvents_nil] at h; injection h
  | cons e es ih =>
    intro m err h
    rw [discoverEvents_cons] at h
    cases he : discoverEvent m e with
    | error err1 =>
      rw [he] at h
      injection h with h
      subst h
      rcases discoverEvent_error he with ⟨h1, h2⟩ | ⟨h1, h2, h3⟩
      · exact Or.inl ⟨h1, e, List.mem_cons_self _ _, h2⟩
      · exact Or.inr ⟨h1, e, List.mem_cons_self _ _, h2, h3⟩
    | ok m1 =>
      rw [he] at h
      rcases ih m1 err h with ⟨h1, x, hx, hx'⟩ | ⟨h1, x, hx, hx'⟩
      · exact Or.inl ⟨h1, x, List.mem_cons_of_mem _ hx, hx'⟩
      · exact Or.inr ⟨h1, x, List.mem_cons_of_mem _ hx, hx'⟩

theorem discoverChunks_ok : ∀ (cs : List Chunk) (m m' : List Int),
    discoverChunks m cs = .ok m' →
    ¬ Chunk.HasLegacy cs ∧ Chunk.PlaylistsDecode cs ∧ (m.Nodup → m'.Nodup)
      ∧ ∀ T, T ∈ m' ↔ T ∈ m ∨ Chunk.HasTrack cs T
  | [], m, m', h => by
    simp only [discoverChunks, Except.ok.injEq] at h
    subst h
    simp [Chunk.HasLegacy, Chunk.PlaylistsDecode, Chunk.HasTrack]
  | c :: cs, m, m', h => by
    simp only [discoverChunks] at h
    cases hd : c.Data.FLdt with
    | none =>
      simp only [hd] at h
      obtain ⟨b1, b2, b3, b4⟩ := discoverChunks_ok cs m m' h
      refine ⟨?_, ?_, b3, fun T => ?_⟩
      · rintro ⟨x, hx, d, hxd, hl⟩
        simp only [List.mem_cons] at hx
        rcases hx with rfl | hx
        · rw [hd] at hxd; exact absurd hxd (by simp)
        · exact b1 ⟨x, hx, d, hxd, hl⟩
      · intro x hx d hxd
        simp only [List.mem_cons] at hx
        rcases hx with rfl | hx
        · rw [hd] at hxd; exact absurd hxd (by simp)
        · exact b2 x hx d hxd
      · rw [b4 T]
        simp only [Chunk.HasTrack, List.mem_cons, exists_eq_or_imp, hd]
        simp
    | some fldt =>
      simp only [hd] at h
      cases he : discoverEvents m fldt.Event with
      | error err => simp [he] at h
      | ok m1 =>
        simp only [he] at h
        obtain ⟨a1, a2, a3, a4⟩ := discoverEvents_ok _ _ _ he
        obtain ⟨b1, b2, b3, b4⟩ := discoverChunks_ok cs m1 m' h
        refine ⟨?_, ?_, fun hm => b3 (a3 hm), fun T => ?_⟩
        · rintro ⟨x, hx, d, hxd, e, hed, hl⟩
          simp only [List.mem_cons] at hx
          rcases hx with rfl | hx
          · rw [hd] at hxd
            simp only [Option.some.injEq] at hxd
            subst hxd
            exact a1 e hed hl
          · exact b1 ⟨x, hx, d, hxd, e, hed, hl⟩
        · intro x hx d hxd
          simp only [List.mem_cons] at hx
          rcases hx with rfl | hx
          · rw [hd] at hxd
            simp only [Option.some.injEq] at hxd
            subst hxd
            exact a2
          · exact b2 x hx d hxd
        · rw [b4 T, a4 T, or_assoc]
          simp only [Chunk.HasTrack, List.mem_cons, exists_eq_or_imp, hd, Option.some.injEq,
            exists_eq_left']

theorem discoverChunks_error : ∀ (cs : List Chunk) (m : List Int) (err : Fatal),
    discoverChunks m cs = .error err →
    (err = .tooOld ∧ Chunk.HasLegacy cs)
      ∨ (err = .playlistParseFailed ∧ ¬ Chunk.PlaylistsDecode cs)
  | [], m, err, h => by simp [discoverChunks] at h
  | c :: cs, m, err, h => by
    have lift : (err = .tooOld ∧ Chunk.HasLegacy cs)
        ∨ (err = .playlistParseFailed ∧ ¬ Chunk.PlaylistsDecode cs) →
        (err = .tooOld ∧ Chunk.HasLegacy (c :: cs))
        ∨ (err = .playlistParseFailed ∧ ¬ Chunk.PlaylistsDecode (c :: cs)) := by
      rintro (⟨h1, x, hx, hl⟩ | ⟨h1, hn⟩)
      · exact Or.inl ⟨h1, x, List.mem_cons_of_mem _ hx, hl⟩
      · exact Or.inr ⟨h1, fun hall => hn fun x hx => hall x (List.mem_cons_of_mem _ hx)⟩
    simp only [discoverChunks] at h
    cases hd : c.Data.FLdt with
    | none =>
      simp only [hd] at h
      exact lift (discoverChunks_error cs m err h)
    | some fldt =>
      simp only [hd] at h
      cases he : discoverEvents m fldt.Event with
      | error err1 =>
        simp only [he, Except.error.injEq] at h
        subst h
        rcases discoverEvents_error _ _ _ he with ⟨h1, e, hm, h129⟩ | ⟨h1, e, hm, h233, hn⟩
        · exact Or.inl ⟨h1, c, List.mem_cons_self _ _, fldt, hd, e, hm, h129⟩
        · refine Or.inr ⟨h1, fun hall => ?_⟩
          obtain ⟨ev, hev⟩ := hall c (List.mem_cons_self _ _) fldt hd e hm h233
          rw [hn] at hev
          exact absurd hev (by simp)
      | ok m1 =>
        simp only [he] at h
        exact lift (discoverChunks_error cs m1 err h)

/-- The discovery loop finishes when there is no type 129 event and every type
233 payload decodes. -/
theorem discoverChunks_exists (cs : List Chunk) (m : List Int)
    (h1 : ¬ Chunk.HasLegacy cs) (h2 : Chunk.PlaylistsDecode cs) :
    ∃ m', discoverChunks m cs = .ok m' := by
  cases h : discoverChunks m cs with
  | ok m' => exact ⟨m', rfl⟩
  | error err =>
    rcases discoverChunks_error cs m err h with ⟨-, hl⟩ | ⟨-, hn⟩
    · exact absurd hl h1
    · exact absurd h2 hn

/-- The loop over the events finishes only on events that let discovery go on. -/
theorem discoverEvents_ok_harmless (es : List Event) : ∀ (m m1 : List Int),
    discoverEvents m es = .ok m1 → ∀ x ∈ es, x.Harmless := by
  induction es with
  | nil => intro m m1 _ x hx; exact absurd hx (List.not_mem_nil _)
  | cons e es ih =>
    intro m m1 h x hx
    rw [discoverEvents_cons] at h
    cases he : discoverEvent m e with
    | error err1 =>
      rw [he] at h
      injection h
    | ok m2 =>
      rw [he] at h
      simp only [List.mem_cons] at hx
      rcases hx with rfl | hx
      · obtain ⟨a, b, -⟩ := discoverEvent_ok he
        exact ⟨a, b⟩
      · exact ih m2 m1 h x hx

/-- The loop over the events stops at the first event that does not let
discovery go on, with the error of that event: the too-old error of a type 129
event, or the parse error of a type 233 event whose payload does not decode. -/
theorem discoverEvents_error_first (es : List Event) : ∀ (m : List Int) (err : Fatal),
    discoverEvents m es = .error err →
    ∃ pre e post, es = pre ++ e :: post ∧ (∀ x ∈ pre, x.Harmless)
      ∧ ((e.Typ = 129 ∧ err = .tooOld)
        ∨ (e.Typ = 233 ∧ PlaylistItemsEvent.Unpack e.Bytes.Data = none
            ∧ err = .playlistParseFailed)) := by
  induction es with
  | nil => intro m err h; rw [discoverEvents_nil] at h; injection h
  | cons e es ih =>
    intro m err h
    rw [discoverEvents_cons] at h
    cases he : discoverEvent m e with
    | error err1 =>
      rw [he] at h
      injection h with h
      subst h
      refine ⟨[], e, es, rfl, fun x hx => absurd hx (List.not_mem_nil _), ?_⟩
      rcases discoverEvent_error he with ⟨h1, h2⟩ | ⟨h1, h2, h3⟩
      · exact Or.inl ⟨h2, h1⟩
      · exact Or.inr ⟨h2, h3, h1⟩
    | ok m1 =>
      rw [he] at h
      obtain ⟨pre, x, post, hes, hpre, hx⟩ := ih m1 err h
      refine ⟨e :: pre, x, post, by rw [hes, List.cons_append], ?_, hx⟩
      intro y hy
      simp only [List.mem_cons] at hy
      rcases hy with rfl | hy
      · obtain ⟨a, b, -⟩ := discoverEvent_ok he
        exact ⟨a, b⟩
      · exact hpre y hy

/-- The loop over the chunks stops at the first event, in the order of the scan,
that does not let discovery go on, with the error of that event. -/
theorem discoverChunks_error_first : ∀ (cs : List Chunk) (m : List Int) (err : Fatal),
    discoverChunks m cs = .error err →
    ∃ pre e post, Chunk.scanned cs = pre ++ e :: post ∧ (∀ x ∈ pre, x.Harmless)
      ∧ ((e.Typ = 129 ∧ err = .tooOld)
        ∨ (e.Typ = 233 ∧ PlaylistItemsEvent.Unpack e.Bytes.Data = none
            ∧ err = .playlistParseFailed))
  | [], m, err, h => by
    simp only [discoverChunks] at h
    injection h
  | c :: cs, m, err, h => by
    cases hd : c.Data.FLdt with
    | none =>
      simp only [discoverChunks, hd] at h
      obtain ⟨pre, e, post, hs, hpre, he⟩ := discoverChunks_error_first cs m err h
      exact ⟨pre, e, post, by simp only [Chunk.scanned, hd, hs], hpre, he⟩
    | some d =>
      simp only [discoverChunks, hd] at h
      cases hev : discoverEvents m d.Event with
      | error err1 =>
        rw [hev] at h
        injection h with h
        subst h
        obtain ⟨pre, e, post, hs, hpre, he⟩ := discoverEvents_error_first _ _ _ hev
        refine ⟨pre, e, post ++ Chunk.scanned cs, ?_, hpre, he⟩
        simp only [Chunk.scanned, hd, hs, List.append_assoc, List.cons_append]
      | ok m1 =>
        rw [hev] at h
        obtain ⟨pre, e, post, hs, hpre, he⟩ := discoverChunks_error_first cs m1 err h
        refine ⟨d.Event ++ pre, e, post, ?_, ?_, he⟩
        · simp only [Chunk.scanned, hd, hs, List.append_assoc]
        · intro x hx
          simp only [List.mem_append] at hx
          rcases hx with hx | hx
          · exact discoverEvents_ok_harmless _ _ _ hev x hx
          · exact hpre x hx

/-! ## Well formed projects and the filter -/

theorem Chunk_WFAll_mem : ∀ (cs : List Chunk), Chunk.WFAll cs → ∀ c ∈ cs, c.WF
  | [], _, c, hc => by simp at hc
  | x :: xs, h, c, hc => by
    simp only [Chunk.WFAll] at h
    simp only [List.mem_cons] at hc
    rcases hc with rfl | hc
    · exact h.1
    · exact Chunk_WFAll_mem xs h.2.2 c hc

/-- In a well formed chunk the FLdt pointer is set exactly when the tag is
`FLdt`, and then the events are well formed. -/
theorem Chunk_WF_FLdt {c : Chunk} {d : ChunkFLdt} (h : c.WF) (hd : c.Data.FLdt = some d) :
    c.Typ = tagFLdt ∧ c.Data = ⟨none, some d, none⟩ ∧ ∀ e ∈ d.Event, e.WF := by
  obtain ⟨-, -, -, h4⟩ := h
  by_cases h1 : c.Typ = tagFLhd
  · rw [if_pos h1] at h4
    obtain ⟨x, hx, -⟩ := h4
    rw [hx] at hd
    exact absurd hd (by simp)
  · rw [if_neg h1] at h4
    by_cases h2 : c.Typ = tagFLdt
    · rw [if_pos h2] at h4
      obtain ⟨x, hx, hw⟩ := h4
      rw [hx] at hd
      simp only [Option.some.injEq] at hd
      subst hd
      exact ⟨h2, hx, hw⟩
    · rw [if_neg h2] at h4
      obtain ⟨x, hx, -⟩ := h4
      rw [hx] at hd
      exact absurd hd (by simp)

theorem Chunk_WF_not_FLdt {c : Chunk} (h : c.WF) (hd : c.Data.FLdt = none) :
    c.Typ ≠ tagFLdt := by
  obtain ⟨-, -, -, h4⟩ := h
  intro h2
  have h1 : c.Typ ≠ tagFLhd := by rw [h2]; decide
  rw [if_neg h1, if_pos h2] at h4
  obtain ⟨x, hx, -⟩ := h4
  rw [hx] at hd
  exact absurd hd (by simp)

/-- A well formed type 233 event is a variable-length event with a byte payload. -/
theorem Event_WF_playlist {e : Event} (h : e.WF) (ht : e.Typ = 233) :
    e.Typ &&& 0xC0 = 0xC0 ∧ e.Bytes.Len.Value < 2 ^ 64
      ∧ e.Bytes.Data.length = e.Bytes.Len.Value ∧ IsBytes e.Bytes.Data := by
  obtain ⟨-, -, -, -, h5⟩ := h
  have hc : e.Typ &&& 0xC0 = 0xC0 := by rw [ht]; decide
  rw [if_pos hc] at h5
  exact ⟨hc, h5⟩

theorem rawTrack_eq (t : Nat) (ht : t < 2 ^ 32) : rawTrack (500 - (t : Int)) = t := by
  simp only [rawTrack]
  have : (500 - (500 - (t : Int))) = (t : Int) := by ring
  rw [this]
  have h2 : ((t : Int) % 2 ^ 32) = (t : Int) := Int.emod_eq_of_lt (by omega) (by exact_mod_cast ht)
  rw [h2]
  simp

/-- The test `track != item.Track` of `filterwrite`, called with
`uint32(500-T)`, keeps the items whose logical track `500 - Track` is `T`. -/
theorem filter_rawTrack (t : Nat) (ht : t < 2 ^ 32) (items : List PlaylistItem) :
    items.filter (fun item => decide (item.Track = rawTrack (500 - (t : Int))))
      = items.filter (fun item => decide (500 - (item.Track : Int) = 500 - (t : Int))) := by
  rw [rawTrack_eq t ht]
  apply List.filter_congr
  intro x _
  simp only [decide_eq_decide]
  omega

/-- What the filter does to a well formed type 233 event. -/
theorem filterEvent_playlist_some {track : Nat} {e e' : Event} (hw : e.WF) (ht : e.Typ = 233)
    (h : filterEvent track e = some e') :
    ∃ items, PlaylistItemsEvent.Unpack e.Bytes.Data = some ⟨items⟩
      ∧ (∀ it ∈ items, it.InRange)
      ∧ e.Bytes.Data.length = 32 * items.length
      ∧ e' = { e with Bytes :=
          { Len := ⟨32 * (items.filter fun item => decide (item.Track = track)).length⟩,
            Data := PlaylistItemsEvent.Pack
              ⟨items.filter fun item => decide (item.Track = track)⟩ } }
      ∧ PlaylistItemsEvent.Unpack e'.Bytes.Data
          = some ⟨items.filter fun item => decide (item.Track = track)⟩ := by
  obtain ⟨-, hlt, hlen, hB⟩ := Event_WF_playlist hw ht
  rw [filterEvent_playlist track e ht] at h
  simp only [Option.map_eq_some'] at h
  obtain ⟨ev, hev, he'⟩ := h
  obtain ⟨h1, h2, h3⟩ := PlaylistItemsEvent_Unpack_some hB hev
  have hfl : (ev.Items.filter fun item => decide (item.Track = track)).length
      ≤ ev.Items.length := List.length_filter_le _ _
  have hmod : (PlaylistItemsEvent.Pack
      ⟨ev.Items.filter fun item => decide (item.Track = track)⟩).length % 2 ^ 64
      = 32 * (ev.Items.filter fun item => decide (item.Track = track)).length := by
    rw [PlaylistItemsEvent_Pack_length]
    apply Nat.mod_eq_of_lt
    omega
  rw [hmod] at he'
  refine ⟨ev.Items, hev, h2, h3, he'.symm, ?_⟩
  rw [← he']
  exact PlaylistItemsEvent_Unpack_Pack _
    (fun it hit => h2 it (List.mem_of_mem_filter hit))

/-- Packing a well formed event does not fail. -/
theorem Event_Pack_isSome {e : Event} (hw : e.WF) : ∃ bs, e.Pack = some bs := by
  by_cases hc : e.Typ &&& 0xC0 = 0xC0
  · obtain ⟨-, -, -, -, w5⟩ := hw
    rw [if_pos hc] at w5
    exact ⟨_, Event_Pack_c3 e hc w5.2.1⟩
  · refine ⟨putU8 e.Typ ++ (if e.Typ &&& 0xC0 = 0x00 then putU8 e.Int8 else [])
      ++ (if e.Typ &&& 0xC0 = 0x40 then putU16 e.Int16 else [])
      ++ (if e.Typ &&& 0xC0 = 0x80 then putU32 e.Int32 else []) ++ [], ?_⟩
    simp only [Event.Pack, hc, if_false, Option.bind_eq_bind, Option.some_bind]

theorem Event_packAll_isSome : ∀ (es : List Event), (∀ e ∈ es, e.WF) →
    ∃ bs, Event.packAll es = some bs
  | [], _ => ⟨[], rfl⟩
  | e :: es, hw => by
    obtain ⟨b, hb⟩ := Event_Pack_isSome (hw e (List.mem_cons_self _ _))
    obtain ⟨bs, hbs⟩ := Event_packAll_isSome es (fun x hx => hw x (List.mem_cons_of_mem _ hx))
    exact ⟨b ++ bs, by simp [Event.packAll, hb, hbs]⟩

/-- Packing a well formed chunk does not fail. -/
theorem Chunk_Pack_isSome {c : Chunk} (hw : c.WF) : ∃ bs, c.Pack = some bs := by
  have hd : ∃ d, c.Data.Pack c.Typ c.Len = some d := by
    obtain ⟨-, -, -, w4⟩ := hw
    by_cases h1 : c.Typ = tagFLhd
    · rw [if_pos h1] at w4
      obtain ⟨hh, hdat, -⟩ := w4
      exact ⟨hh.Pack, by simp only [ChunkData.Pack, if_pos h1, hdat]⟩
    · rw [if_neg h1] at w4
      by_cases h2 : c.Typ = tagFLdt
      · rw [if_pos h2] at w4
        obtain ⟨dd, hdat, hwe⟩ := w4
        obtain ⟨bs, hbs⟩ := Event_packAll_isSome dd.Event hwe
        exact ⟨bs, by simp only [ChunkData.Pack, if_neg h1, if_pos h2, hdat, hbs]⟩
      · rw [if_neg h2] at w4
        obtain ⟨u, hdat, hul, -⟩ := w4
        exact ⟨u.Data, by simp only [ChunkData.Pack, if_neg h1, if_neg h2, hdat, hul, if_true]⟩
  obtain ⟨d, hd⟩ := hd
  exact ⟨putTag c.Typ ++ putU32 c.Len ++ d, by simp [Chunk.Pack, hd]⟩

theorem Chunk_packAll_isSome : ∀ (cs : List Chunk), (∀ c ∈ cs, c.WF) →
    ∃ bs, Chunk.packAll cs = some bs
  | [], _ => ⟨[], rfl⟩
  | c :: cs, hw => by
    obtain ⟨b, hb⟩ := Chunk_Pack_isSome (hw c (List.mem_cons_self _ _))
    obtain ⟨bs, hbs⟩ := Chunk_packAll_isSome cs (fun x hx => hw x (List.mem_cons_of_mem _ hx))
    exact ⟨b ++ bs, by simp [Chunk.packAll, hb, hbs]⟩

/-- The filter finishes on a project whose type 233 payloads decode. -/
theorem filterChunks_of_decode (track : Nat) (cs : List Chunk)
    (h : Chunk.PlaylistsDecode cs) : ∃ cs', filterChunks track cs = some cs' := by
  apply filterChunks_isSome
  intro c hc
  cases hd : c.Data.FLdt with
  | none => exact ⟨c, filterChunk_other track c hd⟩
  | some d =>
    rw [filterChunk_FLdt track c d hd]
    have : ∃ es', filterEvents track d.Event = some es' := by
      apply filterEvents_isSome
      intro e he
      by_cases ht : e.Typ = 233
      · obtain ⟨ev, hev⟩ := h c hc d hd e he ht
        rw [filterEvent_playlist track e ht, hev]
        exact ⟨_, rfl⟩
      · exact ⟨e, filterEvent_other track e ht⟩
    obtain ⟨es', hes⟩ := this
    rw [hes]
    exact ⟨_, rfl⟩

/-- What `discover` returns: the sorted keys of the map built by the loop. -/
theorem discover_ok {p : Project} {trackList : List Int} (h : discover p = .ok trackList) :
    ¬ Chunk.HasLegacy p.Chunks ∧ Chunk.PlaylistsDecode p.Chunks
      ∧ trackList.Sorted (· < ·) ∧ ∀ T, T ∈ trackList ↔ Chunk.HasTrack p.Chunks T := by
  unfold discover at h
  cases hc : discoverChunks [] p.Chunks with
  | error err => rw [hc] at h; injection h
  | ok m =>
    rw [hc] at h
    injection h with h
    subst h
    obtain ⟨h1, h2, h3, h4⟩ := discoverChunks_ok _ _ _ hc
    have hperm := List.perm_insertionSort (· ≤ ·) m
    refine ⟨h1, h2, ?_, fun T => ?_⟩
    · exact (List.sorted_insertionSort (· ≤ ·) m).lt_of_le
        (hperm.nodup_iff.mpr (h3 List.nodup_nil))
    · rw [hperm.mem_iff, h4 T]
      simp

/-! ## Discovery: claims C9 and C10 -/

/-- C9: for every project with no type 129 event whose type 233 payloads all
decode, the discovery of `main` returns a track list that is strictly ascending
(sorted, no duplicates) and whose elements are exactly the values `500 - Track`
of the records of the type 233 events of the FLdt chunks. -/
theorem discover_tracks_sorted (p : Project) (h129 : ¬ Chunk.HasLegacy p.Chunks)
    (hdec : Chunk.PlaylistsDecode p.Chunks) :
    ∃ trackList, discover p = .ok trackList ∧ trackList.Sorted (· < ·)
      ∧ ∀ T, T ∈ trackList ↔ Chunk.HasTrack p.Chunks T := by
  obtain ⟨m, hm⟩ := discoverChunks_exists p.Chunks [] h129 hdec
  have hd : discover p = .ok (m.insertionSort (· ≤ ·)) := by
    simp only [discover, hm]
  obtain ⟨-, -, h3, h4⟩ := discover_ok hd
  exact ⟨_, hd, h3, h4⟩

set_option maxRecDepth 100000 in
theorem discover_tracks_sorted_witness :
    Project.Unpack exampleInput = some exampleProject
      ∧ discover exampleProject = .ok [480, 490]
      ∧ ¬ Chunk.HasLegacy exampleProject.Chunks
      ∧ Chunk.PlaylistsDecode exampleProject.Chunks
      ∧ ∃ trackList, discover exampleProject = .ok trackList ∧ trackList.Sorted (· < ·)
        ∧ ∀ T, T ∈ trackList ↔ Chunk.HasTrack exampleProject.Chunks T :=
  have h := @discover_ok exampleProject [480, 490] (by rfl)
  ⟨by decide, by rfl, h.1, h.2.1, discover_tracks_sorted exampleProject h.1 h.2.1⟩

/-- C10 (amended): when some FLdt chunk of the parsed project holds a type 129
event, discovery stops the run and nothing is written (`filterwrite` is not
reached). The run stops at the first event `e`, in the order in which `main`
scans the events of the FLdt chunks, that is of type 129 or is a type 233 event
whose payload does not decode: every event scanned before it lets discovery go
on, the error is the too-old one when `e` is of type 129 and the playlist parse
error when `e` is of type 233. So the error is the too-old one whenever every
type 233 payload decodes, and the parse error only when some payload does not
decode. -/
theorem legacy_event_stops_run (data : List Nat) (p : Project)
    (hp : Project.Unpack data = some p) (hl : Chunk.HasLegacy p.Chunks) :
    ∃ err pre e post, discover p = .error err ∧ main data = ([], some err)
      ∧ Chunk.scanned p.Chunks = pre ++ e :: post ∧ (∀ x ∈ pre, x.Harmless)
      ∧ ((e.Typ = 129 ∧ err = .tooOld)
        ∨ (e.Typ = 233 ∧ PlaylistItemsEvent.Unpack e.Bytes.Data = none
            ∧ err = .playlistParseFailed))
      ∧ (err = .tooOld ∨ (err = .playlistParseFailed ∧ ¬ Chunk.PlaylistsDecode p.Chunks))
      ∧ (Chunk.PlaylistsDecode p.Chunks → err = .tooOld) := by
  cases hc : discoverChunks [] p.Chunks with
  | ok m => exact absurd hl (discoverChunks_ok _ _ _ hc).1
  | error err =>
    have hd : discover p = .error err := by simp only [discover, hc]
    obtain ⟨pre, e, post, hs, hpre, he⟩ := discoverChunks_error_first _ _ _ hc
    refine ⟨err, pre, e, post, hd, by simp only [main, hp, hd], hs, hpre, he, ?_, ?_⟩
    · rcases discoverChunks_error _ _ _ hc with ⟨h1, -⟩ | ⟨h1, h2⟩
      · exact Or.inl h1
      · exact Or.inr ⟨h1, h2⟩
    · intro hdec
      rcases discoverChunks_error _ _ _ hc with ⟨h1, -⟩ | ⟨-, h2⟩
      · exact h1
      · exact absurd hdec h2

set_option maxRecDepth 100000 in
theorem legacy_event_stops_run_witness :
    Project.Unpack legacyBeforeBadPlaylist
        = some ⟨[⟨tagFLdt, 8, ⟨none, some ⟨[
            ⟨129, 0, 0, 0, ⟨⟨0⟩, []⟩⟩, ⟨233, 0, 0, 0, ⟨⟨1⟩, [0]⟩⟩]⟩, none⟩⟩]⟩
      ∧ PlaylistItemsEvent.Unpack [0] = none
      ∧ main legacyBeforeBadPlaylist = ([], some .tooOld)
      ∧ main legacyInput = ([], some .tooOld)
      ∧ ∃ err pre e post, discover ⟨[⟨tagFLdt, 8, ⟨none, some ⟨[
            ⟨129, 0, 0, 0, ⟨⟨0⟩, []⟩⟩, ⟨233, 0, 0, 0, ⟨⟨1⟩, [0]⟩⟩]⟩, none⟩⟩]⟩
          = .error err ∧ main legacyBeforeBadPlaylist = ([], some err)
        ∧ Chunk.scanned (Project.Chunks ⟨[⟨tagFLdt, 8, ⟨none, some ⟨[
            ⟨129, 0, 0, 0, ⟨⟨0⟩, []⟩⟩, ⟨233, 0, 0, 0, ⟨⟨1⟩, [0]⟩⟩]⟩, none⟩⟩]⟩)
          = pre ++ e :: post
        ∧ (∀ x ∈ pre, x.Harmless)
        ∧ ((e.Typ = 129 ∧ err = .tooOld)
          ∨ (e.Typ = 233 ∧ PlaylistItemsEvent.Unpack e.Bytes.Data = none
              ∧ err = .playlistParseFailed))
        ∧ (err = .tooOld ∨ (err = .playlistParseFailed ∧ ¬ Chunk.PlaylistsDecode
            (Project.Chunks ⟨[⟨tagFLdt, 8, ⟨none, some ⟨[
              ⟨129, 0, 0, 0, ⟨⟨0⟩, []⟩⟩, ⟨233, 0, 0, 0, ⟨⟨1⟩, [0]⟩⟩]⟩, none⟩⟩]⟩)))
        ∧ (Chunk.PlaylistsDecode (Project.Chunks ⟨[⟨tagFLdt, 8, ⟨none, some ⟨[
              ⟨129, 0, 0, 0, ⟨⟨0⟩, []⟩⟩, ⟨233, 0, 0, 0, ⟨⟨1⟩, [0]⟩⟩]⟩, none⟩⟩]⟩)
            → err = .tooOld) :=
  ⟨by decide, by decide, by decide, by decide,
    legacy_event_stops_run legacyBeforeBadPlaylist _ (by decide)
      ⟨_, List.mem_cons_self _ _, _, rfl, ⟨129, 0, 0, 0, ⟨⟨0⟩, []⟩⟩, by simp, rfl⟩⟩

set_option maxRecDepth 100000 in
/-- Counterexample to C10 as stated: this file parses and holds a type 129
event, yet the run stops with the playlist parse error of the type 233 event
that comes first, not with the too-old error. -/
theorem legacy_event_other_error :
    Project.Unpack legacyAfterBadPlaylist
        = some ⟨[⟨tagFLdt, 8, ⟨none, some ⟨[
            ⟨233, 0, 0, 0, ⟨⟨1⟩, [0]⟩⟩, ⟨129, 0, 0, 0, ⟨⟨0⟩, []⟩⟩]⟩, none⟩⟩]⟩
      ∧ Chunk.HasLegacy [⟨tagFLdt, 8, ⟨none, some ⟨[
            ⟨233, 0, 0, 0, ⟨⟨1⟩, [0]⟩⟩, ⟨129, 0, 0, 0, ⟨⟨0⟩, []⟩⟩]⟩, none⟩⟩]
      ∧ main legacyAfterBadPlaylist = ([], some .playlistParseFailed)
      ∧ (main legacyAfterBadPlaylist).2 ≠ some .tooOld :=
  ⟨by decide, ⟨_, List.mem_cons_self _ _, _, rfl, ⟨129, 0, 0, 0, ⟨⟨0⟩, []⟩⟩, by simp, rfl⟩,
    by decide, by decide⟩

/-! ## The filter keeps a project well formed -/

theorem filterEvent_Typ {track : Nat} {e e' : Event} (h : filterEvent track e = some e') :
    e'.Typ = e.Typ := by
  by_cases ht : e.Typ = 233
  · rw [filterEvent_playlist track e ht] at h
    simp only [Option.map_eq_some'] at h
    obtain ⟨ev, -, he⟩ := h
    rw [← he]
  · rw [filterEvent_other track e ht] at h
    injection h with h
    rw [h]

/-- The filter keeps events well formed and does not make them longer. -/
theorem filterEvent_WF {track : Nat} {e e' : Event} (hw : e.WF)
    (h : filterEvent track e = some e') : e'.WF ∧ e'.SizeOf ≤ e.SizeOf := by
  by_cases ht : e.Typ = 233
  · obtain ⟨hc, hlt, hlen, hB⟩ := Event_WF_playlist hw ht
    obtain ⟨items, -, -, h3, h4, -⟩ := filterEvent_playlist_some hw ht h
    have hfl : (items.filter fun item => decide (item.Track = track)).length ≤ items.length :=
      List.length_filter_le _ _
    obtain ⟨w1, w2, w3, w4, -⟩ := hw
    subst h4
    constructor
    · refine ⟨w1, w2, w3, w4, ?_⟩
      simp only [if_pos hc]
      refine ⟨by omega, PlaylistItemsEvent_Pack_length _, PlaylistItemsEvent_IsBytes_Pack _⟩
    · have hm := VLQ_SizeOf_mono
        (32 * (items.filter fun item => decide (item.Track = track)).length)
        e.Bytes.Len.Value (by omega)
      simp only [Event.SizeOf, if_pos hc, EventBytes.SizeOf, PlaylistItemsEvent_Pack_length]
      have : (⟨e.Bytes.Len.Value⟩ : VLQ) = e.Bytes.Len := rfl
      rw [this] at hm
      omega
  · rw [filterEvent_other track e ht] at h
    injection h with h
    subst h
    exact ⟨hw, Nat.le_refl _⟩

theorem filterEvents_WF (track : Nat) : ∀ (es es' : List Event),
    (∀ e ∈ es, e.WF) → filterEvents track es = some es' →
    (∀ e' ∈ es', e'.WF) ∧ Event.sizeAll es' ≤ Event.sizeAll es
  | [], es', _, h => by
    simp only [filterEvents, Option.some.injEq] at h
    subst h
    simp
  | e :: es, es', hw, h => by
    simp only [filterEvents, Option.bind_eq_bind, Option.bind_eq_some] at h
    obtain ⟨e1, h1, es1, h2, h3⟩ := h
    simp only [Option.some.injEq] at h3
    subst h3
    obtain ⟨a1, a2⟩ := filterEvent_WF (hw e (List.mem_cons_self _ _)) h1
    obtain ⟨b1, b2⟩ := filterEvents_WF track es es1
      (fun x hx => hw x (List.mem_cons_of_mem _ hx)) h2
    refine ⟨?_, by simp only [Event.sizeAll]; omega⟩
    intro x hx
    simp only [List.mem_cons] at hx
    rcases hx with rfl | hx
    · exact a1
    · exact b1 x hx

/-- The filter keeps a chunk well formed and keeps its tag. -/
theorem filterChunk_WF {track : Nat} {c c' : Chunk} (hw : c.WF)
    (h : filterChunk track c = some c') : c'.WF ∧ c'.Typ = c.Typ := by
  cases hd : c.Data.FLdt with
  | none =>
    rw [filterChunk_other track c hd] at h
    injection h with h
    subst h
    exact ⟨hw, rfl⟩
  | some d =>
    obtain ⟨hct, hdat, hwe⟩ := Chunk_WF_FLdt hw hd
    rw [filterChunk_FLdt track c d hd] at h
    simp only [Option.map_eq_some'] at h
    obtain ⟨es', hes, hc'⟩ := h
    subst hc'
    obtain ⟨hwe', -⟩ := filterEvents_WF _ _ _ hwe hes
    obtain ⟨w1, w2, -, -⟩ := hw
    refine ⟨⟨w1, w2, Nat.mod_lt _ (by positivity), ?_⟩, rfl⟩
    have h1 : c.Typ ≠ tagFLhd := by rw [hct]; decide
    simp only [if_neg h1, if_pos hct]
    exact ⟨⟨es'⟩, by rw [hdat], hwe'⟩

theorem filterChunks_WFAll (track : Nat) : ∀ (cs cs' : List Chunk), Chunk.WFAll cs →
    filterChunks track cs = some cs' → Chunk.WFAll cs'
  | [], cs', _, h => by
    simp only [filterChunks, Option.some.injEq] at h
    subst h
    trivial
  | c :: cs, cs', hw, h => by
    simp only [filterChunks, Option.bind_eq_bind, Option.bind_eq_some] at h
    obtain ⟨c1, h1, cs1, h2, h3⟩ := h
    injection h3 with h3
    subst h3
    obtain ⟨hwc, hlast, hwcs⟩ := hw
    obtain ⟨a1, a2⟩ := filterChunk_WF hwc h1
    refine ⟨a1, ?_, filterChunks_WFAll track cs cs1 hwcs h2⟩
    intro ht
    have := hlast (by rw [← a2]; exact ht)
    subst this
    simp only [filterChunks, Option.some.injEq] at h2
    exact h2.symm

/-! ## The filter: claim C1 -/

/-- A discovered track of a project decoded from bytes is `500 - t` for a raw
track `t` that fits 32 bits. -/
theorem discovered_track_raw {buf : List Nat} {p : Project} (hB : IsBytes buf)
    (hp : Project.Unpack buf = some p) {T : Int} (hT : Chunk.HasTrack p.Chunks T) :
    ∃ t : Nat, t < 2 ^ 32 ∧ T = 500 - (t : Int) := by
  obtain ⟨hw, -⟩ := Project_Unpack_some hB hp
  obtain ⟨c, hc, d, hd, e, he, ht, ev, hev, it, hit, hT⟩ := hT
  obtain ⟨-, -, hwe⟩ := Chunk_WF_FLdt (Chunk_WFAll_mem _ hw c hc) hd
  obtain ⟨-, -, -, hBd⟩ := Event_WF_playlist (hwe e he) ht
  obtain ⟨-, hr, -⟩ := PlaylistItemsEvent_Unpack_some hBd hev
  exact ⟨it.Track, (hr it hit).2.2.2.2.1, hT⟩

/-- C1: for every project decoded from a byte buffer and every track `T` found by
the discovery of `main`, `filterwrite(p, uint32(500-T))` packs a project `q` with
as many chunks as `p` and, chunk by chunk, as many events; and for every FLdt
chunk and every event of type 233 the record array of the event of `q` at the
same place is the original record array filtered, in the original order, to the
records with `500 - Track = T`. -/
theorem filterwrite_keeps_track (buf : List Nat) (p : Project) (trackList : List Int) (T : Int)
    (hB : IsBytes buf) (hp : Project.Unpack buf = some p)
    (hd : discover p = .ok trackList) (hT : T ∈ trackList) :
    ∃ q out, filterProject p (rawTrack T) = some q ∧ q.Pack = some out
      ∧ filterwrite p (rawTrack T) = some out
      ∧ q.Chunks.length = p.Chunks.length
      ∧ ∀ (i : Nat) (c c' : Chunk), p.Chunks[i]? = some c → q.Chunks[i]? = some c' →
          ∀ d, c.Data.FLdt = some d →
            ∃ d', c'.Data.FLdt = some d' ∧ d'.Event.length = d.Event.length
              ∧ ∀ (j : Nat) (e e' : Event), d.Event[j]? = some e → d'.Event[j]? = some e' →
                  e.Typ = 233 →
                    e'.Typ = 233 ∧ ∃ items,
                      PlaylistItemsEvent.Unpack e.Bytes.Data = some ⟨items⟩
                        ∧ PlaylistItemsEvent.Unpack e'.Bytes.Data
                            = some ⟨items.filter fun r =>
                                decide (500 - (r.Track : Int) = T)⟩ := by
  obtain ⟨-, hdec, -, hmem⟩ := discover_ok hd
  obtain ⟨hw, -⟩ := Project_Unpack_some hB hp
  obtain ⟨t, ht, hTt⟩ := discovered_track_raw hB hp ((hmem T).mp hT)
  obtain ⟨cs', hcs⟩ := filterChunks_of_decode (rawTrack T) p.Chunks hdec
  obtain ⟨out, hout⟩ := Chunk_packAll_isSome cs'
    (Chunk_WFAll_mem _ (filterChunks_WFAll _ _ _ hw hcs))
  obtain ⟨hlen, hidx⟩ := filterChunks_some _ _ _ hcs
  refine ⟨⟨cs'⟩, out, by simp [filterProject, hcs], hout, ?_, hlen, ?_⟩
  · simp [filterwrite, filterProject, hcs, Project.Pack, hout]
  · intro i c c' hc hc' d hdd
    have hfc := hidx i c c' hc hc'
    rw [filterChunk_FLdt _ c d hdd] at hfc
    simp only [Option.map_eq_some'] at hfc
    obtain ⟨es', hes, hc'eq⟩ := hfc
    obtain ⟨hl2, hidx2⟩ := filterEvents_some _ _ _ hes
    refine ⟨⟨es'⟩, by rw [← hc'eq], hl2, ?_⟩
    intro j e e' he he' hty
    have hfe := hidx2 j e e' he he'
    have hcm : c ∈ p.Chunks := List.getElem?_mem hc
    have hem : e ∈ d.Event := List.getElem?_mem he
    obtain ⟨-, -, hwe⟩ := Chunk_WF_FLdt (Chunk_WFAll_mem _ hw c hcm) hdd
    obtain ⟨items, h1, -, -, h4, h5⟩ := filterEvent_playlist_some (hwe e hem) hty hfe
    refine ⟨by rw [h4]; exact hty, items, h1, ?_⟩
    rw [h5, hTt, filter_rawTrack t ht]

set_option maxRecDepth 100000 in
theorem filterwrite_keeps_track_witness :
    IsBytes exampleInput ∧ Project.Unpack exampleInput = some exampleProject
      ∧ discover exampleProject = .ok [480, 490] ∧ (490 : Int) ∈ [(480 : Int), 490]
      ∧ (filterProject exampleProject (rawTrack 490)).map Project.playlists
          = some [some ⟨[exampleItem 10, exampleItem 10]⟩]
      ∧ (filterProject exampleProject (rawTrack 480)).map Project.playlists
          = some [some ⟨[exampleItem 20]⟩]
      ∧ exampleProject.playlists
          = [some ⟨[exampleItem 10, exampleItem 20, exampleItem 10]⟩]
      ∧ ∃ q out, filterProject exampleProject (rawTrack 490) = some q ∧ q.Pack = some out
        ∧ filterwrite exampleProject (rawTrack 490) = some out
        ∧ q.Chunks.length = exampleProject.Chunks.length
        ∧ ∀ (i : Nat) (c c' : Chunk), exampleProject.Chunks[i]? = some c →
            q.Chunks[i]? = some c' →
            ∀ d, c.Data.FLdt = some d →
              ∃ d', c'.Data.FLdt = some d' ∧ d'.Event.length = d.Event.length
                ∧ ∀ (j : Nat) (e e' : Event), d.Event[j]? = some e → d'.Event[j]? = some e' →
                    e.Typ = 233 →
                      e'.Typ = 233 ∧ ∃ items,
                        PlaylistItemsEvent.Unpack e.Bytes.Data = some ⟨items⟩
                          ∧ PlaylistItemsEvent.Unpack e'.Bytes.Data
                              = some ⟨items.filter fun r =>
                                  decide (500 - (r.Track : Int) = 490)⟩ :=
  ⟨by decide, by decide, by rfl, by decide, by decide, by decide, by decide,
    filterwrite_keeps_track exampleInput exampleProject [480, 490] 490
      (by decide) (by decide) (by rfl) (by decide)⟩

/-! ## Lengths after the filter: claims C8 and C6 -/

/-- What the filter does to a chunk that comes out with an FLdt payload. -/
theorem filterChunk_some_FLdt {track : Nat} {c c' : Chunk} {d' : ChunkFLdt}
    (h : filterChunk track c = some c') (hd' : c'.Data.FLdt = some d') :
    ∃ d, c.Data.FLdt = some d ∧ filterEvents track d.Event = some d'.Event
      ∧ c'.Typ = c.Typ ∧ c'.Data = { c.Data with FLdt := some d' }
      ∧ c'.Len = (c'.SizeOf % 2 ^ 32 + 2 ^ 32 - 8) % 2 ^ 32 := by
  cases hd : c.Data.FLdt with
  | none =>
    rw [filterChunk_other track c hd] at h
    injection h with h
    subst h
    rw [hd] at hd'
    exact absurd hd' (by simp)
  | some d =>
    rw [filterChunk_FLdt track c d hd] at h
    simp only [Option.map_eq_some'] at h
    obtain ⟨es', hes, hc'⟩ := h
    subst hc'
    simp only [Option.some.injEq] at hd'
    subst hd'
    refine ⟨d, rfl, hes, rfl, rfl, ?_⟩
    simp only [Chunk.SizeOf]

/-- The bytes of a packed event are as many as its size. -/
theorem Event_Pack_length {e : Event} (hw : e.WF) {bs : List Nat} (h : e.Pack = some bs) :
    bs.length = e.SizeOf := by
  rcases byte_class e.Typ hw.1 with hc | hc | hc | hc
  · rw [Event_Pack_c0 e hc] at h; injection h with h
    rw [← h, Event_SizeOf_c0 e hc]
    simp only [putU8, putU16, putU32, List.length_append, List.length_cons, List.length_nil]
  · rw [Event_Pack_c1 e hc] at h; injection h with h
    rw [← h, Event_SizeOf_c1 e hc]
    simp only [putU8, putU16, putU32, List.length_append, List.length_cons, List.length_nil]
  · rw [Event_Pack_c2 e hc] at h; injection h with h
    rw [← h, Event_SizeOf_c2 e hc]
    simp only [putU8, putU16, putU32, List.length_append, List.length_cons, List.length_nil]
  · have h := Event_Pack_c3_some hc h
    rw [← h, Event_SizeOf_c3 e hc]
    simp only [putU8, List.length_append, List.length_cons, List.length_nil]

theorem Event_packAll_length : ∀ (es : List Event) (bs : List Nat), (∀ e ∈ es, e.WF) →
    Event.packAll es = some bs → bs.length = Event.sizeAll es
  | [], bs, _, h => by
    simp only [Event.packAll, Option.some.injEq] at h
    subst h; rfl
  | e :: es, bs, hw, h => by
    simp only [Event.packAll, Option.bind_eq_bind, Option.bind_eq_some] at h
    obtain ⟨b, hb, bs1, hbs, h3⟩ := h
    simp only [Option.some.injEq] at h3
    subst h3
    rw [List.length_append, Event_Pack_length (hw e (List.mem_cons_self _ _)) hb,
      Event_packAll_length es bs1 (fun x hx => hw x (List.mem_cons_of_mem _ hx)) hbs,
      Event.sizeAll]

/-- Every variable-length event of a filtered project has a length prefix equal
to the length of its data. -/
theorem filtered_var_event_len {buf : List Nat} {p q : Project} {track : Nat}
    (hB : IsBytes buf) (hp : Project.Unpack buf = some p)
    (hq : filterProject p track = some q) :
    ∀ c' ∈ q.Chunks, ∀ d', c'.Data.FLdt = some d' → ∀ e' ∈ d'.Event,
      e'.Typ &&& 0xC0 = 0xC0 → e'.Bytes.Len.Value = e'.Bytes.Data.length := by
  obtain ⟨hw, -⟩ := Project_Unpack_some hB hp
  simp only [filterProject, Option.map_eq_some'] at hq
  obtain ⟨cs', hcs, hq⟩ := hq
  subst hq
  intro c' hc' d' hd' e' he' hcl
  obtain ⟨c, hc, hfc⟩ := filterChunks_mem _ _ _ hcs c' hc'
  obtain ⟨d, hd, hes, -, -, -⟩ := filterChunk_some_FLdt hfc hd'
  obtain ⟨-, -, hwe⟩ := Chunk_WF_FLdt (Chunk_WFAll_mem _ hw c hc) hd
  obtain ⟨e, he, hfe⟩ := (filterEvents_mem _ _ _ hes).1 e' he'
  obtain ⟨⟨-, -, -, -, h5⟩, -⟩ := filterEvent_WF (hwe e he) hfe
  rw [if_pos hcl] at h5
  exact h5.2.1.symm

/-- C8: for every project decoded from a byte buffer and every track, in the
project `filterwrite` packs every variable-length event (`Type & 0xC0 == 0xC0`)
of an FLdt chunk has `Bytes.Len.Value` equal to the length of `Bytes.Data`, and
for a type 233 event the payload decodes to the retained records and that length
is 32 times their number. -/
theorem filterwrite_event_lengths (buf : List Nat) (p q : Project) (track : Nat)
    (hB : IsBytes buf) (hp : Project.Unpack buf = some p)
    (hq : filterProject p track = some q) :
    ∀ c' ∈ q.Chunks, ∀ d', c'.Data.FLdt = some d' → ∀ e' ∈ d'.Event,
      (e'.Typ &&& 0xC0 = 0xC0 → e'.Bytes.Len.Value = e'.Bytes.Data.length)
        ∧ (e'.Typ = 233 → ∃ retained,
            PlaylistItemsEvent.Unpack e'.Bytes.Data = some ⟨retained⟩
              ∧ e'.Bytes.Len.Value = 32 * retained.length
              ∧ e'.Bytes.Data.length = 32 * retained.length) := by
  obtain ⟨hw, -⟩ := Project_Unpack_some hB hp
  simp only [filterProject, Option.map_eq_some'] at hq
  obtain ⟨cs', hcs, hq⟩ := hq
  subst hq
  intro c' hc' d' hd' e' he'
  obtain ⟨c, hc, hfc⟩ := filterChunks_mem _ _ _ hcs c' hc'
  obtain ⟨d, hd, hes, -, -, -⟩ := filterChunk_some_FLdt hfc hd'
  obtain ⟨-, -, hwe⟩ := Chunk_WF_FLdt (Chunk_WFAll_mem _ hw c hc) hd
  obtain ⟨e, he, hfe⟩ := (filterEvents_mem _ _ _ hes).1 e' he'
  obtain ⟨hwe', -⟩ := filterEvent_WF (hwe e he) hfe
  constructor
  · intro hcl
    obtain ⟨-, -, -, -, h5⟩ := hwe'
    rw [if_pos hcl] at h5
    exact h5.2.1.symm
  · intro hty
    have hty0 : e.Typ = 233 := by rw [← filterEvent_Typ hfe]; exact hty
    obtain ⟨items, -, -, -, h4, h5⟩ := filterEvent_playlist_some (hwe e he) hty0 hfe
    refine ⟨_, h5, ?_, ?_⟩
    · rw [h4]
    · rw [h4]; exact PlaylistItemsEvent_Pack_length _

set_option maxRecDepth 100000 in
theorem filterwrite_event_lengths_witness :
    IsBytes exampleInput ∧ Project.Unpack exampleInput = some exampleProject
      ∧ filterProject exampleProject 10
          = some ⟨[⟨tagFLhd, 6, ⟨some ⟨0, 1, 96⟩, none, none⟩⟩,
              ⟨tagFLdt, 73, ⟨none, some ⟨exampleEvents [10, 10]⟩, none⟩⟩]⟩
      ∧ ∀ c' ∈ [(⟨tagFLhd, 6, ⟨some ⟨0, 1, 96⟩, none, none⟩⟩ : Chunk),
              ⟨tagFLdt, 73, ⟨none, some ⟨exampleEvents [10, 10]⟩, none⟩⟩],
          ∀ d', c'.Data.FLdt = some d' → ∀ e' ∈ d'.Event,
            (e'.Typ &&& 0xC0 = 0xC0 → e'.Bytes.Len.Value = e'.Bytes.Data.length)
              ∧ (e'.Typ = 233 → ∃ retained,
                  PlaylistItemsEvent.Unpack e'.Bytes.Data = some ⟨retained⟩
                    ∧ e'.Bytes.Len.Value = 32 * retained.length
                    ∧ e'.Bytes.Data.length = 32 * retained.length) :=
  ⟨by decide, by decide, by decide,
    filterwrite_event_lengths exampleInput exampleProject _ 10
      (by decide) (by decide) (by decide)⟩

theorem putTag_length (ty : List Nat) : (putTag ty).length = 4 := by
  simp [putTag]

theorem ChunkData_SizeOf_FLdt (d : ChunkData) (f : ChunkFLdt) (h : d.FLdt = some f) :
    d.SizeOf tagFLdt = Event.sizeAll f.Event := by
  have h1 : tagFLdt ≠ tagFLhd := by decide
  simp only [ChunkData.SizeOf, if_neg h1, if_true, h]

theorem ChunkData_Pack_FLdt (d : ChunkData) (f : ChunkFLdt) (len : Nat)
    (h : d.FLdt = some f) : d.Pack tagFLdt len = Event.packAll f.Event := by
  have h1 : tagFLdt ≠ tagFLhd := by decide
  simp only [ChunkData.Pack, if_neg h1, if_true, h]

/-- The FLdt chunks the filter produces from a decoded project: the events are
well formed and their packed size is at most what the input held. -/
theorem filterChunks_FLdt_bound {buf : List Nat} {p : Project} {track : Nat}
    {cs' : List Chunk} (hB : IsBytes buf) (hp : Project.Unpack buf = some p)
    (hcs : filterChunks track p.Chunks = some cs') :
    ∀ c' ∈ cs', ∀ d', c'.Data.FLdt = some d' →
      c'.Typ = tagFLdt ∧ (∀ e ∈ d'.Event, e.WF)
        ∧ Event.sizeAll d'.Event + 8 ≤ buf.length
        ∧ c'.SizeOf = 8 + Event.sizeAll d'.Event
        ∧ c'.Len = (c'.SizeOf % 2 ^ 32 + 2 ^ 32 - 8) % 2 ^ 32 := by
  obtain ⟨hw, hsz⟩ := Project_Unpack_some hB hp
  intro c' hc' d' hd'
  obtain ⟨c, hc, hfc⟩ := filterChunks_mem _ _ _ hcs c' hc'
  obtain ⟨d, hd, hes, hty, hdata, hlen⟩ := filterChunk_some_FLdt hfc hd'
  obtain ⟨hct, -, hwe⟩ := Chunk_WF_FLdt (Chunk_WFAll_mem _ hw c hc) hd
  obtain ⟨hwe', hle⟩ := filterEvents_WF _ _ _ hwe hes
  have h1 := hsz c hc
  rw [hct, ChunkData_SizeOf_FLdt _ d hd] at h1
  refine ⟨by rw [hty, hct], hwe', by omega, ?_, hlen⟩
  simp only [Chunk.SizeOf]
  rw [hty, hct, ChunkData_SizeOf_FLdt _ d' hd']

/-- The `Len` that `uint32(size) - 8` gives for a payload of `n` bytes. -/
theorem wrapped_len (n : Nat) : ((8 + n) % 2 ^ 32 + 2 ^ 32 - 8) % 2 ^ 32 = n % 2 ^ 32 := by
  omega

/-- C6 (amended): for every project decoded from a byte buffer and every track,
each FLdt chunk of the project `filterwrite` packs has a `Len` equal to the
number of bytes of its packed event sequence (the sum of the packed sizes of its
events, the packed size of the chunk minus the 8 byte header) reduced modulo
`2 ^ 32`: `Len` is the `uint32` value `uint32(size) - 8`. It is that number
itself whenever the number is below `2 ^ 32`, which it is for every project
decoded from a buffer shorter than `2 ^ 32` bytes. -/
theorem filterwrite_chunk_len (buf : List Nat) (p q : Project) (track : Nat)
    (hB : IsBytes buf) (hp : Project.Unpack buf = some p)
    (hq : filterProject p track = some q) :
    ∀ c' ∈ q.Chunks, ∀ d', c'.Data.FLdt = some d' →
      ∃ events packed, Event.packAll d'.Event = some events
        ∧ c'.Pack = some packed
        ∧ packed = putTag c'.Typ ++ putU32 c'.Len ++ events
        ∧ events.length = Event.sizeAll d'.Event
        ∧ events.length + 8 = c'.SizeOf
        ∧ events.length + 8 = packed.length
        ∧ c'.Len = events.length % 2 ^ 32
        ∧ (events.length < 2 ^ 32 → c'.Len = events.length)
        ∧ (buf.length < 2 ^ 32 →
            c'.Len = events.length ∧ c'.Len = Event.sizeAll d'.Event
              ∧ c'.Len + 8 = c'.SizeOf ∧ c'.Len + 8 = packed.length) := by
  simp only [filterProject, Option.map_eq_some'] at hq
  obtain ⟨cs', hcs, hq⟩ := hq
  subst hq
  intro c' hc' d' hd'
  obtain ⟨hty, hwe, hb, hsz, hl⟩ := filterChunks_FLdt_bound hB hp hcs c' hc' d' hd'
  obtain ⟨events, hev⟩ := Event_packAll_isSome d'.Event hwe
  have hevl := Event_packAll_length _ _ hwe hev
  have hpk : c'.Pack = some (putTag c'.Typ ++ putU32 c'.Len ++ events) := by
    simp only [Chunk.Pack, Option.bind_eq_bind]
    rw [hty, ChunkData_Pack_FLdt _ d' _ hd', hev]
    rfl
  have hLen : c'.Len = events.length % 2 ^ 32 := by
    rw [hl, hsz, hevl]
    exact wrapped_len _
  have hplen : (putTag c'.Typ ++ putU32 c'.Len ++ events).length = events.length + 8 := by
    simp only [List.length_append, putTag_length, putU32_length]
    omega
  have hex : events.length < 2 ^ 32 → c'.Len = events.length := by
    intro h
    rw [hLen]
    exact Nat.mod_eq_of_lt h
  refine ⟨events, _, hev, hpk, rfl, hevl, by omega, hplen.symm, hLen, hex, ?_⟩
  intro hlen
  have h1 : events.length < 2 ^ 32 := by omega
  have h2 := hex h1
  exact ⟨h2, by omega, by omega, by omega⟩

set_option maxRecDepth 100000 in
theorem filterwrite_chunk_len_witness :
    IsBytes exampleInput4 ∧ exampleInput4.length < 2 ^ 32
      ∧ Project.Unpack exampleInput4 = some exampleProject4
      ∧ exampleProject4.playlists
          = [some ⟨[exampleItem 10, exampleItem 20, exampleItem 10, exampleItem 20]⟩]
      ∧ filterProject exampleProject4 10
          = some ⟨[⟨tagFLhd, 6, ⟨some ⟨0, 1, 96⟩, none, none⟩⟩,
              ⟨tagFLdt, 73, ⟨none, some ⟨exampleEvents [10, 10]⟩, none⟩⟩]⟩
      ∧ 138 - 73 = (128 - 64) + (VLQ.SizeOf ⟨128⟩ - VLQ.SizeOf ⟨64⟩)
      ∧ ∀ c' ∈ [(⟨tagFLhd, 6, ⟨some ⟨0, 1, 96⟩, none, none⟩⟩ : Chunk),
              ⟨tagFLdt, 73, ⟨none, some ⟨exampleEvents [10, 10]⟩, none⟩⟩],
          ∀ d', c'.Data.FLdt = some d' →
            ∃ events packed, Event.packAll d'.Event = some events
              ∧ c'.Pack = some packed
              ∧ packed = putTag c'.Typ ++ putU32 c'.Len ++ events
              ∧ events.length = Event.sizeAll d'.Event
              ∧ events.length + 8 = c'.SizeOf
              ∧ events.length + 8 = packed.length
              ∧ c'.Len = events.length % 2 ^ 32
              ∧ (events.length < 2 ^ 32 → c'.Len = events.length)
              ∧ (exampleInput4.length < 2 ^ 32 →
                  c'.Len = events.length ∧ c'.Len = Event.sizeAll d'.Event
                    ∧ c'.Len + 8 = c'.SizeOf ∧ c'.Len + 8 = packed.length) :=
  ⟨by decide, by decide, by decide, by decide, by decide, by decide,
    filterwrite_chunk_len exampleInput4 exampleProject4 _ 10
      (by decide) (by decide) (by decide)⟩

/-! ## Decoding what was packed -/

theorem EventBytes_Unpack_Pack (b : EventBytes) (hv : b.Len.Value < 2 ^ 64)
    (hl : b.Data.length = b.Len.Value) (rest : List Nat) :
    EventBytes.Unpack (VLQ.bytes b.Len.Value ++ b.Data ++ rest) = some (b, rest) := by
  simp only [EventBytes.Unpack, Option.bind_eq_bind, List.append_assoc]
  rw [VLQ_Unpack_bytes _ hv]
  simp only [Option.some_bind]
  rw [← hl, readBytes_append]
  obtain ⟨⟨v⟩, dat⟩ := b
  simp only at hl
  simp [hl]

/-- Decoding the bytes of a packed well formed event gives the event back. -/
theorem Event_Unpack_Pack {e : Event} (hw : e.WF) {bs : List Nat} (h : e.Pack = some bs)
    (rest : List Nat) : Event.Unpack (bs ++ rest) = some (e, rest) := by
  obtain ⟨ty, i8, i16, i32, b⟩ := e
  obtain ⟨w1, w2, w3, w4, w5⟩ := hw
  simp only at w1 w2 w3 w4 w5
  have hty : ty % 256 = ty := Nat.mod_eq_of_lt w1
  rcases byte_class ty w1 with hc | hc | hc | hc
  · rw [Event_Pack_c0 _ hc] at h; injection h with h
    subst h
    simp only [hc, if_true, Nat.reduceEqDiff, if_false] at w2 w3 w4 w5
    subst w3 w4 w5
    simp only [putU8, hty, List.cons_append, List.nil_append]
    rw [Event_Unpack_c0 ty _ hc]
    simp [readU8, Nat.mod_eq_of_lt w2]
  · rw [Event_Pack_c1 _ hc] at h; injection h with h
    subst h
    simp only [hc, if_true, Nat.reduceEqDiff, if_false] at w2 w3 w4 w5
    subst w2 w4 w5
    simp only [putU8, hty, List.cons_append, List.nil_append]
    rw [Event_Unpack_c1 ty _ hc, readU16_put _ w3]
    rfl
  · rw [Event_Pack_c2 _ hc] at h; injection h with h
    subst h
    simp only [hc, if_true, Nat.reduceEqDiff, if_false] at w2 w3 w4 w5
    subst w2 w3 w5
    simp only [putU8, hty, List.cons_append, List.nil_append]
    rw [Event_Unpack_c2 ty _ hc, readU32_put _ w4]
    rfl
  · have h := Event_Pack_c3_some hc h
    simp only at h
    subst h
    simp only [hc, if_true, Nat.reduceEqDiff, if_false] at w2 w3 w4 w5
    subst w2 w3 w4
    simp only [putU8, hty, List.cons_append, List.nil_append]
    rw [Event_Unpack_c3 ty _ hc, List.append_assoc, ← List.append_assoc,
      EventBytes_Unpack_Pack b w5.1 w5.2.1]
    rfl

theorem Event_Pack_ne_nil {e : Event} {bs : List Nat} (h : e.Pack = some bs) : bs ≠ [] := by
  by_cases hc : e.Typ &&& 0xC0 = 0xC0
  · have h := Event_Pack_c3_some hc h
    rw [← h]
    simp [putU8]
  · simp only [Event.Pack, hc, if_false, Option.bind_eq_bind, Option.some_bind,
      Option.some.injEq] at h
    rw [← h]
    simp [putU8]

/-- The event loop decodes a packed sequence of well formed events. -/
theorem Event_unpackAll_packAll : ∀ (es : List Event) (bs : List Nat) (fuel : Nat),
    (∀ e ∈ es, e.WF) → Event.packAll es = some bs → bs.length ≤ fuel →
    Event.unpackAll fuel bs = some es
  | [], bs, fuel, _, h, _ => by
    simp only [Event.packAll, Option.some.injEq] at h
    subst h
    cases fuel <;> simp [Event.unpackAll]
  | e :: es, bs, fuel, hw, h, hf => by
    simp only [Event.packAll, Option.bind_eq_bind, Option.bind_eq_some] at h
    obtain ⟨b, hb, bs1, hbs, h3⟩ := h
    injection h3 with h3
    subst h3
    have hne := Event_Pack_ne_nil hb
    have hpos : 0 < b.length := List.length_pos.mpr hne
    cases fuel with
    | zero => simp only [List.length_append] at hf; omega
    | succ f =>
      have hemp : (b ++ bs1).isEmpty = false := by
        cases b with
        | nil => exact absurd rfl hne
        | cons x xs => rfl
      simp only [Event.unpackAll, hemp, Bool.false_eq_true, if_false, Option.bind_eq_bind]
      rw [Event_Unpack_Pack (hw e (List.mem_cons_self _ _)) hb]
      simp only [Option.some_bind]
      rw [Event_unpackAll_packAll es bs1 f (fun x hx => hw x (List.mem_cons_of_mem _ hx)) hbs
        (by simp only [List.length_append] at hf; omega)]
      rfl

theorem putTag_eq (ty : List Nat) (h : ty.length = 4) : putTag ty = ty := by
  simp only [putTag]
  rw [List.take_append_of_le_length (by omega)]
  exact List.take_of_length_le (by omega)

/-- Decoding the bytes of a packed well formed chunk gives the chunk back; an FLdt
chunk must be the last thing in the buffer. -/
theorem Chunk_Unpack_Pack {c : Chunk} (hw : c.WF) {bs : List Nat} (h : c.Pack = some bs)
    (rest : List Nat) (hlast : c.Typ = tagFLdt → rest = []) :
    Chunk.Unpack (bs ++ rest) = some (c, rest) := by
  obtain ⟨ty, len, data⟩ := c
  obtain ⟨w1, w2, w3, w4⟩ := hw
  simp only at w1 w2 w3 w4 hlast
  simp only [Chunk.Pack, Option.bind_eq_bind, Option.bind_eq_some] at h
  obtain ⟨d, hd, h⟩ := h
  injection h with h
  subst h
  simp only [List.append_assoc, Chunk.Unpack, Option.bind_eq_bind]
  rw [← putTag_length ty, readBytes_append]
  simp only [Option.some_bind, cString_putTag ty w1.1 w1.2]
  rw [readU32_put _ w3]
  simp only [Option.some_bind]
  by_cases h1 : ty = tagFLhd
  · rw [if_pos h1] at w4 ⊢
    obtain ⟨hh, hdat, r1, r2, r3⟩ := w4
    subst hdat
    simp only [ChunkData.Pack, if_pos h1] at hd
    injection hd with hd
    subst hd
    simp only [ChunkFLhd.Pack, ChunkFLhd.Unpack, List.append_assoc, Option.bind_eq_bind]
    rw [readU16_put _ r1]; simp only [Option.some_bind]
    rw [readU16_put _ r2]; simp only [Option.some_bind]
    rw [readU16_put _ r3]; simp only [Option.some_bind]
  · rw [if_neg h1] at w4 ⊢
    by_cases h2 : ty = tagFLdt
    · rw [if_pos h2] at w4 ⊢
      obtain ⟨dd, hdat, hwe⟩ := w4
      subst hdat
      simp only [ChunkData.Pack, if_neg h1, if_pos h2] at hd
      have hr := hlast h2
      subst hr
      simp only [List.append_nil, ChunkFLdt.Unpack]
      rw [Event_unpackAll_packAll dd.Event d d.length hwe hd (Nat.le_refl _)]
      rfl
    · rw [if_neg h2] at w4 ⊢
      obtain ⟨u, hdat, hul, -⟩ := w4
      subst hdat
      simp only [ChunkData.Pack, if_neg h1, if_neg h2, hul, if_true] at hd
      injection hd with hd
      subst hd
      simp only [ChunkUnk.Unpack, Option.bind_eq_bind]
      rw [← hul, readBytes_append]
      rfl

theorem Chunk_Pack_ne_nil {c : Chunk} {bs : List Nat} (h : c.Pack = some bs) : bs ≠ [] := by
  simp only [Chunk.Pack, Option.bind_eq_bind, Option.bind_eq_some] at h
  obtain ⟨x, -, hx⟩ := h
  injection hx with hx
  rw [← hx]
  simp [putU32]

/-- The chunk loop decodes a packed list of well formed chunks. -/
theorem Chunk_unpackAll_packAll : ∀ (cs : List Chunk) (bs : List Nat) (fuel : Nat),
    Chunk.WFAll cs → Chunk.packAll cs = some bs → bs.length ≤ fuel →
    Chunk.unpackAll fuel bs = some cs
  | [], bs, fuel, _, h, _ => by
    simp only [Chunk.packAll, Option.some.injEq] at h
    subst h
    cases fuel <;> simp [Chunk.unpackAll]
  | c :: cs, bs, fuel, hw, h, hf => by
    simp only [Chunk.packAll, Option.bind_eq_bind, Option.bind_eq_some] at h
    obtain ⟨b, hb, bs1, hbs, h3⟩ := h
    injection h3 with h3
    subst h3
    obtain ⟨hwc, hlast, hwcs⟩ := hw
    have hne := Chunk_Pack_ne_nil hb
    have hpos : 0 < b.length := List.length_pos.mpr hne
    cases fuel with
    | zero => simp only [List.length_append] at hf; omega
    | succ f =>
      have hemp : (b ++ bs1).isEmpty = false := by
        cases b with
        | nil => exact absurd rfl hne
        | cons x xs => rfl
      have hrest : c.Typ = tagFLdt → bs1 = [] := by
        intro ht
        have := hlast ht
        subst this
        simp only [Chunk.packAll, Option.some.injEq] at hbs
        exact hbs.symm
      simp only [Chunk.unpackAll, hemp, Bool.false_eq_true, if_false, Option.bind_eq_bind]
      rw [Chunk_Unpack_Pack hwc hb bs1 hrest]
      simp only [Option.some_bind]
      rw [Chunk_unpackAll_packAll cs bs1 f hwcs hbs
        (by simp only [List.length_append] at hf; omega)]
      rfl

/-- Decoding the bytes of a packed well formed project gives the project back. -/
theorem Project_Unpack_Pack (q : Project) (hw : Chunk.WFAll q.Chunks) (out : List Nat)
    (h : q.Pack = some out) : Project.Unpack out = some q := by
  simp only [Project.Unpack]
  rw [Chunk_unpackAll_packAll q.Chunks out out.length hw h (Nat.le_refl _)]
  rfl

/-! ## The output of `filterwrite` is a container: claim C3 -/

theorem VLQ_Groups_IsBytes : ∀ (gs : List Nat), VLQ.Groups gs → IsBytes gs
  | [], h => by simp [VLQ.Groups] at h
  | [t], h => by
    simp only [VLQ.Groups] at h
    simp only [IsBytes_cons, IsBytes_nil, and_true]
    omega
  | c :: d :: cs, h => by
    simp only [VLQ.Groups] at h
    rw [IsBytes_cons]
    exact ⟨h.2.1, VLQ_Groups_IsBytes (d :: cs) h.2.2⟩

theorem VLQ_bytes_IsBytes (v : Nat) : IsBytes (VLQ.bytes v) :=
  VLQ_Groups_IsBytes _ (VLQ_bytes_groups v).1

theorem Event_Pack_IsBytes {e : Event} (hw : e.WF) {bs : List Nat} (h : e.Pack = some bs) :
    IsBytes bs := by
  rcases byte_class e.Typ hw.1 with hc | hc | hc | hc
  · rw [Event_Pack_c0 e hc] at h; injection h with h
    rw [← h, IsBytes_append]
    exact ⟨IsBytes_putU8 _, IsBytes_putU8 _⟩
  · rw [Event_Pack_c1 e hc] at h; injection h with h
    rw [← h, IsBytes_append]
    exact ⟨IsBytes_putU8 _, IsBytes_putU16 _⟩
  · rw [Event_Pack_c2 e hc] at h; injection h with h
    rw [← h, IsBytes_append]
    exact ⟨IsBytes_putU8 _, IsBytes_putU32 _⟩
  · have h := Event_Pack_c3_some hc h
    obtain ⟨-, -, -, -, w5⟩ := hw
    rw [if_pos hc] at w5
    rw [← h, IsBytes_append, IsBytes_append]
    exact ⟨IsBytes_putU8 _, VLQ_bytes_IsBytes _, w5.2.2⟩

theorem Event_packAll_IsBytes : ∀ (es : List Event) (bs : List Nat), (∀ e ∈ es, e.WF) →
    Event.packAll es = some bs → IsBytes bs
  | [], bs, _, h => by
    simp only [Event.packAll, Option.some.injEq] at h
    subst h; exact IsBytes_nil
  | e :: es, bs, hw, h => by
    simp only [Event.packAll, Option.bind_eq_bind, Option.bind_eq_some] at h
    obtain ⟨b, hb, bs1, hbs, h3⟩ := h
    injection h3 with h3
    subst h3
    rw [IsBytes_append]
    exact ⟨Event_Pack_IsBytes (hw e (List.mem_cons_self _ _)) hb,
      Event_packAll_IsBytes es bs1 (fun x hx => hw x (List.mem_cons_of_mem _ hx)) hbs⟩

/-- The payload of a packed well formed chunk: bytes, 6 of them for FLhd, as
many as the sizer counts for FLdt, and `Len` of them for an opaque chunk. -/
theorem Chunk_WF_payload {c : Chunk} (hw : c.WF) :
    ∃ payload, c.Data.Pack c.Typ c.Len = some payload ∧ IsBytes payload
      ∧ c.Pack = some (putTag c.Typ ++ putU32 c.Len ++ payload)
      ∧ payload.length = c.Data.SizeOf c.Typ
      ∧ (c.Typ = tagFLhd → payload.length = 6)
      ∧ (c.Typ ≠ tagFLhd → c.Typ ≠ tagFLdt → payload.length = c.Len) := by
  obtain ⟨w1, w2, w3, w4⟩ := hw
  have hpack : ∀ payload, c.Data.Pack c.Typ c.Len = some payload →
      c.Pack = some (putTag c.Typ ++ putU32 c.Len ++ payload) := by
    intro payload hp
    simp only [Chunk.Pack, hp, Option.bind_eq_bind, Option.some_bind]
  by_cases h1 : c.Typ = tagFLhd
  · rw [if_pos h1] at w4
    obtain ⟨hh, hdat, -⟩ := w4
    have hp : c.Data.Pack c.Typ c.Len = some hh.Pack := by
      simp only [ChunkData.Pack, if_pos h1, hdat]
    refine ⟨_, hp, ?_, hpack _ hp, ?_, fun _ => rfl, fun hc => absurd h1 hc⟩
    · simp only [ChunkFLhd.Pack, IsBytes_append]
      exact ⟨⟨IsBytes_putU16 _, IsBytes_putU16 _⟩, IsBytes_putU16 _⟩
    · simp only [ChunkData.SizeOf, if_pos h1, hdat]; rfl
  · rw [if_neg h1] at w4
    by_cases h2 : c.Typ = tagFLdt
    · rw [if_pos h2] at w4
      obtain ⟨dd, hdat, hwe⟩ := w4
      obtain ⟨bs, hbs⟩ := Event_packAll_isSome dd.Event hwe
      have hp : c.Data.Pack c.Typ c.Len = some bs := by
        simp only [ChunkData.Pack, if_neg h1, if_pos h2, hdat, hbs]
      refine ⟨_, hp, Event_packAll_IsBytes _ _ hwe hbs, hpack _ hp, ?_,
        fun hc => absurd hc h1, fun _ hc => absurd h2 hc⟩
      simp only [ChunkData.SizeOf, if_neg h1, if_pos h2, hdat]
      exact Event_packAll_length _ _ hwe hbs
    · rw [if_neg h2] at w4
      obtain ⟨u, hdat, hul, hub⟩ := w4
      have hp : c.Data.Pack c.Typ c.Len = some u.Data := by
        simp only [ChunkData.Pack, if_neg h1, if_neg h2, hdat, hul, if_true]
      refine ⟨_, hp, hub, hpack _ hp, ?_, fun hc => absurd hc h1, fun _ _ => hul⟩
      simp only [ChunkData.SizeOf, if_neg h1, if_neg h2, hdat]

theorem Chunk_packAll_IsBytes : ∀ (cs : List Chunk) (bs : List Nat), Chunk.WFAll cs →
    Chunk.packAll cs = some bs → IsBytes bs
  | [], bs, _, h => by
    simp only [Chunk.packAll, Option.some.injEq] at h
    subst h; exact IsBytes_nil
  | c :: cs, bs, hw, h => by
    simp only [Chunk.packAll, Option.bind_eq_bind, Option.bind_eq_some] at h
    obtain ⟨b, hb, bs1, hbs, h3⟩ := h
    injection h3 with h3
    subst h3
    obtain ⟨hwc, -, hwcs⟩ := hw
    obtain ⟨payload, -, hpb, hpk, -⟩ := Chunk_WF_payload hwc
    rw [hpk] at hb
    injection hb with hb
    subst hb
    simp only [IsBytes_append]
    exact ⟨⟨⟨putTag_IsBytes hwc.2.1, IsBytes_putU32 _⟩, hpb⟩,
      Chunk_packAll_IsBytes cs bs1 hwcs hbs⟩

/-- C3: for every valid input container (a byte buffer shorter than `2 ^ 32`
bytes that decodes, whose FLhd chunks declare their 6 bytes, and on which
discovery finishes) and every track `T`, discovered or not, the buffer
`filterwrite(p, uint32(500-T))` packs is a container again: it is a
byte buffer, decoding it succeeds and returns exactly the filtered project that
was packed, every chunk `Len` is the length of the payload written after it, and
every variable-length event has `Len.Value` equal to the length of its data. -/
theorem filterwrite_output_valid (buf : List Nat) (p : Project) (trackList : List Int)
    (T : Int) (hB : IsBytes buf) (hlen : buf.length < 2 ^ 32)
    (hp : Project.Unpack buf = some p)
    (hhd : ∀ c ∈ p.Chunks, c.Typ = tagFLhd → c.Len = 6)
    (hd : discover p = .ok trackList) :
    ∃ q out, filterProject p (rawTrack T) = some q
      ∧ filterwrite p (rawTrack T) = some out
      ∧ IsBytes out ∧ Project.Unpack out = some q
      ∧ (∀ c' ∈ q.Chunks, ∃ payload, c'.Data.Pack c'.Typ c'.Len = some payload
          ∧ c'.Pack = some (putTag c'.Typ ++ putU32 c'.Len ++ payload)
          ∧ c'.Len = payload.length)
      ∧ (∀ c' ∈ q.Chunks, ∀ d', c'.Data.FLdt = some d' → ∀ e' ∈ d'.Event,
          e'.Typ &&& 0xC0 = 0xC0 → e'.Bytes.Len.Value = e'.Bytes.Data.length) := by
  obtain ⟨-, hdec, -, -⟩ := discover_ok hd
  obtain ⟨hw, -⟩ := Project_Unpack_some hB hp
  obtain ⟨cs', hcs⟩ := filterChunks_of_decode (rawTrack T) p.Chunks hdec
  have hw' := filterChunks_WFAll _ _ _ hw hcs
  obtain ⟨out, hout⟩ := Chunk_packAll_isSome cs' (Chunk_WFAll_mem _ hw')
  have hq : filterProject p (rawTrack T) = some ⟨cs'⟩ := by simp [filterProject, hcs]
  refine ⟨⟨cs'⟩, out, hq, ?_, Chunk_packAll_IsBytes _ _ hw' hout,
    Project_Unpack_Pack ⟨cs'⟩ hw' out hout, ?_, ?_⟩
  · simp [filterwrite, filterProject, hcs, Project.Pack, hout]
  · intro c' hc'
    have hwc' := Chunk_WFAll_mem _ hw' c' hc'
    obtain ⟨payload, h1, -, h3, h4, h5, h6⟩ := Chunk_WF_payload hwc'
    refine ⟨payload, h1, h3, ?_⟩
    obtain ⟨c, hc, hfc⟩ := filterChunks_mem _ _ _ hcs c' hc'
    have hwc := Chunk_WFAll_mem _ hw c hc
    obtain ⟨-, hty⟩ := filterChunk_WF hwc hfc
    by_cases t1 : c'.Typ = tagFLhd
    · have hnd : c.Data.FLdt = none := by
        cases hdd : c.Data.FLdt with
        | none => rfl
        | some d =>
          have := (Chunk_WF_FLdt hwc hdd).1
          rw [← hty, t1] at this
          exact absurd this (by decide)
      rw [filterChunk_other _ c hnd] at hfc
      injection hfc with hfc
      subst hfc
      rw [h5 t1, hhd c hc t1]
    · by_cases t2 : c'.Typ = tagFLdt
      · obtain ⟨-, -, -, w4⟩ := hwc'
        rw [if_neg t1, if_pos t2] at w4
        obtain ⟨d', hd', -⟩ := w4
        have hfl : c'.Data.FLdt = some d' := by rw [hd']
        obtain ⟨-, -, hb, hsz, hl⟩ := filterChunks_FLdt_bound hB hp hcs c' hc' d' hfl
        rw [h4, t2, ChunkData_SizeOf_FLdt _ d' hfl, hl, hsz]
        norm_num at hlen ⊢
        omega
      · exact (h6 t1 t2).symm
  · intro c' hc' d' hd' e' he' hcl
    exact filtered_var_event_len hB hp hq c' hc' d' hd' e' he' hcl

set_option maxRecDepth 100000 in
theorem filterwrite_output_valid_witness :
    IsBytes exampleInput ∧ exampleInput.length < 2 ^ 32
      ∧ Project.Unpack exampleInput = some exampleProject
      ∧ (∀ c ∈ exampleProject.Chunks, c.Typ = tagFLhd → c.Len = 6)
      ∧ discover exampleProject = .ok [480, 490]
      ∧ ∃ q out, filterProject exampleProject (rawTrack 490) = some q
        ∧ filterwrite exampleProject (rawTrack 490) = some out
        ∧ IsBytes out ∧ Project.Unpack out = some q
        ∧ (∀ c' ∈ q.Chunks, ∃ payload, c'.Data.Pack c'.Typ c'.Len = some payload
            ∧ c'.Pack = some (putTag c'.Typ ++ putU32 c'.Len ++ payload)
            ∧ c'.Len = payload.length)
        ∧ (∀ c' ∈ q.Chunks, ∀ d', c'.Data.FLdt = some d' → ∀ e' ∈ d'.Event,
            e'.Typ &&& 0xC0 = 0xC0 → e'.Bytes.Len.Value = e'.Bytes.Data.length) :=
  ⟨by decide, by decide, by decide, by decide, by rfl,
    filterwrite_output_valid exampleInput exampleProject [480, 490] 490
      (by decide) (by decide) (by decide) (by decide) (by rfl)⟩

/-! ## Which lengths encoding recomputes: claim C7 -/

/-- C7 (amended): packing writes the `Len` a chunk holds. In the project
`filterwrite` packs for a project decoded from a byte buffer, an FLdt chunk
carries the `Len` that `filterwrite` recomputed, the length of the payload
written after it reduced modulo `2 ^ 32` (the `uint32` value `uint32(size) - 8`),
which is that length itself whenever the payload, or the buffer decoded, is
shorter than `2 ^ 32` bytes; a chunk with an unrecognized tag is the decoded
chunk, whose `Len` is the length of its data; and an FLhd chunk is the decoded
chunk, written with the `Len` it held when decoded in front of its 6 byte
payload. -/
theorem pack_len_fields (buf : List Nat) (p q : Project) (track : Nat)
    (hB : IsBytes buf) (hp : Project.Unpack buf = some p)
    (hq : filterProject p track = some q) :
    q.Chunks.length = p.Chunks.length
      ∧ ∀ (i : Nat) (c c' : Chunk), p.Chunks[i]? = some c → q.Chunks[i]? = some c' →
        ∃ payload, c'.Data.Pack c'.Typ c'.Len = some payload
          ∧ c'.Pack = some (putTag c'.Typ ++ putU32 c'.Len ++ payload)
          ∧ c'.Typ = c.Typ
          ∧ (c'.Typ = tagFLdt →
              c'.Len = payload.length % 2 ^ 32
                ∧ (payload.length < 2 ^ 32 → c'.Len = payload.length)
                ∧ (buf.length < 2 ^ 32 → c'.Len = payload.length))
          ∧ (c'.Typ ≠ tagFLhd → c'.Typ ≠ tagFLdt → c' = c ∧ c'.Len = payload.length)
          ∧ (c'.Typ = tagFLhd → c' = c ∧ payload.length = 6) := by
  obtain ⟨hw, -⟩ := Project_Unpack_some hB hp
  simp only [filterProject, Option.map_eq_some'] at hq
  obtain ⟨cs', hcs, hq⟩ := hq
  subst hq
  have hw' := filterChunks_WFAll _ _ _ hw hcs
  obtain ⟨hl, hidx⟩ := filterChunks_some _ _ _ hcs
  refine ⟨hl, ?_⟩
  intro i c c' hc hc'
  have hfc := hidx i c c' hc hc'
  have hcm : c ∈ p.Chunks := List.getElem?_mem hc
  have hcm' : c' ∈ cs' := List.getElem?_mem hc'
  have hwc := Chunk_WFAll_mem _ hw c hcm
  have hwc' := Chunk_WFAll_mem _ hw' c' hcm'
  obtain ⟨-, hty⟩ := filterChunk_WF hwc hfc
  obtain ⟨payload, h1, -, h3, h4, h5, h6⟩ := Chunk_WF_payload hwc'
  have hsame : c'.Typ ≠ tagFLdt → c' = c := by
    intro t2
    have hnd : c.Data.FLdt = none := by
      cases hdd : c.Data.FLdt with
      | none => rfl
      | some d =>
        have := (Chunk_WF_FLdt hwc hdd).1
        rw [← hty] at this
        exact absurd this t2
    rw [filterChunk_other _ c hnd] at hfc
    injection hfc with hfc
    exact hfc.symm
  refine ⟨payload, h1, h3, hty, ?_, ?_, ?_⟩
  · intro t2
    have t1 : c'.Typ ≠ tagFLhd := by rw [t2]; decide
    obtain ⟨-, -, -, w4⟩ := hwc'
    rw [if_neg t1, if_pos t2] at w4
    obtain ⟨d', hd', -⟩ := w4
    have hfl : c'.Data.FLdt = some d' := by rw [hd']
    obtain ⟨-, -, hb, hsz, hl⟩ := filterChunks_FLdt_bound hB hp hcs c' hcm' d' hfl
    have hpl : payload.length = Event.sizeAll d'.Event := by
      rw [h4, t2, ChunkData_SizeOf_FLdt _ d' hfl]
    have hLen : c'.Len = payload.length % 2 ^ 32 := by
      rw [hl, hsz, hpl]
      exact wrapped_len _
    refine ⟨hLen, ?_, ?_⟩
    · intro hlt
      rw [hLen]
      exact Nat.mod_eq_of_lt hlt
    · intro hlen
      rw [hLen]
      exact Nat.mod_eq_of_lt (by omega)
  · intro t1 t2
    exact ⟨hsame t2, (h6 t1 t2).symm⟩
  · intro t1
    exact ⟨hsame (by rw [t1]; decide), h5 t1⟩

set_option maxRecDepth 100000 in
theorem pack_len_fields_witness :
    IsBytes exampleInput4
      ∧ Project.Unpack exampleInput4 = some exampleProject4
      ∧ filterProject exampleProject4 10
          = some ⟨[⟨tagFLhd, 6, ⟨some ⟨0, 1, 96⟩, none, none⟩⟩,
              ⟨tagFLdt, 73, ⟨none, some ⟨exampleEvents [10, 10]⟩, none⟩⟩]⟩
      ∧ (Project.Chunks ⟨[⟨tagFLhd, 6, ⟨some ⟨0, 1, 96⟩, none, none⟩⟩,
              ⟨tagFLdt, 73, ⟨none, some ⟨exampleEvents [10, 10]⟩, none⟩⟩]⟩).length
          = exampleProject4.Chunks.length
        ∧ ∀ (i : Nat) (c c' : Chunk), exampleProject4.Chunks[i]? = some c →
          (Project.Chunks ⟨[⟨tagFLhd, 6, ⟨some ⟨0, 1, 96⟩, none, none⟩⟩,
              ⟨tagFLdt, 73, ⟨none, some ⟨exampleEvents [10, 10]⟩, none⟩⟩]⟩)[i]? = some c' →
          ∃ payload, c'.Data.Pack c'.Typ c'.Len = some payload
            ∧ c'.Pack = some (putTag c'.Typ ++ putU32 c'.Len ++ payload)
            ∧ c'.Typ = c.Typ
            ∧ (c'.Typ = tagFLdt →
                c'.Len = payload.length % 2 ^ 32
                  ∧ (payload.length < 2 ^ 32 → c'.Len = payload.length)
                  ∧ (exampleInput4.length < 2 ^ 32 → c'.Len = payload.length))
            ∧ (c'.Typ ≠ tagFLhd → c'.Typ ≠ tagFLdt → c' = c ∧ c'.Len = payload.length)
            ∧ (c'.Typ = tagFLhd → c' = c ∧ payload.length = 6) :=
  ⟨by decide, by decide, by decide,
    pack_len_fields exampleInput4 exampleProject4 _ 10
      (by decide) (by decide) (by decide)⟩

/-! ## A payload the field `Len` cannot hold: the counterexamples of C6 and C7 -/

theorem hugeEvent_WF (R : List Nat) (hR : R.length = 2 ^ 32) (hB : IsBytes R) :
    ∀ e ∈ hugeEventsOf R, e.WF := by
  intro e he
  simp only [hugeEventsOf, List.mem_singleton] at he
  subst he
  refine ⟨(by decide : (0xC0 : Nat) < 256), ?_, ?_, ?_, ?_⟩
  · rw [if_neg (by decide : ¬ (0xC0 : Nat) &&& 0xC0 = 0x00)]
  · rw [if_neg (by decide : ¬ (0xC0 : Nat) &&& 0xC0 = 0x40)]
  · rw [if_neg (by decide : ¬ (0xC0 : Nat) &&& 0xC0 = 0x80)]
  · rw [if_pos (by decide : (0xC0 : Nat) &&& 0xC0 = 0xC0)]
    exact ⟨(by decide : (2 : Nat) ^ 32 < 2 ^ 64), hR, hB⟩

/-- A text event with the length prefix `2 ^ 32` packs to its type byte, the
five bytes of the prefix and its data. -/
theorem hugeEvents_packAll (R : List Nat) (hR : R.length = 2 ^ 32) :
    Event.packAll (hugeEventsOf R)
      = some ([0xC0, 0x80, 0x80, 0x80, 0x80, 0x10] ++ R) := by
  have hb : VLQ.bytes (2 ^ 32) = [0x80, 0x80, 0x80, 0x80, 0x10] := by decide
  have h8 : putU8 0xC0 = [0xC0] := by decide
  have hp := Event_Pack_c3 ⟨0xC0, 0, 0, 0, ⟨⟨2 ^ 32⟩, R⟩⟩
    (by decide : (0xC0 : Nat) &&& 0xC0 = 0xC0) hR
  simp only [hb, h8, List.cons_append, List.nil_append] at hp
  simp only [hugeEventsOf, Event.packAll, hp, Option.bind_eq_bind, Option.some_bind,
    List.append_nil, List.cons_append, List.nil_append]

theorem hugeEvents_sizeAll (R : List Nat) (hR : R.length = 2 ^ 32) :
    Event.sizeAll (hugeEventsOf R) = 2 ^ 32 + 6 := by
  have hb : (VLQ.bytes (2 ^ 32)).length = 5 := by decide
  have hs := Event_SizeOf_c3 ⟨0xC0, 0, 0, 0, ⟨⟨2 ^ 32⟩, R⟩⟩
    (by decide : (0xC0 : Nat) &&& 0xC0 = 0xC0)
  simp only [hb, hR] at hs
  simp only [hugeEventsOf, Event.sizeAll, hs]
  omega

theorem hugeProject_WFAll (R : List Nat) (hR : R.length = 2 ^ 32) (hB : IsBytes R) :
    Chunk.WFAll (hugeProjectOf R).Chunks := by
  refine ⟨⟨⟨(by decide : tagFLdt.length ≤ 4), (by decide : ∀ b ∈ tagFLdt, b ≠ 0)⟩,
    (by decide : IsBytes tagFLdt), (by decide : (6 : Nat) < 2 ^ 32), ?_⟩, fun _ => rfl, trivial⟩
  rw [if_neg (by decide : ¬ tagFLdt = tagFLhd), if_pos (rfl : tagFLdt = tagFLdt)]
  exact ⟨⟨hugeEventsOf R⟩, rfl, hugeEvent_WF R hR hB⟩

theorem hugeProject_Pack (R : List Nat) (hR : R.length = 2 ^ 32) :
    (hugeProjectOf R).Pack = some (hugeInputOf R) := by
  have h1 : tagFLdt ≠ tagFLhd := by decide
  have hpre : putTag tagFLdt ++ putU32 6 = [70, 76, 100, 116, 6, 0, 0, 0] := by decide
  simp only [Project.Pack, hugeProjectOf, Chunk.packAll, Chunk.Pack, ChunkData.Pack, if_neg h1,
    if_true, hugeEvents_packAll R hR, Option.bind_eq_bind, Option.some_bind, List.append_nil,
    hugeInputOf, hpre, List.cons_append, List.nil_append]

theorem hugeProject_filter (R : List Nat) (hR : R.length = 2 ^ 32) :
    filterProject (hugeProjectOf R) 10
      = some ⟨[⟨tagFLdt, 6, ⟨none, some ⟨hugeEventsOf R⟩, none⟩⟩]⟩ := by
  have he : filterEvents 10 (hugeEventsOf R) = some (hugeEventsOf R) := by
    have h := filterEvent_other 10 ⟨0xC0, 0, 0, 0, ⟨⟨2 ^ 32⟩, R⟩⟩
      (by decide : (0xC0 : Nat) ≠ 233)
    simp only [hugeEventsOf, filterEvents, h, Option.bind_eq_bind, Option.some_bind]
  have h1 : tagFLdt ≠ tagFLhd := by decide
  have hlen : ((4 + 4 + (2 ^ 32 + 6)) % 2 ^ 32 + 2 ^ 32 - 8) % 2 ^ 32 = 6 := by norm_num
  simp only [filterProject, hugeProjectOf, filterChunks, filterChunk, he, Option.bind_eq_bind,
    Option.some_bind, Option.map_some', Chunk.SizeOf, ChunkData.SizeOf, if_neg h1, if_true,
    hugeEvents_sizeAll R hR, hlen]

/-- The facts of the counterexample of C6, for any payload of `2 ^ 32` bytes. -/
theorem hugeProject_len_wraps (R : List Nat) (hR : R.length = 2 ^ 32) (hB : IsBytes R) :
    IsBytes (hugeInputOf R)
      ∧ Project.Unpack (hugeInputOf R) = some (hugeProjectOf R)
      ∧ filterProject (hugeProjectOf R) 10
          = some ⟨[⟨tagFLdt, 6, ⟨none, some ⟨hugeEventsOf R⟩, none⟩⟩]⟩
      ∧ (∃ events, Event.packAll (hugeEventsOf R) = some events
          ∧ events.length = 2 ^ 32 + 6)
      ∧ Event.sizeAll (hugeEventsOf R) = 2 ^ 32 + 6 := by
  have hl : ([0xC0, 0x80, 0x80, 0x80, 0x80, 0x10] ++ R).length = 2 ^ 32 + 6 := by
    simp only [List.length_append, List.length_cons, List.length_nil, hR]
    omega
  exact ⟨Chunk_packAll_IsBytes _ _ (hugeProject_WFAll R hR hB) (hugeProject_Pack R hR),
    Project_Unpack_Pack _ (hugeProject_WFAll R hR hB) _ (hugeProject_Pack R hR),
    hugeProject_filter R hR, ⟨_, hugeEvents_packAll R hR, hl⟩, hugeEvents_sizeAll R hR⟩

/-- The bytes `filterwrite` returns are the packed filtered project. -/
theorem filterwrite_of_parts (p q : Project) (out : List Nat) (track : Nat)
    (h1 : filterProject p track = some q) (h2 : q.Pack = some out) :
    filterwrite p track = some out := by
  simp only [filterwrite, h1, Option.bind_eq_bind, Option.some_bind, h2]

/-- The file `filterwrite` packs for a project of one text event with a payload
of `2 ^ 32` bytes: the FLdt tag, the `Len` field 6 and a payload of `2 ^ 32 + 6`
bytes. -/
theorem hugeProject_filterwrite (R : List Nat) (hR : R.length = 2 ^ 32) :
    ∃ payload, filterwrite (hugeProjectOf R) 10
        = some ([70, 76, 100, 116, 6, 0, 0, 0] ++ payload)
      ∧ payload.length = 2 ^ 32 + 6 := by
  have e : hugeInputOf R
      = [70, 76, 100, 116, 6, 0, 0, 0] ++ ([0xC0, 0x80, 0x80, 0x80, 0x80, 0x10] ++ R) := rfl
  refine ⟨[0xC0, 0x80, 0x80, 0x80, 0x80, 0x10] ++ R, ?_, ?_⟩
  · rw [← e]
    exact filterwrite_of_parts _ _ _ _ (hugeProject_filter R hR) (hugeProject_Pack R hR)
  · simp only [List.length_append, List.length_cons, List.length_nil, hR]
    omega

theorem hugeData_length : hugeData.length = 2 ^ 32 := List.length_replicate _ _

theorem hugeData_IsBytes : IsBytes hugeData := by
  intro b hb
  simp only [hugeData, List.mem_replicate] at hb
  omega

/-- C6 fails as stated: the file `hugeInput`, of `2 ^ 32 + 14` bytes, decodes to
a project of one FLdt chunk whose one event packs to `2 ^ 32 + 6` bytes;
`filterwrite` for the raw track 10 keeps the event and stores the `Len` 6 in the
chunk, which is not the number of bytes of its packed event sequence. -/
theorem filterwrite_chunk_len_wraps :
    IsBytes hugeInput
      ∧ Project.Unpack hugeInput = some hugeProject
      ∧ filterProject hugeProject 10
          = some ⟨[⟨tagFLdt, 6, ⟨none, some ⟨hugeEvents⟩, none⟩⟩]⟩
      ∧ (∃ events, Event.packAll hugeEvents = some events ∧ events.length = 2 ^ 32 + 6)
      ∧ Event.sizeAll hugeEvents = 2 ^ 32 + 6
      ∧ (6 : Nat) ≠ 2 ^ 32 + 6 :=
  ⟨(hugeProject_len_wraps hugeData hugeData_length hugeData_IsBytes).1,
    (hugeProject_len_wraps hugeData hugeData_length hugeData_IsBytes).2.1,
    (hugeProject_len_wraps hugeData hugeData_length hugeData_IsBytes).2.2.1,
    (hugeProject_len_wraps hugeData hugeData_length hugeData_IsBytes).2.2.2.1,
    (hugeProject_len_wraps hugeData hugeData_length hugeData_IsBytes).2.2.2.2,
    by decide⟩

set_option maxRecDepth 100000 in
/-- Counterexample to C7 as stated. The file `headerLen7Input` decodes, its FLhd
chunk holds `Len = 7`, and the file `filterwrite` packs for track 490 starts
with the FLhd tag, the `Len` field 7 and the 6 bytes of the header record,
followed at once by the FLdt tag: the `Len` written is not the length of the
payload written after it. And the file `filterwrite` packs for the project
decoded from `hugeInput` holds the FLdt tag, the `Len` field 6 and a payload of
`2 ^ 32 + 6` bytes: the `Len` that `filterwrite` recomputes is that length
reduced modulo `2 ^ 32`. -/
theorem pack_keeps_decoded_header_len :
    IsBytes headerLen7Input
      ∧ Project.Unpack headerLen7Input = some headerLen7Project
      ∧ discover headerLen7Project = .ok [480, 490]
      ∧ filterProject headerLen7Project (rawTrack 490)
          = some ⟨[⟨tagFLhd, 7, ⟨some ⟨0, 1, 96⟩, none, none⟩⟩,
              ⟨tagFLdt, 73, ⟨none, some ⟨exampleEvents [10, 10]⟩, none⟩⟩]⟩
      ∧ ChunkData.Pack tagFLhd 7 ⟨some ⟨0, 1, 96⟩, none, none⟩ = some [0, 0, 1, 0, 96, 0]
      ∧ (filterwrite headerLen7Project (rawTrack 490)).map (fun out => out.take 18)
          = some [70, 76, 104, 100, 7, 0, 0, 0, 0, 0, 1, 0, 96, 0, 70, 76, 100, 116]
      ∧ ((main headerLen7Input).1.map fun w => (w.1, w.2.take 18))
          = [(480, [70, 76, 104, 100, 7, 0, 0, 0, 0, 0, 1, 0, 96, 0, 70, 76, 100, 116]),
             (490, [70, 76, 104, 100, 7, 0, 0, 0, 0, 0, 1, 0, 96, 0, 70, 76, 100, 116])]
      ∧ IsBytes hugeInput
      ∧ Project.Unpack hugeInput = some hugeProject
      ∧ ∃ payload, filterwrite hugeProject 10
            = some ([70, 76, 100, 116, 6, 0, 0, 0] ++ payload)
          ∧ payload.length = 2 ^ 32 + 6 :=
  ⟨by decide, by decide, by rfl, by decide, by decide, by decide, by decide,
    (hugeProject_len_wraps hugeData hugeData_length hugeData_IsBytes).1,
    (hugeProject_len_wraps hugeData hugeData_length hugeData_IsBytes).2.1,
    hugeProject_filterwrite hugeData hugeData_length⟩

/-! ## Packing what was decoded: claim C2 -/

theorem VLQ_groupsValue_lt : ∀ (gs : List Nat), VLQ.Groups gs →
    ∀ t, gs.getLast? = some t → VLQ.groupsValue gs < 128 ^ (gs.length - 1) * (t + 1)
  | [], hg, _, _ => by simp [VLQ.Groups] at hg
  | [x], hg, t, ht => by
    simp only [VLQ.Groups] at hg
    simp only [List.getLast?_singleton, Option.some.injEq] at ht
    subst ht
    simp only [VLQ.groupsValue, List.length_singleton, Nat.sub_self, pow_zero]
    omega
  | c :: d :: cs, hg, t, ht => by
    simp only [VLQ.Groups] at hg
    rw [List.getLast?_cons_cons] at ht
    have ih := VLQ_groupsValue_lt (d :: cs) hg.2.2 t ht
    rw [VLQ_groupsValue_cons]
    simp only [List.length_cons, Nat.add_sub_cancel] at ih ⊢
    rw [pow_succ]
    have hm : c % 128 < 128 := Nat.mod_lt _ (by omega)
    have : 128 ^ cs.length * 128 * (t + 1) = 128 * (128 ^ cs.length * (t + 1)) := by ring
    rw [this]
    omega

theorem VLQ_groupsValue_pos : ∀ (gs : List Nat), VLQ.Groups gs →
    ∀ t, gs.getLast? = some t → t ≠ 0 → VLQ.groupsValue gs ≠ 0
  | [], hg, _, _, _ => by simp [VLQ.Groups] at hg
  | [x], hg, t, ht, h0 => by
    simp only [VLQ.Groups] at hg
    simp only [List.getLast?_singleton, Option.some.injEq] at ht
    subst ht
    simp only [VLQ.groupsValue]
    omega
  | c :: d :: cs, hg, t, ht, h0 => by
    simp only [VLQ.Groups] at hg
    rw [List.getLast?_cons_cons] at ht
    have ih := VLQ_groupsValue_pos (d :: cs) hg.2.2 t ht h0
    rw [VLQ_groupsValue_cons]
    omega

/-- The minimal VLQ of the value of a sequence of groups with no redundant
trailing zero group is that sequence. -/
theorem VLQ_bytes_groupsValue : ∀ (gs : List Nat), VLQ.Groups gs →
    (∀ t, gs.getLast? = some t → t = 0 → gs.length = 1) →
    VLQ.bytes (VLQ.groupsValue gs) = gs
  | [], hg, _ => by simp [VLQ.Groups] at hg
  | [x], hg, _ => by
    simp only [VLQ.Groups] at hg
    have hv : VLQ.groupsValue [x] = x := by simp only [VLQ.groupsValue]; omega
    rw [hv, VLQ.bytes, shr_7, and_7F]
    have h0 : x / 128 = 0 := by omega
    have h1 : x % 128 = x := by omega
    rw [h0, VLQ_tail_zero, h1]
  | c :: d :: cs, hg, hmin => by
    simp only [VLQ.Groups] at hg
    obtain ⟨hc1, hc2, hg2⟩ := hg
    have hne : (d :: cs) ≠ [] := by simp
    have hlast : ∀ t, (d :: cs).getLast? = some t → t ≠ 0 := by
      intro t ht h0
      have := hmin t (by rw [List.getLast?_cons_cons]; exact ht) h0
      simp at this
    have ih := VLQ_bytes_groupsValue (d :: cs) hg2 (fun t ht h0 => absurd h0 (hlast t ht))
    have hpos : VLQ.groupsValue (d :: cs) ≠ 0 :=
      VLQ_groupsValue_pos (d :: cs) hg2 _ (List.getLast?_eq_getLast _ hne)
        (hlast _ (List.getLast?_eq_getLast _ hne))
    rw [VLQ_groupsValue_cons]
    have hm : c % 128 < 128 := Nat.mod_lt _ (by omega)
    have h1 : (c % 128 + 128 * VLQ.groupsValue (d :: cs)) / 128 = VLQ.groupsValue (d :: cs) := by
      omega
    have h2 : (c % 128 + 128 * VLQ.groupsValue (d :: cs)) % 128 = c % 128 := by omega
    rw [VLQ.bytes, shr_7, and_7F, h1, h2,
      VLQ_tail_pos _ _ _ (Nat.le_refl _) hpos]
    have hb := (byte_high c hc1 hc2)
    rw [← hb.2.2, hb.2.1]
    congr 1

/-- What the check of minimal form finds at the start of a byte buffer. -/
theorem VLQ_minimalLoop_spec : ∀ (buf : List Nat) (i : Nat), IsBytes buf →
    VLQ.minimalLoop buf i = true →
    ∃ gs rest t, buf = gs ++ rest ∧ VLQ.Groups gs ∧ gs.getLast? = some t
      ∧ (i + gs.length = 1 ∨ t ≠ 0)
      ∧ (i + gs.length ≤ 9 ∨ (i + gs.length = 10 ∧ t ≤ 1))
  | [], _, _, h => by simp [VLQ.minimalLoop] at h
  | b :: bs, i, hB, h => by
    simp only [IsBytes_cons] at hB
    simp only [VLQ.minimalLoop] at h
    by_cases hb : b &&& 0x80 = 0
    · rw [if_pos hb] at h
      simp only [Bool.and_eq_true, Bool.or_eq_true, decide_eq_true_eq] at h
      refine ⟨[b], bs, b, rfl, (byte_bit7 b hB.1).mp hb, rfl, ?_, ?_⟩
      · simp only [List.length_singleton]
        rcases h.1 with h1 | h1
        · exact Or.inl (by omega)
        · exact Or.inr h1
      · simp only [List.length_singleton]
        rcases h.2 with h1 | h1
        · exact Or.inl (by omega)
        · exact Or.inr ⟨by omega, h1.2⟩
    · rw [if_neg hb] at h
      obtain ⟨gs, rest, t, h1, h2, h3, h4, h5⟩ := VLQ_minimalLoop_spec bs (i + 1) hB.2 h
      have hb128 : 128 ≤ b := by
        by_contra hc
        exact hb ((byte_bit7 b hB.1).mpr (by omega))
      cases gs with
      | nil => simp [VLQ.Groups] at h2
      | cons d cs =>
        refine ⟨b :: d :: cs, rest, t, by simp [h1], ⟨hb128, hB.1, h2⟩, ?_, ?_, ?_⟩
        · rw [List.getLast?_cons_cons]; exact h3
        · rcases h4 with h4 | h4
          · simp only [List.length_cons] at h4; omega
          · exact Or.inr h4
        · simp only [List.length_cons] at h5 ⊢
          omega

/-- Packing the value decoded from a VLQ in minimal form gives its bytes back. -/
theorem VLQ_pack_unpack_minimal {buf rest : List Nat} {v : VLQ} (hB : IsBytes buf)
    (hm : VLQ.isMinimal buf = true) (h : VLQ.Unpack buf = some (v, rest)) :
    buf = VLQ.bytes v.Value ++ rest := by
  obtain ⟨gs, r, t, h1, h2, h3, h4, h5⟩ := VLQ_minimalLoop_spec buf 0 hB hm
  simp only [Nat.zero_add] at h4 h5
  have hlt := VLQ_groupsValue_lt gs h2 t h3
  have hfit : VLQ.groupsValue gs < 2 ^ 64 := by
    rcases h5 with h5 | ⟨h5, h6⟩
    · have hp : 128 ^ (gs.length - 1) ≤ 128 ^ 8 := Nat.pow_le_pow_right (by omega) (by omega)
      have ht : t < 128 := by
        have := (VLQ_groups_continuation gs h2).2 t h3
        by_contra hc
        have hB2 : IsBytes gs := VLQ_Groups_IsBytes gs h2
        have htm : t ∈ gs := List.mem_of_getLast?_eq_some h3
        exact hc ((byte_bit7 t (hB2 t htm)).mp this)
      calc VLQ.groupsValue gs < 128 ^ (gs.length - 1) * (t + 1) := hlt
        _ ≤ 128 ^ 8 * 128 := Nat.mul_le_mul hp (by omega)
        _ < 2 ^ 64 := by norm_num
    · have hp : 128 ^ (gs.length - 1) = 128 ^ 9 := by rw [h5]
      rw [hp] at hlt
      calc VLQ.groupsValue gs < 128 ^ 9 * (t + 1) := hlt
        _ ≤ 128 ^ 9 * 2 := Nat.mul_le_mul_left _ (by omega)
        _ = 2 ^ 64 := by norm_num
  have hdec := VLQ_unpackLoop_groups gs r 0 0 h2 (by simp) (by simpa using hfit)
  simp only [VLQ.Unpack, h1, hdec, Option.map_some', Option.some.injEq, Prod.mk.injEq,
    Nat.zero_add, pow_zero, Nat.mul_one] at h
  obtain ⟨hv, hr⟩ := h
  subst hv hr
  rw [h1, VLQ_bytes_groupsValue gs h2]
  intro t' ht' h0
  rw [h3] at ht'
  injection ht' with ht'
  subst ht'
  rcases h4 with h4 | h4
  · exact h4
  · exact absurd h0 h4

theorem EventBytes_pack_unpack {buf rest : List Nat} {b : EventBytes} (hB : IsBytes buf)
    (hm : VLQ.isMinimal buf = true) (h : EventBytes.Unpack buf = some (b, rest)) :
    buf = VLQ.bytes b.Len.Value ++ b.Data ++ rest := by
  simp only [EventBytes.Unpack, Option.bind_eq_bind, Option.bind_eq_some] at h
  obtain ⟨⟨len, r1⟩, h1, ⟨data, r2⟩, h2, h3⟩ := h
  simp only [Option.some.injEq, Prod.mk.injEq] at h3
  obtain ⟨h3, h4⟩ := h3
  subst h3 h4
  simp only at h2
  obtain ⟨hd1, -⟩ := readBytes_some h2
  have := VLQ_pack_unpack_minimal hB hm h1
  rw [this, hd1, List.append_assoc]

/-- Packing an event decoded from bytes gives the bytes it was decoded from,
when its length prefix, if any, is in minimal form. -/
theorem Event_pack_unpack {buf rest : List Nat} {e : Event} (hB : IsBytes buf)
    (hm : Event.minimalLen buf = true) (h : Event.Unpack buf = some (e, rest)) :
    ∃ bs, e.Pack = some bs ∧ buf = bs ++ rest := by
  cases buf with
  | nil => simp [Event_Unpack_nil] at h
  | cons ty bs =>
    simp only [IsBytes_cons] at hB
    obtain ⟨hty, hbs⟩ := hB
    have htm : ty % 256 = ty := Nat.mod_eq_of_lt hty
    rcases byte_class ty hty with hc | hc | hc | hc
    · rw [Event_Unpack_c0 ty bs hc] at h
      simp only [Option.map_eq_some'] at h
      obtain ⟨⟨v, r⟩, h1, h2⟩ := h
      simp only [Prod.mk.injEq] at h2
      obtain ⟨h2, h3⟩ := h2
      subst h2 h3
      have := readU8_some h1
      subst this
      simp only [IsBytes_cons] at hbs
      refine ⟨_, Event_Pack_c0 _ hc, ?_⟩
      simp [putU8, htm, Nat.mod_eq_of_lt hbs.1]
    · rw [Event_Unpack_c1 ty bs hc] at h
      simp only [Option.map_eq_some'] at h
      obtain ⟨⟨v, r⟩, h1, h2⟩ := h
      simp only [Prod.mk.injEq] at h2
      obtain ⟨h2, h3⟩ := h2
      subst h2 h3
      obtain ⟨h4, -, -⟩ := readU16_some hbs h1
      refine ⟨_, Event_Pack_c1 _ hc, ?_⟩
      simp [putU8, htm, h4]
    · rw [Event_Unpack_c2 ty bs hc] at h
      simp only [Option.map_eq_some'] at h
      obtain ⟨⟨v, r⟩, h1, h2⟩ := h
      simp only [Prod.mk.injEq] at h2
      obtain ⟨h2, h3⟩ := h2
      subst h2 h3
      obtain ⟨h4, -, -⟩ := readU32_some hbs h1
      refine ⟨_, Event_Pack_c2 _ hc, ?_⟩
      simp [putU8, htm, h4]
    · rw [Event_Unpack_c3 ty bs hc] at h
      simp only [Option.map_eq_some'] at h
      obtain ⟨⟨b, r⟩, h1, h2⟩ := h
      simp only [Prod.mk.injEq] at h2
      obtain ⟨h2, h3⟩ := h2
      subst h2 h3
      simp only [Event.minimalLen, if_pos hc] at hm
      have h4 := EventBytes_pack_unpack hbs hm h1
      refine ⟨_, Event_Pack_c3 _ hc (EventBytes_Unpack_some h1).2.1, ?_⟩
      simp only [putU8, htm, List.cons_append, List.nil_append, List.cons.injEq, true_and]
      rw [h4]

/-- Packing the events the event loop decoded gives the buffer back. -/
theorem Event_packAll_unpackAll (fuel : Nat) : ∀ (buf : List Nat) (es : List Event),
    IsBytes buf → Event.allMinimal fuel buf = true → Event.unpackAll fuel buf = some es →
    Event.packAll es = some buf := by
  induction fuel with
  | zero =>
    intro buf es hB _ h
    simp only [Event.unpackAll] at h
    split at h
    · rename_i he
      injection h with h
      subst h
      simp only [List.isEmpty_iff] at he
      subst he
      rfl
    · exact absurd h (by simp)
  | succ f ih =>
    intro buf es hB hm h
    simp only [Event.unpackAll] at h
    simp only [Event.allMinimal] at hm
    split at h
    · rename_i he
      injection h with h
      subst h
      simp only [List.isEmpty_iff] at he
      subst he
      rfl
    · rename_i he
      rw [if_neg he] at hm
      simp only [Option.bind_eq_bind, Option.bind_eq_some] at h
      obtain ⟨⟨e, rest⟩, h1, es1, h2, h3⟩ := h
      injection h3 with h3
      subst h3
      rw [h1] at hm
      simp only [Bool.and_eq_true] at hm
      obtain ⟨-, hr, -, -⟩ := Event_Unpack_some hB h1
      obtain ⟨bs, hp, hb⟩ := Event_pack_unpack hB hm.1 h1
      have := ih rest es1 hr hm.2 h2
      simp only [Event.packAll, hp, this, Option.bind_eq_bind, Option.some_bind, hb]

/-- Packing a chunk decoded from bytes gives the four bytes of the tag string,
padded, and behind them the bytes the chunk was decoded from, when the length
prefixes of its events are in minimal form. -/
theorem Chunk_pack_unpack_body {buf rest : List Nat} {c : Chunk} (hB : IsBytes buf)
    (hm : Chunk.minimalLens buf = true) (h : Chunk.Unpack buf = some (c, rest)) :
    ∃ payload, c.Data.Pack c.Typ c.Len = some payload
      ∧ c.Pack = some (putTag c.Typ ++ putU32 c.Len ++ payload)
      ∧ buf = buf.take 4 ++ (putU32 c.Len ++ payload) ++ rest
      ∧ (buf.take 4).length = 4 ∧ c.Typ = cString (buf.take 4) := by
  simp only [Chunk.Unpack, Option.bind_eq_bind, Option.bind_eq_some] at h
  obtain ⟨⟨raw, r1⟩, h1, ⟨len, r2⟩, h2, h3⟩ := h
  simp only at h2 h3
  obtain ⟨hd1, hd2⟩ := readBytes_some h1
  subst hd1
  simp only [IsBytes_append] at hB
  obtain ⟨hl1, hl2, hl3⟩ := readU32_some hB.2 h2
  subst hl1
  have htake : (raw ++ (putU32 len ++ r2)).take 4 = raw := by
    rw [List.take_append_of_le_length (by omega)]
    exact List.take_of_length_le (by omega)
  have hdrop : (raw ++ (putU32 len ++ r2)).drop 8 = r2 := by
    rw [List.drop_append_eq_append_drop, List.drop_of_length_le (by omega), hd2]
    simp [putU32]
  simp only [Chunk.minimalLens, htake, hdrop] at hm
  rw [htake]
  have hpack : ∀ (dat : ChunkData) (payload : List Nat),
      dat.Pack (cString raw) len = some payload →
      Chunk.Pack ⟨cString raw, len, dat⟩
        = some (putTag (cString raw) ++ putU32 len ++ payload) := by
    intro dat payload hp
    simp only [Chunk.Pack, hp, Option.bind_eq_bind, Option.some_bind]
  by_cases ht1 : cString raw = tagFLhd
  · rw [if_pos ht1] at h3
    simp only [ChunkFLhd.Unpack, Option.bind_eq_bind, Option.bind_eq_some] at h3
    obtain ⟨⟨hd, r3⟩, ⟨⟨a, ra⟩, ha, ⟨b, rb⟩, hb, ⟨d, rd⟩, hd', h4⟩, h5⟩ := h3
    simp only at hb hd' h4
    simp only [Option.some.injEq, Prod.mk.injEq] at h4 h5
    obtain ⟨h4a, h4b⟩ := h4
    obtain ⟨h5a, h5b⟩ := h5
    subst h4a h4b h5a h5b
    obtain ⟨ea, -, ia⟩ := readU16_some hl3 ha
    obtain ⟨eb, -, ib⟩ := readU16_some ia hb
    obtain ⟨ed, -, -⟩ := readU16_some ib hd'
    have hp : ChunkData.Pack (cString raw) len ⟨some ⟨a, b, d⟩, none, none⟩
        = some (putU16 a ++ putU16 b ++ putU16 d) := by
      simp only [ChunkData.Pack, if_pos ht1, ChunkFLhd.Pack]
    refine ⟨_, hp, hpack _ _ hp, ?_, hd2, rfl⟩
    rw [ea, eb, ed]
    simp only [List.append_assoc]
  · rw [if_neg ht1] at h3
    by_cases ht2 : cString raw = tagFLdt
    · have hraw : raw = tagFLdt := cString_eq_four hd2 rfl ht2
      rw [if_pos ht2] at h3
      rw [if_pos hraw] at hm
      simp only [ChunkFLdt.Unpack, Option.bind_eq_bind, Option.bind_eq_some,
        Option.map_eq_some'] at h3
      obtain ⟨⟨d, r3⟩, ⟨es, hes, h4⟩, h5⟩ := h3
      simp only [Option.some.injEq, Prod.mk.injEq] at h4 h5
      obtain ⟨h4a, h4b⟩ := h4
      obtain ⟨h5a, h5b⟩ := h5
      subst h4a h4b h5a h5b
      have hpk := Event_packAll_unpackAll _ _ _ hl3 hm hes
      have hp : ChunkData.Pack (cString raw) len ⟨none, some ⟨es⟩, none⟩ = some r2 := by
        simp only [ChunkData.Pack, if_neg ht1, if_pos ht2, hpk]
      exact ⟨_, hp, hpack _ _ hp, by simp only [List.append_assoc, List.append_nil], hd2, rfl⟩
    · rw [if_neg ht2] at h3
      simp only [ChunkUnk.Unpack, Option.bind_eq_bind, Option.bind_eq_some] at h3
      obtain ⟨⟨u, r3⟩, ⟨⟨d, r4⟩, hd, h4⟩, h5⟩ := h3
      simp only [Option.some.injEq, Prod.mk.injEq] at h4 h5
      obtain ⟨h4a, h4b⟩ := h4
      obtain ⟨h5a, h5b⟩ := h5
      subst h4a h4b h5a h5b
      obtain ⟨hu1, hu2⟩ := readBytes_some hd
      have hp : ChunkData.Pack (cString raw) len ⟨none, none, some ⟨d⟩⟩ = some d := by
        simp only [ChunkData.Pack, if_neg ht1, if_neg ht2, hu2, if_true]
      refine ⟨_, hp, hpack _ _ hp, ?_, hd2, rfl⟩
      rw [hu1]
      simp only [List.append_assoc]

/-- Packing a chunk decoded from bytes gives the bytes it was decoded from, when
its tag is written back as it was read and the length prefixes of its events
are in minimal form. -/
theorem Chunk_pack_unpack {buf rest : List Nat} {c : Chunk} (hB : IsBytes buf)
    (ht : Chunk.plainTag buf = true) (hm : Chunk.minimalLens buf = true)
    (h : Chunk.Unpack buf = some (c, rest)) :
    ∃ bs, c.Pack = some bs ∧ buf = bs ++ rest := by
  obtain ⟨payload, -, hpk, hbuf, -, hty⟩ := Chunk_pack_unpack_body hB hm h
  simp only [Chunk.plainTag, decide_eq_true_eq] at ht
  refine ⟨_, hpk, ?_⟩
  rw [hty, ht]
  simp only [List.append_assoc] at hbuf ⊢
  exact hbuf

/-- Packing the chunks the chunk loop decoded gives the buffer back. -/
theorem Chunk_packAll_unpackAll (fuel : Nat) : ∀ (buf : List Nat) (cs : List Chunk),
    IsBytes buf → Chunk.plainTags fuel buf = true → Chunk.allMinimal fuel buf = true →
    Chunk.unpackAll fuel buf = some cs → Chunk.packAll cs = some buf := by
  induction fuel with
  | zero =>
    intro buf cs hB _ _ h
    simp only [Chunk.unpackAll] at h
    split at h
    · rename_i he
      injection h with h
      subst h
      simp only [List.isEmpty_iff] at he
      subst he
      rfl
    · exact absurd h (by simp)
  | succ f ih =>
    intro buf cs hB ht hm h
    simp only [Chunk.unpackAll] at h
    simp only [Chunk.allMinimal] at hm
    simp only [Chunk.plainTags] at ht
    split at h
    · rename_i he
      injection h with h
      subst h
      simp only [List.isEmpty_iff] at he
      subst he
      rfl
    · rename_i he
      rw [if_neg he] at hm ht
      simp only [Option.bind_eq_bind, Option.bind_eq_some] at h
      obtain ⟨⟨c, rest⟩, h1, cs1, h2, h3⟩ := h
      injection h3 with h3
      subst h3
      rw [h1] at hm ht
      simp only [Bool.and_eq_true] at hm ht
      obtain ⟨-, hr, -, -⟩ := Chunk_Unpack_some hB h1
      obtain ⟨bs, hp, hb⟩ := Chunk_pack_unpack hB ht.1 hm.1 h1
      have := ih rest cs1 hr ht.2 hm.2 h2
      simp only [Chunk.packAll, hp, this, Option.bind_eq_bind, Option.some_bind, hb]

/-- C2: for every valid container buffer (a byte buffer that decodes as a
project, whose chunk tags are 4 byte codes in which no other byte follows a NUL
byte, and whose VLQ length prefixes are in minimal form), unpacking it into a
`Project` and packing that project again, without any mutation, yields the
input buffer byte for byte, and unpacking the result gives the same project. -/
theorem unpack_pack_identity (buf : List Nat) (p : Project) (hB : IsBytes buf)
    (ht : Project.plainTags buf = true) (hm : Project.minimalVLQs buf = true)
    (hp : Project.Unpack buf = some p) :
    p.Pack = some buf ∧ ∀ out, p.Pack = some out → Project.Unpack out = some p := by
  simp only [Project.Unpack, Option.map_eq_some'] at hp
  obtain ⟨cs, h1, h2⟩ := hp
  subst h2
  have hpk : Project.Pack ⟨cs⟩ = some buf := Chunk_packAll_unpackAll _ _ _ hB ht hm h1
  refine ⟨hpk, fun out hout => ?_⟩
  rw [hpk] at hout
  injection hout with hout
  subst hout
  simp only [Project.Unpack, h1, Option.map_some']

set_option maxRecDepth 100000 in
theorem unpack_pack_identity_witness :
    IsBytes exampleInput4 ∧ Project.plainTags exampleInput4 = true
      ∧ Project.minimalVLQs exampleInput4 = true
      ∧ Project.Unpack exampleInput4 = some exampleProject4
      ∧ exampleProject4.Pack = some exampleInput4
      ∧ ∀ out, exampleProject4.Pack = some out → Project.Unpack out = some exampleProject4 :=
  ⟨by decide, by decide, by decide, by decide,
    unpack_pack_identity exampleInput4 exampleProject4 (by decide) (by decide) (by decide)
      (by decide)⟩

set_option maxRecDepth 100000 in
/-- The form asked of the chunk tags in C2 is needed: the file `nulTagInput`
decodes, the tag of its chunk holds a NUL byte in front of the bytes `C` and
`D`, the decoded tag is the string `A`, and packing the decoded project writes
the tag as `A` and three NUL bytes. -/
theorem unpack_pack_pads_tag :
    IsBytes nulTagInput
      ∧ Project.plainTags nulTagInput = false
      ∧ Project.minimalVLQs nulTagInput = true
      ∧ Project.Unpack nulTagInput = some ⟨[⟨[65], 2, ⟨none, none, some ⟨[9, 8]⟩⟩⟩]⟩
      ∧ (Project.Unpack nulTagInput).bind Project.Pack
          = some [65, 0, 0, 0, 2, 0, 0, 0, 9, 8] := by
  decide

/-- The minimal form asked of the length prefixes in C2 is needed: this buffer
decodes, its one event has the length prefix `0x80 0x00` for the value 0, and
packing the decoded project writes the prefix `0x00`, one byte less. -/
theorem unpack_pack_shortens_redundant_vlq :
    IsBytes [70, 76, 100, 116, 3, 0, 0, 0, 0xC0, 0x80, 0x00]
      ∧ Project.minimalVLQs [70, 76, 100, 116, 3, 0, 0, 0, 0xC0, 0x80, 0x00] = false
      ∧ (Project.Unpack [70, 76, 100, 116, 3, 0, 0, 0, 0xC0, 0x80, 0x00]).bind Project.Pack
          = some [70, 76, 100, 116, 3, 0, 0, 0, 0xC0, 0x00] := by
  decide

/-! ## The sizer and the packer agree: claim C20 -/

/-- C20: for every uint64 value `v`, `VLQ.SizeOf` returns a number between 1 and
10; `VLQ.Pack` given a buffer of exactly that many bytes indexes inside the
buffer only (it does not panic), writes all of them and returns the empty slice;
and in any buffer with room the number of bytes `VLQ.Pack` writes, the length of
the buffer less the length of the slice it returns, is `VLQ.SizeOf`. -/
theorem VLQ_SizeOf_is_Pack_size (v : Nat) (hv : v < 2 ^ 64) :
    1 ≤ VLQ.SizeOf ⟨v⟩ ∧ VLQ.SizeOf ⟨v⟩ ≤ 10
      ∧ (∀ buf : List Nat, buf.length = VLQ.SizeOf ⟨v⟩ →
          ∃ out, VLQ.Pack ⟨v⟩ buf = some (out, []) ∧ out.length = VLQ.SizeOf ⟨v⟩)
      ∧ (∀ buf : List Nat, VLQ.SizeOf ⟨v⟩ ≤ buf.length →
          ∃ out rem, VLQ.Pack ⟨v⟩ buf = some (out, rem) ∧ out.length = buf.length
            ∧ out.length - rem.length = VLQ.SizeOf ⟨v⟩) := by
  have hsz := VLQ_SizeOf_eq v
  obtain ⟨h1, -, h3⟩ := VLQ_bytes_length v
  have h10 : (VLQ.bytes v).length ≤ 10 :=
    h3 10 (by omega) (lt_trans hv (by norm_num))
  refine ⟨by omega, by omega, ?_, ?_⟩
  · intro buf hb
    have hp := VLQ_Pack_eq v buf (by omega)
    have hd : buf.drop (VLQ.bytes v).length = [] := List.drop_of_length_le (by omega)
    rw [hd] at hp
    exact ⟨_, hp, by simp only [List.append_nil]; omega⟩
  · intro buf hb
    have hp := VLQ_Pack_eq v buf (by omega)
    refine ⟨_, _, hp, ?_, ?_⟩
    · simp only [List.length_append, List.length_drop]; omega
    · simp only [List.length_append, List.length_drop]; omega

theorem VLQ_SizeOf_is_Pack_size_witness :
    2 ^ 64 - 1 < 2 ^ 64 ∧ VLQ.SizeOf ⟨2 ^ 64 - 1⟩ = 10 ∧ VLQ.SizeOf ⟨0⟩ = 1
      ∧ VLQ.Pack ⟨300⟩ [0, 0] = some ([172, 2], [])
      ∧ VLQ.Pack ⟨300⟩ [0] = none
      ∧ (1 ≤ VLQ.SizeOf ⟨2 ^ 64 - 1⟩ ∧ VLQ.SizeOf ⟨2 ^ 64 - 1⟩ ≤ 10
        ∧ (∀ buf : List Nat, buf.length = VLQ.SizeOf ⟨2 ^ 64 - 1⟩ →
            ∃ out, VLQ.Pack ⟨2 ^ 64 - 1⟩ buf = some (out, [])
              ∧ out.length = VLQ.SizeOf ⟨2 ^ 64 - 1⟩)
        ∧ (∀ buf : List Nat, VLQ.SizeOf ⟨2 ^ 64 - 1⟩ ≤ buf.length →
            ∃ out rem, VLQ.Pack ⟨2 ^ 64 - 1⟩ buf = some (out, rem)
              ∧ out.length = buf.length
              ∧ out.length - rem.length = VLQ.SizeOf ⟨2 ^ 64 - 1⟩)) :=
  ⟨by decide, by decide, by decide, by decide, by decide,
    VLQ_SizeOf_is_Pack_size (2 ^ 64 - 1) (by decide)⟩

/-! ## When `VLQ.Unpack` fails: claim C18 -/

theorem VLQ_unpackLoop_none : ∀ (buf : List Nat) (acc shift : Nat),
    VLQ.unpackLoop buf acc shift = none ↔ ∀ b ∈ buf, b &&& 0x80 ≠ 0
  | [], _, _ => by simp [VLQ.unpackLoop]
  | b :: bs, acc, shift => by
    rw [VLQ_unpackLoop_cons]
    by_cases hb : b &&& 0x80 = 0
    · rw [if_pos hb]
      constructor
      · intro h; exact absurd h (by simp)
      · intro h; exact absurd hb (h b (List.mem_cons_self _ _))
    · rw [if_neg hb, VLQ_unpackLoop_none bs]
      constructor
      · intro h x hx
        simp only [List.mem_cons] at hx
        rcases hx with rfl | hx
        · exact hb
        · exact h x hx
      · intro h x hx
        exact h x (List.mem_cons_of_mem _ hx)

/-- C18: `VLQ.Unpack` fails, returning no value (it runs off the end of the
buffer, the truncated input case), exactly for the buffers in which no byte has
bit `0x80` clear, the empty buffer among them; and it succeeds for every buffer
that holds a byte with bit `0x80` clear. -/
theorem VLQ_Unpack_fails_iff (buf : List Nat) :
    (VLQ.Unpack buf = none ↔ ∀ b ∈ buf, b &&& 0x80 ≠ 0)
      ∧ ((∃ b ∈ buf, b &&& 0x80 = 0) → ∃ v rest, VLQ.Unpack buf = some (v, rest))
      ∧ VLQ.Unpack [] = none := by
  have h1 : VLQ.Unpack buf = none ↔ ∀ b ∈ buf, b &&& 0x80 ≠ 0 := by
    simp only [VLQ.Unpack, Option.map_eq_none']
    exact VLQ_unpackLoop_none buf 0 0
  refine ⟨h1, ?_, rfl⟩
  rintro ⟨b, hb, hb0⟩
  cases hu : VLQ.Unpack buf with
  | none => exact absurd hb0 (h1.mp hu b hb)
  | some r => exact ⟨r.1, r.2, rfl⟩

/-! ## The record array codec by offsets: claims C14 and C15 -/

theorem readU16_length {buf rest : List Nat} {v : Nat} (h : readU16 buf = some (v, rest)) :
    buf.length = rest.length + 2 := by
  rcases buf with _ | ⟨b0, _ | ⟨b1, r⟩⟩ <;> simp [readU16] at h
  obtain ⟨-, rfl⟩ := h
  simp

theorem readU32_length {buf rest : List Nat} {v : Nat} (h : readU32 buf = some (v, rest)) :
    buf.length = rest.length + 4 := by
  rcases buf with _ | ⟨b0, _ | ⟨b1, _ | ⟨b2, _ | ⟨b3, r⟩⟩⟩⟩ <;> simp [readU32] at h
  obtain ⟨-, rfl⟩ := h
  simp

theorem readU16_drop (buf : List Nat) (off : Nat) (h : off + 2 ≤ buf.length) :
    readU16 (buf.drop off) = some (le16 buf off, buf.drop (off + 2)) := by
  have hl : (buf.drop off).length = buf.length - off := List.length_drop _ _
  have e0 : (buf.drop off)[0]? = buf[off]? := by rw [List.getElem?_drop]; rfl
  have e1 : (buf.drop off)[1]? = buf[off + 1]? := by rw [List.getElem?_drop]
  have ed : (buf.drop off).drop 2 = buf.drop (off + 2) := by rw [List.drop_drop]
  rcases hd : buf.drop off with _ | ⟨b0, _ | ⟨b1, r⟩⟩
  · rw [hd] at hl; simp at hl; omega
  · rw [hd] at hl; simp at hl; omega
  · rw [hd] at e0 e1 ed
    simp only [List.getElem?_cons_zero, List.getElem?_cons_succ, List.drop_succ_cons,
      List.drop_zero] at e0 e1 ed
    simp only [readU16, le16, List.getD_eq_getElem?_getD, ← e0, ← e1, Option.getD_some, ed]

theorem readU32_drop (buf : List Nat) (off : Nat) (h : off + 4 ≤ buf.length) :
    readU32 (buf.drop off) = some (le32 buf off, buf.drop (off + 4)) := by
  have hl : (buf.drop off).length = buf.length - off := List.length_drop _ _
  have e0 : (buf.drop off)[0]? = buf[off]? := by rw [List.getElem?_drop]; rfl
  have e1 : (buf.drop off)[1]? = buf[off + 1]? := by rw [List.getElem?_drop]
  have e2 : (buf.drop off)[2]? = buf[off + 2]? := by rw [List.getElem?_drop]
  have e3 : (buf.drop off)[3]? = buf[off + 3]? := by rw [List.getElem?_drop]
  have ed : (buf.drop off).drop 4 = buf.drop (off + 4) := by rw [List.drop_drop]
  rcases hd : buf.drop off with _ | ⟨b0, _ | ⟨b1, _ | ⟨b2, _ | ⟨b3, r⟩⟩⟩⟩
  · rw [hd] at hl; simp at hl; omega
  · rw [hd] at hl; simp at hl; omega
  · rw [hd] at hl; simp at hl; omega
  · rw [hd] at hl; simp at hl; omega
  · rw [hd] at e0 e1 e2 e3 ed
    simp only [List.getElem?_cons_zero, List.getElem?_cons_succ, List.drop_succ_cons,
      List.drop_zero] at e0 e1 e2 e3 ed
    simp only [readU32, le32, List.getD_eq_getElem?_getD, ← e0, ← e1, ← e2, ← e3,
      Option.getD_some, ed]

/-- A buffer of 32 bytes or more decodes to the record at its offset `off`. -/
theorem PlaylistItem_Unpack_drop (buf : List Nat) (off : Nat) (h : off + 32 ≤ buf.length) :
    PlaylistItem.Unpack (buf.drop off)
      = some (PlaylistItem.atOffset buf off, buf.drop (off + 32)) := by
  simp only [PlaylistItem.Unpack, Option.bind_eq_bind]
  rw [readU32_drop buf off (by omega)]; simp only [Option.some_bind]
  rw [readU16_drop buf (off + 4) (by omega)]; simp only [Option.some_bind]
  rw [readU16_drop buf (off + 4 + 2) (by omega)]; simp only [Option.some_bind]
  rw [readU32_drop buf (off + 4 + 2 + 2) (by omega)]; simp only [Option.some_bind]
  rw [readU32_drop buf (off + 4 + 2 + 2 + 4) (by omega)]; simp only [Option.some_bind]
  rw [readU16_drop buf (off + 4 + 2 + 2 + 4 + 4) (by omega)]; simp only [Option.some_bind]
  rw [readU16_drop buf (off + 4 + 2 + 2 + 4 + 4 + 2) (by omega)]; simp only [Option.some_bind]
  rw [readU32_drop buf (off + 4 + 2 + 2 + 4 + 4 + 2 + 2) (by omega)]
  simp only [Option.some_bind]
  rw [readU32_drop buf (off + 4 + 2 + 2 + 4 + 4 + 2 + 2 + 4) (by omega)]
  simp only [Option.some_bind]
  rw [readU32_drop buf (off + 4 + 2 + 2 + 4 + 4 + 2 + 2 + 4 + 4) (by omega)]
  simp only [Option.some_bind]
  rfl

/-- A record that decodes took 32 bytes. -/
theorem PlaylistItem_Unpack_length {buf rest : List Nat} {it : PlaylistItem}
    (h : PlaylistItem.Unpack buf = some (it, rest)) : buf.length = rest.length + 32 := by
  simp only [PlaylistItem.Unpack, Option.bind_eq_bind, Option.bind_eq_some] at h
  obtain ⟨⟨a0, r0⟩, h0, ⟨a1, r1⟩, h1, ⟨a2, r2⟩, h2, ⟨a3, r3⟩, h3, ⟨a4, r4⟩, h4,
    ⟨a5, r5⟩, h5, ⟨a6, r6⟩, h6, ⟨a7, r7⟩, h7, ⟨a8, r8⟩, h8, ⟨a9, r9⟩, h9, h10⟩ := h
  simp only at h1 h2 h3 h4 h5 h6 h7 h8 h9 h10
  simp only [Option.some.injEq, Prod.mk.injEq] at h10
  obtain ⟨-, h11⟩ := h10
  subst h11
  have := readU32_length h0
  have := readU16_length h1
  have := readU16_length h2
  have := readU32_length h3
  have := readU32_length h4
  have := readU16_length h5
  have := readU16_length h6
  have := readU32_length h7
  have := readU32_length h8
  have := readU32_length h9
  omega

theorem PlaylistItem_Unpack_short (buf : List Nat) (h : buf.length < 32) :
    PlaylistItem.Unpack buf = none := by
  cases hu : PlaylistItem.Unpack buf with
  | none => rfl
  | some r =>
    obtain ⟨it, rest⟩ := r
    have := PlaylistItem_Unpack_length hu
    omega

theorem PlaylistItem_atOffset_drop (buf : List Nat) (n off : Nat) :
    PlaylistItem.atOffset (buf.drop n) off = PlaylistItem.atOffset buf (n + off) := by
  simp only [PlaylistItem.atOffset, le16, le32, List.getD_eq_getElem?_getD, List.getElem?_drop,
    Nat.add_assoc]

/-- The decoding loop on a buffer of `32 * n` bytes gives the `n` records at the
offsets `0, 32, ...`, when the fuel covers the records. -/
theorem PlaylistItem_unpackAll_offsets : ∀ (n fuel : Nat) (buf : List Nat),
    buf.length = 32 * n → n ≤ fuel →
    PlaylistItem.unpackAll fuel buf
      = some ((List.range n).map fun k => PlaylistItem.atOffset buf (32 * k))
  | 0, fuel, buf, hl, _ => by
    have hb : buf = [] := List.length_eq_zero.mp (by omega)
    subst hb
    cases fuel <;> simp [PlaylistItem.unpackAll]
  | n + 1, 0, _, _, hf => by omega
  | n + 1, fuel + 1, buf, hl, hf => by
    have hne : buf.isEmpty = false := by
      rw [List.isEmpty_eq_false, ← List.length_pos]; omega
    have hu := PlaylistItem_Unpack_drop buf 0 (by omega)
    rw [List.drop_zero, Nat.zero_add] at hu
    have ih := PlaylistItem_unpackAll_offsets n fuel (buf.drop 32)
      (by rw [List.length_drop]; omega) (by omega)
    simp only [PlaylistItem.unpackAll, hne, Bool.false_eq_true, if_false, hu,
      Option.bind_eq_bind, Option.some_bind, ih]
    rw [List.range_succ_eq_map, List.map_cons, List.map_map]
    congr 2
    apply List.map_congr_left
    intro k _
    simp only [Function.comp, PlaylistItem_atOffset_drop]
    congr 1
    omega

/-- The decoding loop fails on a buffer whose length is not a multiple of 32. -/
theorem PlaylistItem_unpackAll_ragged : ∀ (fuel : Nat) (buf : List Nat),
    buf.length % 32 ≠ 0 → PlaylistItem.unpackAll fuel buf = none
  | 0, buf, hl => by
    have hne : buf.isEmpty = false := by
      rw [List.isEmpty_eq_false, ← List.length_pos]
      rcases Nat.eq_zero_or_pos buf.length with h | h
      · rw [h] at hl; exact absurd rfl hl
      · exact h
    simp [PlaylistItem.unpackAll, hne]
  | fuel + 1, buf, hl => by
    have hne : buf.isEmpty = false := by
      rw [List.isEmpty_eq_false, ← List.length_pos]
      rcases Nat.eq_zero_or_pos buf.length with h | h
      · rw [h] at hl; exact absurd rfl hl
      · exact h
    simp only [PlaylistItem.unpackAll, hne, Bool.false_eq_true, if_false, Option.bind_eq_bind]
    by_cases h32 : buf.length < 32
    · rw [PlaylistItem_Unpack_short buf h32]; rfl
    · have hu := PlaylistItem_Unpack_drop buf 0 (by omega)
      rw [List.drop_zero, Nat.zero_add] at hu
      rw [hu, Option.some_bind,
        PlaylistItem_unpackAll_ragged fuel (buf.drop 32) (by rw [List.length_drop]; omega)]
      rfl

/-- C14: decoding a buffer as a `PlaylistItemsEvent` fails exactly when its
length is not a multiple of 32; when it is, the result holds exactly
`length / 32` records and record `k` is the one read from the bytes
`32 * k .. 32 * k + 31`, its fields little endian at the offsets of the declared
layout (`PlaylistItem.atOffset`); the empty buffer gives no record. -/
theorem PlaylistItemsEvent_Unpack_by_offsets (buf : List Nat) :
    (PlaylistItemsEvent.Unpack buf = none ↔ buf.length % 32 ≠ 0)
      ∧ (buf.length % 32 = 0 →
          ∃ items, PlaylistItemsEvent.Unpack buf = some ⟨items⟩
            ∧ items.length = buf.length / 32
            ∧ (∀ k, k < buf.length / 32 →
                items[k]? = some (PlaylistItem.atOffset buf (32 * k))
                ∧ PlaylistItem.Unpack ((buf.drop (32 * k)).take 32)
                    = some (PlaylistItem.atOffset buf (32 * k), [])))
      ∧ PlaylistItemsEvent.Unpack [] = some ⟨[]⟩ := by
  have hmul : buf.length % 32 = 0 → PlaylistItemsEvent.Unpack buf
      = some ⟨(List.range (buf.length / 32)).map fun k =>
          PlaylistItem.atOffset buf (32 * k)⟩ := by
    intro h
    simp only [PlaylistItemsEvent.Unpack]
    rw [PlaylistItem_unpackAll_offsets (buf.length / 32) buf.length buf (by omega)
      (Nat.div_le_self _ _)]
    rfl
  refine ⟨?_, ?_, rfl⟩
  · constructor
    · intro hn h0
      rw [hmul h0] at hn
      exact absurd hn (by simp)
    · intro h
      simp only [PlaylistItemsEvent.Unpack, PlaylistItem_unpackAll_ragged _ buf h]
      rfl
  · intro h
    refine ⟨_, hmul h, by simp, ?_⟩
    intro k hk
    refine ⟨by simp [hk], ?_⟩
    have hlen : ((buf.drop (32 * k)).take 32).length = 32 := by
      rw [List.length_take, List.length_drop]; omega
    have hu := PlaylistItem_Unpack_drop ((buf.drop (32 * k)).take 32) 0 (by omega)
    rw [List.drop_zero, Nat.zero_add] at hu
    rw [hu]
    have hd : ((buf.drop (32 * k)).take 32).drop 32 = [] :=
      List.drop_of_length_le (by omega)
    rw [hd]
    congr 2
    simp only [PlaylistItem.atOffset, le16, le32, List.getD_eq_getElem?_getD,
      List.getElem?_take, List.getElem?_drop, Nat.zero_add]
    simp

/-- The 32 byte block `k` of the encoding of a record array is the encoding of
record `k`. -/
theorem PlaylistItemsEvent_Pack_block : ∀ (items : List PlaylistItem) (k : Nat)
    (it : PlaylistItem), items[k]? = some it →
    ((PlaylistItemsEvent.Pack ⟨items⟩).drop (32 * k)).take 32 = it.Pack
  | [], k, it, h => by simp at h
  | x :: xs, 0, it, h => by
    simp only [List.getElem?_cons_zero, Option.some.injEq] at h
    subst h
    rw [PlaylistItemsEvent_Pack_cons, Nat.mul_zero, List.drop_zero,
      List.take_left' (PlaylistItem_Pack_length x)]
  | x :: xs, k + 1, it, h => by
    simp only [List.getElem?_cons_succ] at h
    rw [PlaylistItemsEvent_Pack_cons]
    have e : 32 * (k + 1) = x.Pack.length + 32 * k := by rw [PlaylistItem_Pack_length]; omega
    rw [e, List.drop_append]
    exact PlaylistItemsEvent_Pack_block xs k it h

/-- C15: encoding a `PlaylistItemsEvent` of `n` records (with fields that fit
their Go types) gives exactly `32 * n` bytes, the 32 byte encodings of the
records one after the other in order with nothing between them; the encoding of
a record is its ten fields little endian in declaration order; and decoding the
encoding gives the same `n` records in the same order. -/
theorem PlaylistItemsEvent_Pack_by_blocks (items : List PlaylistItem)
    (hr : ∀ it ∈ items, it.InRange) :
    (PlaylistItemsEvent.Pack ⟨items⟩).length = 32 * items.length
      ∧ (∀ k it, items[k]? = some it →
          ((PlaylistItemsEvent.Pack ⟨items⟩).drop (32 * k)).take 32 = it.Pack
          ∧ it.Pack = putU32 it.StartTime ++ putU16 it.PatternBase ++ putU16 it.PatternID
              ++ putU32 it.Length ++ putU32 it.Track ++ putU16 it.Unknown1
              ++ putU16 it.Unknown2 ++ putU32 it.Unknown3 ++ putU32 it.Unknown4
              ++ putU32 it.Unknown5
          ∧ it.Pack.length = 32
          ∧ PlaylistItem.atOffset (PlaylistItemsEvent.Pack ⟨items⟩) (32 * k) = it)
      ∧ PlaylistItemsEvent.Unpack (PlaylistItemsEvent.Pack ⟨items⟩) = some ⟨items⟩ := by
  have hlen := PlaylistItemsEvent_Pack_length items
  have hrt := PlaylistItemsEvent_Unpack_Pack items hr
  refine ⟨hlen, ?_, hrt⟩
  intro k it hk
  refine ⟨PlaylistItemsEvent_Pack_block items k it hk, rfl, PlaylistItem_Pack_length it, ?_⟩
  have hk2 : k < items.length := by
    rcases Nat.lt_or_ge k items.length with h | h
    · exact h
    · rw [List.getElem?_eq_none h] at hk; exact absurd hk (by simp)
  obtain ⟨its, h1, -, h3⟩ :=
    (PlaylistItemsEvent_Unpack_by_offsets (PlaylistItemsEvent.Pack ⟨items⟩)).2.1
      (by rw [hlen]; omega)
  rw [hrt] at h1
  simp only [Option.some.injEq, PlaylistItemsEvent.mk.injEq] at h1
  subst h1
  have h4 := (h3 k (by rw [hlen]; omega)).1
  rw [hk] at h4
  simp only [Option.some.injEq] at h4
  exact h4.symm

theorem PlaylistItemsEvent_Pack_by_blocks_witness :
    PlaylistItemsEvent.Pack ⟨[exampleItem 10, exampleItem 20]⟩
        = (exampleItem 10).Pack ++ (exampleItem 20).Pack
      ∧ ((PlaylistItemsEvent.Pack ⟨[exampleItem 10, exampleItem 20]⟩).length
            = 32 * [exampleItem 10, exampleItem 20].length
        ∧ (∀ k it, [exampleItem 10, exampleItem 20][k]? = some it →
            ((PlaylistItemsEvent.Pack ⟨[exampleItem 10, exampleItem 20]⟩).drop (32 * k)).take 32
                = it.Pack
            ∧ it.Pack = putU32 it.StartTime ++ putU16 it.PatternBase ++ putU16 it.PatternID
                ++ putU32 it.Length ++ putU32 it.Track ++ putU16 it.Unknown1
                ++ putU16 it.Unknown2 ++ putU32 it.Unknown3 ++ putU32 it.Unknown4
                ++ putU32 it.Unknown5
            ∧ it.Pack.length = 32
            ∧ PlaylistItem.atOffset
                (PlaylistItemsEvent.Pack ⟨[exampleItem 10, exampleItem 20]⟩) (32 * k) = it)
        ∧ PlaylistItemsEvent.Unpack
              (PlaylistItemsEvent.Pack ⟨[exampleItem 10, exampleItem 20]⟩)
            = some ⟨[exampleItem 10, exampleItem 20]⟩) :=
  ⟨by decide, PlaylistItemsEvent_Pack_by_blocks [exampleItem 10, exampleItem 20] (by
    intro it hit
    simp only [List.mem_cons, List.mem_singleton, List.not_mem_nil, or_false] at hit
    rcases hit with rfl | rfl <;>
      simp only [PlaylistItem.InRange, exampleItem] <;> decide)⟩

theorem PlaylistItemsEvent_Unpack_by_offsets_witness :
    PlaylistItemsEvent.Unpack (exampleRecord 10 ++ exampleRecord 20)
        = some ⟨[exampleItem 10, exampleItem 20]⟩
      ∧ PlaylistItemsEvent.Unpack (exampleRecord 10 ++ [1, 0, 0]) = none
      ∧ (PlaylistItemsEvent.Unpack (exampleRecord 10 ++ [1, 0, 0]) = none
          ↔ (exampleRecord 10 ++ [1, 0, 0]).length % 32 ≠ 0) :=
  ⟨by decide, by decide,
    (PlaylistItemsEvent_Unpack_by_offsets (exampleRecord 10 ++ [1, 0, 0])).1⟩

/-! ## The filter keeps the shape of the project: claim C16 -/

theorem filterChunk_Typ {track : Nat} {c c' : Chunk} (h : filterChunk track c = some c') :
    c'.Typ = c.Typ ∧ c'.Data.FLhd = c.Data.FLhd ∧ c'.Data.Unknown = c.Data.Unknown := by
  cases hd : c.Data.FLdt with
  | none =>
    rw [filterChunk_other track c hd] at h
    injection h with h
    subst h
    exact ⟨rfl, rfl, rfl⟩
  | some d =>
    rw [filterChunk_FLdt track c d hd] at h
    simp only [Option.map_eq_some'] at h
    obtain ⟨es', -, hc'⟩ := h
    subst hc'
    exact ⟨rfl, rfl, rfl⟩

theorem filterEvents_Typ (track : Nat) : ∀ (es es' : List Event),
    filterEvents track es = some es' → es'.map Event.Typ = es.map Event.Typ
  | [], es', h => by
    simp only [filterEvents, Option.some.injEq] at h
    subst h
    rfl
  | e :: es, es', h => by
    simp only [filterEvents, Option.bind_eq_bind, Option.bind_eq_some] at h
    obtain ⟨e1, h1, es1, h2, h3⟩ := h
    simp only [Option.some.injEq] at h3
    subst h3
    simp only [List.map_cons, filterEvent_Typ h1, filterEvents_Typ track es es1 h2]

theorem filterChunks_Typ (track : Nat) : ∀ (cs cs' : List Chunk),
    filterChunks track cs = some cs' → cs'.map Chunk.Typ = cs.map Chunk.Typ
  | [], cs', h => by
    simp only [filterChunks, Option.some.injEq] at h
    subst h
    rfl
  | c :: cs, cs', h => by
    simp only [filterChunks, Option.bind_eq_bind, Option.bind_eq_some] at h
    obtain ⟨c1, h1, cs1, h2, h3⟩ := h
    simp only [Option.some.injEq] at h3
    subst h3
    simp only [List.map_cons, (filterChunk_Typ h1).1, filterChunks_Typ track cs cs1 h2]

/-- C16: the project `filterwrite(p, track)` packs has the chunks of `p`, as
many and with the same tags in the same order (and the same FLhd and opaque
payloads; a chunk without FLdt payload is the same chunk); each FLdt chunk has
as many events as before with the same `Type` bytes in the same order; an event
whose `Type` is not 233 is the same event; a type 233 event keeps its fixed
width fields and holds the encoding of the retained records with its length as
prefix, so one with no retained record is kept with the empty payload and the
length prefix 0. -/
theorem filterwrite_keeps_structure (p q : Project) (track : Nat)
    (h : filterProject p track = some q) :
    filterwrite p track = q.Pack
      ∧ q.Chunks.length = p.Chunks.length
      ∧ q.Chunks.map Chunk.Typ = p.Chunks.map Chunk.Typ
      ∧ ∀ (i : Nat) (c c' : Chunk), p.Chunks[i]? = some c → q.Chunks[i]? = some c' →
          c'.Typ = c.Typ ∧ c'.Data.FLhd = c.Data.FLhd ∧ c'.Data.Unknown = c.Data.Unknown
          ∧ (c.Data.FLdt = none → c' = c)
          ∧ ∀ d, c.Data.FLdt = some d →
              ∃ d', c'.Data.FLdt = some d' ∧ d'.Event.length = d.Event.length
                ∧ d'.Event.map Event.Typ = d.Event.map Event.Typ
                ∧ ∀ (j : Nat) (e e' : Event), d.Event[j]? = some e → d'.Event[j]? = some e' →
                    e'.Typ = e.Typ
                    ∧ (e.Typ ≠ 233 → e' = e)
                    ∧ (e.Typ = 233 →
                        e'.Int8 = e.Int8 ∧ e'.Int16 = e.Int16 ∧ e'.Int32 = e.Int32
                        ∧ ∃ ev, PlaylistItemsEvent.Unpack e.Bytes.Data = some ev
                          ∧ e'.Bytes.Data = PlaylistItemsEvent.Pack
                              ⟨ev.Items.filter fun item => decide (item.Track = track)⟩
                          ∧ e'.Bytes.Len.Value = e'.Bytes.Data.length % 2 ^ 64
                          ∧ ((ev.Items.filter fun item => decide (item.Track = track)) = [] →
                              e'.Bytes.Data = [] ∧ e'.Bytes.Len.Value = 0)) := by
  have hfw : filterwrite p track = q.Pack := by
    simp only [filterwrite, h, Option.bind_eq_bind, Option.some_bind]
  simp only [filterProject, Option.map_eq_some'] at h
  obtain ⟨cs', hcs, hq⟩ := h
  subst hq
  obtain ⟨hlen, hidx⟩ := filterChunks_some track p.Chunks cs' hcs
  refine ⟨hfw, hlen, filterChunks_Typ track _ _ hcs, ?_⟩
  intro i c c' hc hc'
  have hfc := hidx i c c' hc hc'
  obtain ⟨t1, t2, t3⟩ := filterChunk_Typ hfc
  refine ⟨t1, t2, t3, ?_, ?_⟩
  · intro hd
    rw [filterChunk_other track c hd] at hfc
    injection hfc with hfc
    exact hfc.symm
  · intro d hd
    rw [filterChunk_FLdt track c d hd] at hfc
    simp only [Option.map_eq_some'] at hfc
    obtain ⟨es', hes, hc2⟩ := hfc
    subst hc2
    obtain ⟨hel, heidx⟩ := filterEvents_some track d.Event es' hes
    refine ⟨⟨es'⟩, rfl, hel, filterEvents_Typ track _ _ hes, ?_⟩
    intro j e e' he he'
    have hfe := heidx j e e' he he'
    refine ⟨filterEvent_Typ hfe, ?_, ?_⟩
    · intro ht
      rw [filterEvent_other track e ht] at hfe
      injection hfe with hfe
      exact hfe.symm
    · intro ht
      rw [filterEvent_playlist track e ht] at hfe
      simp only [Option.map_eq_some'] at hfe
      obtain ⟨ev, hev, he2⟩ := hfe
      subst he2
      refine ⟨rfl, rfl, rfl, ev, hev, rfl, rfl, ?_⟩
      intro hnil
      simp only [hnil]
      exact ⟨rfl, rfl⟩

set_option maxRecDepth 100000 in
theorem filterwrite_keeps_structure_witness :
    filterProject exampleProject 30
        = some ⟨[⟨tagFLhd, 6, ⟨some ⟨0, 1, 96⟩, none, none⟩⟩,
            ⟨tagFLdt, 9, ⟨none, some ⟨exampleEvents []⟩, none⟩⟩]⟩
      ∧ exampleEvents []
          = [⟨0x40, 0, 513, 0, ⟨⟨0⟩, []⟩⟩, ⟨233, 0, 0, 0, ⟨⟨0⟩, []⟩⟩,
              ⟨0xC0, 0, 0, 0, ⟨⟨2⟩, [65, 66]⟩⟩]
      ∧ filterwrite exampleProject 30
          = some [70, 76, 104, 100, 6, 0, 0, 0, 0, 0, 1, 0, 96, 0,
              70, 76, 100, 116, 9, 0, 0, 0, 0x40, 1, 2, 0xE9, 0, 0xC0, 2, 65, 66]
      ∧ filterwrite exampleProject 30
          = Project.Pack ⟨[⟨tagFLhd, 6, ⟨some ⟨0, 1, 96⟩, none, none⟩⟩,
              ⟨tagFLdt, 9, ⟨none, some ⟨exampleEvents []⟩, none⟩⟩]⟩ :=
  ⟨by decide, by decide, by decide,
    (filterwrite_keeps_structure exampleProject _ 30 (by decide)).1⟩

/-! ## Output file names: claim C19 -/

/-- The loop of `stripext` started inside or at the end of the extension stops at
the `'.'` in front of it. -/
theorem stripextLoop_ext (isSep : Nat → Bool) (hdot : isSep 46 = false) (pre ext : List Nat)
    (hext : ∀ c ∈ ext, c ≠ 46 ∧ isSep c = false) : ∀ k, k ≤ ext.length →
    stripextLoop isSep (pre ++ 46 :: ext) (pre.length + 1 + k) = pre
  | 0, _ => by
    have hg : (pre ++ 46 :: ext)[pre.length]? = some 46 := by
      rw [List.getElem?_append_right (Nat.le_refl _)]
      simp
    simp only [Nat.add_zero, stripextLoop, hg, hdot, Bool.false_eq_true, if_false, if_true]
    exact List.take_left' rfl
  | k + 1, hk => by
    have hk2 : k < ext.length := by omega
    have hg : (pre ++ 46 :: ext)[pre.length + 1 + k]? = some (ext.get ⟨k, hk2⟩) := by
      rw [List.getElem?_append_right (by omega)]
      have e : pre.length + 1 + k - pre.length = k + 1 := by omega
      rw [e, List.getElem?_cons_succ, List.getElem?_eq_getElem hk2]
      rfl
    obtain ⟨h1, h2⟩ := hext (ext.get ⟨k, hk2⟩) (List.get_mem _ _ _)
    have e2 : pre.length + 1 + (k + 1) = (pre.length + 1 + k) + 1 := by omega
    rw [e2]
    simp only [stripextLoop, hg, h2, Bool.false_eq_true, if_false, h1]
    exact stripextLoop_ext isSep hdot pre ext hext k (by omega)

theorem stripext_ext (isSep : Nat → Bool) (hdot : isSep 46 = false) (pre ext : List Nat)
    (hext : ∀ c ∈ ext, c ≠ 46 ∧ isSep c = false) :
    stripext isSep (pre ++ 46 :: ext) = pre := by
  have h := stripextLoop_ext isSep hdot pre ext hext ext.length (Nat.le_refl _)
  simp only [stripext, List.length_append, List.length_cons]
  rw [show pre.length + (ext.length + 1) = pre.length + 1 + ext.length by omega]
  exact h

set_option maxRecDepth 1000000 in
theorem pad3_small : ∀ n, n < 1000 → pad3 n = [48 + n / 100, 48 + n / 10 % 10, 48 + n % 10] := by
  decide

/-- The number `filterwrite` prints for the raw track of a track number that is
not negative is the track number. -/
theorem printed_track (T : Int) (h0 : 0 ≤ T) (h500 : T ≤ 500) :
    (500 + 2 ^ 32 - rawTrack T % 2 ^ 32) % 2 ^ 32 = T.toNat := by
  have h1 : rawTrack T = (500 - T).toNat := by
    unfold rawTrack
    rw [Int.emod_eq_of_lt (by omega) (by omega)]
  rw [h1]
  omega

/-- C19 fails as stated: on the input path `a.mid` and the raw track 10 (track
number 490) the output name is `a-490.flp`, which does not end in the extension
of the input, `a-490.mid`; and on the path `song`, whose final component has no
`'.'`, `stripext` returns the empty string and the output name is `-490.flp`. -/
theorem outputFilename_not_input_extension :
    outputFilename unixSeparator [97, 46, 109, 105, 100] 10
        = [97, 45, 52, 57, 48, 46, 102, 108, 112]
      ∧ outputFilename unixSeparator [97, 46, 109, 105, 100] 10
        ≠ [97, 45, 52, 57, 48, 46, 109, 105, 100]
      ∧ stripext unixSeparator [115, 111, 110, 103] = []
      ∧ stripext unixSeparator [115, 111, 110, 103] ≠ [115, 111, 110, 103]
      ∧ outputFilename unixSeparator [115, 111, 110, 103] 10
        = [45, 52, 57, 48, 46, 102, 108, 112] := by
  refine ⟨by decide, by decide, by decide, by decide, by decide⟩

/-- C19 (amended): the output file name is `stripext` of the input path, then
`'-'`, then the number `500 - track` of 32 bit unsigned arithmetic in decimal,
padded with zeros to 3 digits, then the fixed extension `.flp`; for the raw
track of a track number `T` from 0 to 500 the number is `T`, printed with
exactly three digits; and for every input path whose final component holds a
`'.'`, `stripext` returns the prefix before the last `'.'` found after the last
path separator. The path is `pre ++ "." ++ ext` with neither `'.'` nor path
separator in `ext`. -/
theorem outputFilename_format (isSep : Nat → Bool) (hdot : isSep 46 = false)
    (pre ext : List Nat) (hext : ∀ c ∈ ext, c ≠ 46 ∧ isSep c = false)
    (T : Int) (h0 : 0 ≤ T) (h500 : T ≤ 500) :
    stripext isSep (pre ++ 46 :: ext) = pre
      ∧ (∀ track, outputFilename isSep (pre ++ 46 :: ext) track
          = pre ++ [45] ++ pad3 ((500 + 2 ^ 32 - track % 2 ^ 32) % 2 ^ 32)
              ++ [46, 102, 108, 112])
      ∧ outputFilename isSep (pre ++ 46 :: ext) (rawTrack T)
          = pre ++ [45] ++ [48 + T.toNat / 100, 48 + T.toNat / 10 % 10, 48 + T.toNat % 10]
              ++ [46, 102, 108, 112] := by
  have hs := stripext_ext isSep hdot pre ext hext
  refine ⟨hs, ?_, ?_⟩
  · intro track
    simp only [outputFilename, hs]
  · simp only [outputFilename, hs, printed_track T h0 h500]
    rw [pad3_small T.toNat (by omega)]

theorem outputFilename_format_witness :
    unixSeparator 46 = false
      ∧ (∀ c ∈ [102, 108, 112], c ≠ 46 ∧ unixSeparator c = false)
      ∧ (0 : Int) ≤ 490 ∧ (490 : Int) ≤ 500
      ∧ (stripext unixSeparator ([100, 46, 118, 47, 115] ++ 46 :: [102, 108, 112])
          = [100, 46, 118, 47, 115]
        ∧ (∀ track, outputFilename unixSeparator
              ([100, 46, 118, 47, 115] ++ 46 :: [102, 108, 112]) track
            = [100, 46, 118, 47, 115] ++ [45]
                ++ pad3 ((500 + 2 ^ 32 - track % 2 ^ 32) % 2 ^ 32) ++ [46, 102, 108, 112])
        ∧ outputFilename unixSeparator
              ([100, 46, 118, 47, 115] ++ 46 :: [102, 108, 112]) (rawTrack 490)
            = [100, 46, 118, 47, 115] ++ [45]
                ++ [48 + (490 : Int).toNat / 100, 48 + (490 : Int).toNat / 10 % 10,
                    48 + (490 : Int).toNat % 10]
                ++ [46, 102, 108, 112]) :=
  ⟨by decide, by decide, by decide, by decide,
    outputFilename_format unixSeparator (by decide) [100, 46, 118, 47, 115] [102, 108, 112]
      (by decide) 490 (by decide) (by decide)⟩

/-! ## Which chunk lengths the decoder checks: claim C11 -/

theorem Chunk_packAll_append : ∀ (xs ys : List Chunk) (a b : List Nat),
    Chunk.packAll xs = some a → Chunk.packAll ys = some b →
    Chunk.packAll (xs ++ ys) = some (a ++ b)
  | [], ys, a, b, ha, hb => by
    simp only [Chunk.packAll, Option.some.injEq] at ha
    subst ha
    simpa using hb
  | x :: xs, ys, a, b, ha, hb => by
    simp only [Chunk.packAll, Option.bind_eq_bind, Option.bind_eq_some] at ha
    obtain ⟨bx, hbx, bxs, hbxs, h3⟩ := ha
    injection h3 with h3
    subst h3
    have ih := Chunk_packAll_append xs ys bxs b hbxs hb
    rw [List.cons_append]
    simp only [Chunk.packAll, hbx, ih, Option.bind_eq_bind, Option.some_bind,
      List.append_assoc]

theorem Chunk_WFAll_append_one : ∀ (cs : List Chunk) (c : Chunk), Chunk.WFAll cs →
    (∀ x ∈ cs, x.Typ ≠ tagFLdt) → c.WF → Chunk.WFAll (cs ++ [c])
  | [], c, _, _, hc => ⟨hc, fun _ => rfl, trivial⟩
  | x :: xs, c, hw, hn, hc => by
    obtain ⟨h1, -, h3⟩ := hw
    refine ⟨h1, fun h => absurd h (hn x (List.mem_cons_self _ _)), ?_⟩
    exact Chunk_WFAll_append_one xs c h3 (fun y hy => hn y (List.mem_cons_of_mem _ hy)) hc

/-- An opaque chunk whose `Len` exceeds the bytes behind its header does not
decode: `readBytes` runs off the end. -/
theorem Chunk_Unpack_opaque_short (ty rest : List Nat) (len : Nat) (hty : ty.length = 4)
    (h1 : ty ≠ tagFLhd) (h2 : ty ≠ tagFLdt) (hlen : len < 2 ^ 32) (hs : rest.length < len) :
    Chunk.Unpack (ty ++ (putU32 len ++ rest)) = none := by
  have c1 : cString ty ≠ tagFLhd := fun h => h1 (cString_eq_four hty rfl h)
  have c2 : cString ty ≠ tagFLdt := fun h => h2 (cString_eq_four hty rfl h)
  simp only [Chunk.Unpack, Option.bind_eq_bind]
  rw [← hty, readBytes_append]
  simp only [Option.some_bind]
  rw [readU32_put _ hlen]
  simp only [Option.some_bind, if_neg c1, if_neg c2, ChunkUnk.Unpack, readBytes,
    Option.bind_eq_bind]
  rw [if_neg (by omega)]
  rfl

/-- The chunk loop fails on a buffer whose first chunk does not decode, whatever
the fuel. -/
theorem Chunk_unpackAll_first_fails (fuel : Nat) (buf : List Nat) (hne : buf ≠ [])
    (h : Chunk.Unpack buf = none) : Chunk.unpackAll fuel buf = none := by
  have he : buf.isEmpty = false := by
    rw [List.isEmpty_eq_false]; exact hne
  cases fuel with
  | zero => simp [Chunk.unpackAll, he]
  | succ f => simp [Chunk.unpackAll, he, h]

/-- The chunk loop fails behind decodable chunks when it fails on what follows
them. -/
theorem Chunk_unpackAll_fails_behind : ∀ (cs : List Chunk) (front tail : List Nat) (fuel : Nat),
    Chunk.WFAll cs → (∀ c ∈ cs, c.Typ ≠ tagFLdt) → Chunk.packAll cs = some front →
    (∀ f, Chunk.unpackAll f tail = none) → Chunk.unpackAll fuel (front ++ tail) = none
  | [], front, tail, fuel, _, _, hf, ht => by
    simp only [Chunk.packAll, Option.some.injEq] at hf
    subst hf
    exact ht fuel
  | c :: cs, front, tail, fuel, hw, hn, hf, ht => by
    simp only [Chunk.packAll, Option.bind_eq_bind, Option.bind_eq_some] at hf
    obtain ⟨b, hb, bs, hbs, h3⟩ := hf
    injection h3 with h3
    subst h3
    obtain ⟨hwc, -, hwcs⟩ := hw
    have hne : (b ++ (bs ++ tail)).isEmpty = false := by
      rw [List.isEmpty_eq_false]
      have := Chunk_Pack_ne_nil hb
      simp [this]
    rw [List.append_assoc]
    cases fuel with
    | zero => simp only [Chunk.unpackAll, hne, Bool.false_eq_true, if_false]
    | succ f =>
      have hu := Chunk_Unpack_Pack hwc hb (bs ++ tail)
        (fun h => absurd h (hn c (List.mem_cons_self _ _)))
      have ih := Chunk_unpackAll_fails_behind cs bs tail f hwcs
        (fun y hy => hn y (List.mem_cons_of_mem _ hy)) hbs ht
      simp only [Chunk.unpackAll, hne, Bool.false_eq_true, if_false, hu,
        Option.bind_eq_bind, Option.some_bind, ih]
      rfl

set_option maxRecDepth 100000 in
/-- C11 fails as stated: an FLhd chunk with `Len` 7 and only 6 bytes behind its
header decodes, and so does an FLdt chunk with `Len` 9 and only 2 bytes behind
its header. -/
theorem unpack_accepts_overlong_len :
    Project.Unpack [70, 76, 104, 100, 7, 0, 0, 0, 0, 0, 1, 0, 96, 0]
        = some ⟨[⟨tagFLhd, 7, ⟨some ⟨0, 1, 96⟩, none, none⟩⟩]⟩
      ∧ ([70, 76, 104, 100, 7, 0, 0, 0, 0, 0, 1, 0, 96, 0].drop 8).length < 7
      ∧ Project.Unpack [70, 76, 100, 116, 9, 0, 0, 0, 0, 5]
        = some ⟨[⟨tagFLdt, 9, ⟨none, some ⟨[⟨0, 5, 0, 0, ⟨⟨0⟩, []⟩⟩]⟩, none⟩⟩]⟩
      ∧ ([70, 76, 100, 116, 9, 0, 0, 0, 0, 5].drop 8).length < 9 := by
  refine ⟨by decide, by decide, by decide, by decide⟩

/-- C11 (amended): behind chunks that decode (`front` is the encoding of the
chunks `cs`, none of them an FLdt chunk), a chunk with an unrecognized tag whose
`Len` exceeds the number of bytes behind its 8 byte header makes
`Project.Unpack` fail. The `Len` of an FLhd or FLdt chunk is not checked: an
FLhd chunk with any `Len` decodes from the 6 bytes of its record, and an FLdt
chunk with any `Len` decodes when the bytes behind its header are the encoding
of events. -/
theorem unpack_checks_opaque_len (cs : List Chunk) (front ty rest : List Nat) (len : Nat)
    (hw : Chunk.WFAll cs) (hnd : ∀ c ∈ cs, c.Typ ≠ tagFLdt)
    (hf : Chunk.packAll cs = some front)
    (hty : ty.length = 4) (h1 : ty ≠ tagFLhd) (h2 : ty ≠ tagFLdt)
    (hlen : len < 2 ^ 32) (hs : rest.length < len) :
    Project.Unpack (front ++ (ty ++ (putU32 len ++ rest))) = none
      ∧ (∀ l a b c : Nat, l < 2 ^ 32 → a < 65536 → b < 65536 → c < 65536 →
          Project.Unpack (front ++ (tagFLhd ++ putU32 l ++ (putU16 a ++ putU16 b ++ putU16 c)))
            = some ⟨cs ++ [⟨tagFLhd, l, ⟨some ⟨a, b, c⟩, none, none⟩⟩]⟩)
      ∧ (∀ (l : Nat) (es : List Event) (bs : List Nat), l < 2 ^ 32 → (∀ e ∈ es, e.WF) →
          Event.packAll es = some bs →
          Project.Unpack (front ++ (tagFLdt ++ putU32 l ++ bs))
            = some ⟨cs ++ [⟨tagFLdt, l, ⟨none, some ⟨es⟩, none⟩⟩]⟩) := by
  refine ⟨?_, ?_, ?_⟩
  · simp only [Project.Unpack]
    rw [Chunk_unpackAll_fails_behind cs front _ _ hw hnd hf]
    · rfl
    · intro f
      apply Chunk_unpackAll_first_fails
      · intro h
        have := congrArg List.length h
        simp only [List.length_append, hty, List.length_nil] at this
        omega
      · exact Chunk_Unpack_opaque_short ty rest len hty h1 h2 hlen hs
  · intro l a b c hl ha hb hc
    have hwc : Chunk.WF ⟨tagFLhd, l, ⟨some ⟨a, b, c⟩, none, none⟩⟩ := by
      refine ⟨⟨(by decide : tagFLhd.length ≤ 4), (by decide : ∀ b ∈ tagFLhd, b ≠ 0)⟩,
        (by decide : IsBytes tagFLhd), hl, ?_⟩
      simp only [if_true]
      exact ⟨⟨a, b, c⟩, rfl, ha, hb, hc⟩
    have hp : Chunk.packAll [(⟨tagFLhd, l, ⟨some ⟨a, b, c⟩, none, none⟩⟩ : Chunk)]
        = some (tagFLhd ++ putU32 l ++ (putU16 a ++ putU16 b ++ putU16 c)) := by
      simp [Chunk.packAll, Chunk.Pack, ChunkData.Pack, ChunkFLhd.Pack, putTag_eq tagFLhd rfl]
    exact Project_Unpack_Pack ⟨cs ++ [⟨tagFLhd, l, ⟨some ⟨a, b, c⟩, none, none⟩⟩]⟩
      (Chunk_WFAll_append_one cs _ hw hnd hwc) _ (Chunk_packAll_append cs _ _ _ hf hp)
  · intro l es bs hl hes hbs
    have hne : tagFLdt ≠ tagFLhd := by decide
    have hwc : Chunk.WF ⟨tagFLdt, l, ⟨none, some ⟨es⟩, none⟩⟩ := by
      refine ⟨⟨(by decide : tagFLdt.length ≤ 4), (by decide : ∀ b ∈ tagFLdt, b ≠ 0)⟩,
        (by decide : IsBytes tagFLdt), hl, ?_⟩
      simp only [if_neg hne, if_true]
      exact ⟨⟨es⟩, rfl, hes⟩
    have hp : Chunk.packAll [(⟨tagFLdt, l, ⟨none, some ⟨es⟩, none⟩⟩ : Chunk)]
        = some (tagFLdt ++ putU32 l ++ bs) := by
      simp [Chunk.packAll, Chunk.Pack, ChunkData.Pack, hne, hbs, putTag_eq tagFLdt rfl]
    exact Project_Unpack_Pack ⟨cs ++ [⟨tagFLdt, l, ⟨none, some ⟨es⟩, none⟩⟩]⟩
      (Chunk_WFAll_append_one cs _ hw hnd hwc) _ (Chunk_packAll_append cs _ _ _ hf hp)

set_option maxRecDepth 100000 in
theorem unpack_checks_opaque_len_witness :
    Project.Unpack ([70, 76, 104, 100, 6, 0, 0, 0, 0, 0, 1, 0, 96, 0]
        ++ ([65, 66, 67, 68] ++ (putU32 5 ++ [1, 2]))) = none
      ∧ Project.Unpack ([70, 76, 104, 100, 6, 0, 0, 0, 0, 0, 1, 0, 96, 0]
        ++ ([65, 66, 67, 68] ++ (putU32 2 ++ [1, 2])))
          = some ⟨[⟨tagFLhd, 6, ⟨some ⟨0, 1, 96⟩, none, none⟩⟩,
              ⟨[65, 66, 67, 68], 2, ⟨none, none, some ⟨[1, 2]⟩⟩⟩]⟩ :=
  ⟨(unpack_checks_opaque_len [⟨tagFLhd, 6, ⟨some ⟨0, 1, 96⟩, none, none⟩⟩]
      [70, 76, 104, 100, 6, 0, 0, 0, 0, 0, 1, 0, 96, 0] [65, 66, 67, 68] [1, 2] 5
      (by
        refine ⟨⟨⟨by decide, by decide⟩, by decide, by decide, ?_⟩, by decide, trivial⟩
        simp only [if_true]
        exact ⟨⟨0, 1, 96⟩, rfl, by decide, by decide, by decide⟩)
      (by decide) (by decide) (by decide) (by decide) (by decide) (by decide) (by decide)).1,
    by decide⟩

/-! ## Where the decoder finds the chunks of a buffer: claims C12 and C13 -/

/-- The tag of a decoded chunk is the string held by the first 4 bytes of the
buffer. -/
theorem Chunk_Unpack_Typ {buf rest : List Nat} {c : Chunk}
    (h : Chunk.Unpack buf = some (c, rest)) : c.Typ = cString (buf.take 4) := by
  simp only [Chunk.Unpack, Option.bind_eq_bind, Option.bind_eq_some] at h
  obtain ⟨⟨ty, r1⟩, h1, ⟨len, r2⟩, h2, h3⟩ := h
  simp only at h2 h3
  have hty : ty = buf.take 4 := by
    simp only [readBytes] at h1
    split at h1
    · simp only [Option.some.injEq, Prod.mk.injEq] at h1
      exact h1.1.symm
    · exact absurd h1 (by simp)
  rw [← hty]
  by_cases ht1 : cString ty = tagFLhd
  · rw [if_pos ht1] at h3
    simp only [Option.bind_eq_bind, Option.bind_eq_some] at h3
    obtain ⟨x, -, hx⟩ := h3
    simp only [Option.some.injEq, Prod.mk.injEq] at hx
    rw [← hx.1]
  · rw [if_neg ht1] at h3
    by_cases ht2 : cString ty = tagFLdt
    · rw [if_pos ht2] at h3
      simp only [Option.bind_eq_bind, Option.bind_eq_some] at h3
      obtain ⟨x, -, hx⟩ := h3
      simp only [Option.some.injEq, Prod.mk.injEq] at hx
      rw [← hx.1]
    · rw [if_neg ht2] at h3
      simp only [Option.bind_eq_bind, Option.bind_eq_some] at h3
      obtain ⟨x, -, hx⟩ := h3
      simp only [Option.some.injEq, Prod.mk.injEq] at hx
      rw [← hx.1]

/-- A decoded FLdt chunk took the whole buffer: behind its header lie its events
and nothing else, whatever its `Len`. -/
theorem Chunk_Unpack_FLdt_payload {buf rest : List Nat} {c : Chunk} (hB : IsBytes buf)
    (h : Chunk.Unpack buf = some (c, rest)) (ht : c.Typ = tagFLdt) :
    ∃ d payload, c.Data = ⟨none, some d, none⟩ ∧ buf = tagFLdt ++ (putU32 c.Len ++ payload)
      ∧ rest = [] ∧ IsBytes payload
      ∧ Event.unpackAll payload.length payload = some d.Event := by
  have hty := Chunk_Unpack_Typ h
  simp only [Chunk.Unpack, Option.bind_eq_bind, Option.bind_eq_some] at h
  obtain ⟨⟨ty, r1⟩, h1, ⟨len, r2⟩, h2, h3⟩ := h
  simp only at h2 h3
  obtain ⟨hd1, hd2⟩ := readBytes_some h1
  subst hd1
  simp only [IsBytes_append] at hB
  obtain ⟨hl1, hl2, hl3⟩ := readU32_some hB.2 h2
  subst hl1
  have e4 : (ty ++ (putU32 len ++ r2)).take 4 = ty := by
    rw [List.take_append_of_le_length (by omega)]
    exact List.take_of_length_le (by omega)
  rw [e4] at hty
  have ht2 : cString ty = tagFLdt := by rw [← hty]; exact ht
  have hraw : ty = tagFLdt := cString_eq_four hd2 rfl ht2
  have ht1 : cString ty ≠ tagFLhd := by rw [ht2]; decide
  rw [if_neg ht1, if_pos ht2] at h3
  simp only [ChunkFLdt.Unpack, Option.bind_eq_bind, Option.bind_eq_some,
    Option.map_eq_some'] at h3
  obtain ⟨⟨d, r3⟩, ⟨es, hes, h4⟩, h5⟩ := h3
  simp only [Option.some.injEq, Prod.mk.injEq] at h4 h5
  obtain ⟨h4a, h4b⟩ := h4
  obtain ⟨h5a, h5b⟩ := h5
  subst h4a h4b h5a h5b
  exact ⟨⟨es⟩, r2, rfl, by rw [hraw], rfl, hl3, hes⟩

/-- Decoding the payload of a well formed chunk behind its `Len` and any four tag
bytes that hold its tag string gives the chunk back; an FLdt chunk must be the
last thing in the buffer. -/
theorem Chunk_Unpack_raw {c : Chunk} (hw : c.WF) {payload : List Nat}
    (h : c.Data.Pack c.Typ c.Len = some payload) (raw : List Nat) (hr : raw.length = 4)
    (hc : c.Typ = cString raw) (rest : List Nat) (hlast : c.Typ = tagFLdt → rest = []) :
    Chunk.Unpack (raw ++ (putU32 c.Len ++ payload) ++ rest) = some (c, rest) := by
  obtain ⟨ty, len, data⟩ := c
  obtain ⟨w1, w2, w3, w4⟩ := hw
  simp only at w1 w2 w3 w4 hlast h hc
  subst hc
  simp only [List.append_assoc, Chunk.Unpack, Option.bind_eq_bind]
  rw [← hr, readBytes_append]
  simp only [Option.some_bind]
  rw [readU32_put _ w3]
  simp only [Option.some_bind]
  by_cases h1 : cString raw = tagFLhd
  · rw [if_pos h1] at w4 ⊢
    obtain ⟨hh, hdat, r1, r2, r3⟩ := w4
    subst hdat
    simp only [ChunkData.Pack, if_pos h1] at h
    injection h with h
    subst h
    simp only [ChunkFLhd.Pack, ChunkFLhd.Unpack, List.append_assoc, Option.bind_eq_bind]
    rw [readU16_put _ r1]; simp only [Option.some_bind]
    rw [readU16_put _ r2]; simp only [Option.some_bind]
    rw [readU16_put _ r3]; simp only [Option.some_bind]
  · rw [if_neg h1] at w4 ⊢
    by_cases h2 : cString raw = tagFLdt
    · rw [if_pos h2] at w4 ⊢
      obtain ⟨dd, hdat, hwe⟩ := w4
      subst hdat
      simp only [ChunkData.Pack, if_neg h1, if_pos h2] at h
      have hr0 := hlast h2
      subst hr0
      simp only [List.append_nil, ChunkFLdt.Unpack]
      rw [Event_unpackAll_packAll dd.Event payload payload.length hwe h (Nat.le_refl _)]
      rfl
    · rw [if_neg h2] at w4 ⊢
      obtain ⟨u, hdat, hul, -⟩ := w4
      subst hdat
      simp only [ChunkData.Pack, if_neg h1, if_neg h2, hul, if_true] at h
      injection h with h
      subst h
      simp only [ChunkUnk.Unpack, Option.bind_eq_bind]
      rw [← hul, readBytes_append]
      rfl

/-- A decoded chunk that is no FLdt chunk took four tag bytes, its `Len` and its
payload off the buffer, and decodes from these bytes whatever follows them. -/
theorem Chunk_Unpack_not_FLdt {buf rest : List Nat} {c : Chunk} (hB : IsBytes buf)
    (h : Chunk.Unpack buf = some (c, rest)) (ht : c.Typ ≠ tagFLdt) :
    ∃ raw payload, c.Data.Pack c.Typ c.Len = some payload
      ∧ c.Pack = some (putTag c.Typ ++ putU32 c.Len ++ payload)
      ∧ buf = raw ++ (putU32 c.Len ++ payload) ++ rest
      ∧ raw = buf.take 4 ∧ raw.length = 4 ∧ c.Typ = cString raw
      ∧ ∀ rest1, Chunk.Unpack (raw ++ (putU32 c.Len ++ payload) ++ rest1) = some (c, rest1) := by
  have hty := Chunk_Unpack_Typ h
  have hm : Chunk.minimalLens buf = true := by
    simp only [Chunk.minimalLens]
    rw [if_neg]
    intro h4
    rw [h4] at hty
    exact ht hty
  obtain ⟨hw, -⟩ := Chunk_Unpack_some hB h
  obtain ⟨payload, hdp, hpk, hbuf, hr, hc⟩ := Chunk_pack_unpack_body hB hm h
  exact ⟨buf.take 4, payload, hdp, hpk, hbuf, rfl, hr, hc,
    fun rest1 => Chunk_Unpack_raw hw hdp _ hr hc rest1 (fun h => absurd h ht)⟩

/-- The chunk loop cuts the buffer where the chunks end: in front of a decoded
chunk lie the bytes the chunks before it were decoded from, none of which is an
FLdt chunk; these bytes decode to those chunks on their own, and packing those
chunks gives as many bytes, the same bytes when the tags are written back as
they were read. -/
theorem Chunk_unpackAll_split (fuel : Nat) : ∀ (buf : List Nat) (cs pre post : List Chunk)
    (c : Chunk), IsBytes buf → Chunk.unpackAll fuel buf = some cs → cs = pre ++ c :: post →
    ∃ front packed tail rest, (∀ x ∈ pre, x.Typ ≠ tagFLdt)
      ∧ buf = front ++ tail ∧ IsBytes tail ∧ Chunk.Unpack tail = some (c, rest)
      ∧ (∀ f, front.length ≤ f → Chunk.unpackAll f front = some pre)
      ∧ Chunk.packAll pre = some packed ∧ packed.length = front.length
      ∧ (Chunk.plainTags fuel buf = true → packed = front ∧ Chunk.plainTag tail = true) := by
  induction fuel with
  | zero =>
    intro buf cs pre post c hB h hcs
    simp only [Chunk.unpackAll] at h
    split at h
    · simp only [Option.some.injEq] at h
      rw [← h] at hcs
      exact absurd hcs (by simp)
    · exact absurd h (by simp)
  | succ f ih =>
    intro buf cs pre post c hB h hcs
    simp only [Chunk.unpackAll] at h
    split at h
    · simp only [Option.some.injEq] at h
      rw [← h] at hcs
      exact absurd hcs (by simp)
    · rename_i he
      simp only [Option.bind_eq_bind, Option.bind_eq_some] at h
      obtain ⟨⟨c0, rest0⟩, h1, cs1, h2, h3⟩ := h
      simp only [Option.some.injEq] at h3
      rw [← h3] at hcs
      have hplain : Chunk.plainTags (f + 1) buf = true →
          Chunk.plainTag buf = true ∧ Chunk.plainTags f rest0 = true := by
        intro hp
        simp only [Chunk.plainTags] at hp
        rw [if_neg he, h1] at hp
        simpa only [Bool.and_eq_true] using hp
      cases pre with
      | nil =>
        simp only [List.nil_append, List.cons.injEq] at hcs
        obtain ⟨hc, -⟩ := hcs
        subst hc
        refine ⟨[], [], buf, rest0, by simp, rfl, hB, h1, ?_, rfl, rfl,
          fun hp => ⟨rfl, (hplain hp).1⟩⟩
        intro g _
        cases g <;> simp [Chunk.unpackAll]
      | cons x pre1 =>
        simp only [List.cons_append, List.cons.injEq] at hcs
        obtain ⟨hc, hcs1⟩ := hcs
        subst hc
        obtain ⟨-, hB0, -, hlast, -⟩ := Chunk_Unpack_some hB h1
        have hx : c0.Typ ≠ tagFLdt := by
          intro hx
          rw [hlast hx] at h2
          have : cs1 = [] := by
            cases f <;> simpa [Chunk.unpackAll] using h2.symm
          rw [this] at hcs1
          exact absurd hcs1 (by simp)
        obtain ⟨raw, payload, -, hpk, hbuf, hraw, hr, hty, hind⟩ :=
          Chunk_Unpack_not_FLdt hB h1 hx
        obtain ⟨front, packed, tail, rest, hn, ht, hBt, hu, hdec, hf, hlen, hpl⟩ :=
          ih rest0 cs1 pre1 post c hB0 h2 hcs1
        refine ⟨raw ++ (putU32 c0.Len ++ payload) ++ front,
          putTag c0.Typ ++ putU32 c0.Len ++ payload ++ packed, tail, rest, ?_, ?_, hBt, hu,
          ?_, ?_, ?_, ?_⟩
        · intro y hy
          simp only [List.mem_cons] at hy
          rcases hy with rfl | hy
          · exact hx
          · exact hn y hy
        · rw [hbuf, ht]
          simp only [List.append_assoc]
        · intro g hg
          cases g with
          | zero =>
            simp only [List.length_append, hr, putU32_length] at hg
            omega
          | succ g1 =>
            have hne : (raw ++ (putU32 c0.Len ++ payload) ++ front).isEmpty = false := by
              rw [List.isEmpty_eq_false]
              intro h0
              have := congrArg List.length h0
              simp only [List.length_append, hr, putU32_length, List.length_nil] at this
              omega
            simp only [Chunk.unpackAll, hne, Bool.false_eq_true, if_false, hind front,
              Option.bind_eq_bind, Option.some_bind]
            rw [hdec g1 (by
              simp only [List.length_append, hr, putU32_length] at hg
              omega)]
            rfl
        · simp only [Chunk.packAll, hpk, hf, Option.bind_eq_bind, Option.some_bind]
        · simp only [List.length_append, putTag_length, hr, hlen]
          omega
        · intro hp
          obtain ⟨hp1, hp2⟩ := hplain hp
          obtain ⟨e1, e2⟩ := hpl hp2
          refine ⟨?_, e2⟩
          simp only [Chunk.plainTag, decide_eq_true_eq] at hp1
          rw [← hraw, ← hty] at hp1
          rw [hp1, e1]
          simp only [List.append_assoc]

theorem Chunk_WFAll_FLdt_last : ∀ (pre post : List Chunk) (c : Chunk),
    Chunk.WFAll (pre ++ c :: post) → c.Typ = tagFLdt → post = []
  | [], _, _, hw, ht => hw.2.1 ht
  | _ :: pre, post, c, hw, ht => Chunk_WFAll_FLdt_last pre post c hw.2.2 ht

set_option maxRecDepth 100000 in
/-- C12 fails as stated: the file `trailingChunkInput` holds, by its declared
lengths, an FLhd chunk, an FLdt chunk with `Len` 105 and an opaque chunk `ABCD`
with `Len` 2; it decodes to a project of two chunks, whose FLdt chunk keeps
`Len` 105 but holds seven events of packed size 115: the ten bytes of the chunk
`ABCD` are decoded as four further events. -/
theorem FLdt_swallows_following_chunk :
    (specChunks trailingChunkInput.length trailingChunkInput).map
        (fun cs => cs.map fun x => (x.1, x.2.1))
      = some [(tagFLhd, 6), (tagFLdt, 105), ([65, 66, 67, 68], 2)]
    ∧ Project.Unpack trailingChunkInput
      = some ⟨[⟨tagFLhd, 6, ⟨some ⟨0, 1, 96⟩, none, none⟩⟩,
          ⟨tagFLdt, 105, ⟨none, some ⟨exampleEvents [10, 20, 10]
            ++ [⟨0x41, 0, 17218, 0, ⟨⟨0⟩, []⟩⟩, ⟨0x44, 0, 2, 0, ⟨⟨0⟩, []⟩⟩,
                ⟨0, 0, 0, 0, ⟨⟨0⟩, []⟩⟩, ⟨0, 7, 0, 0, ⟨⟨0⟩, []⟩⟩]⟩, none⟩⟩]⟩
    ∧ Event.sizeAll (exampleEvents [10, 20, 10]
            ++ [⟨0x41, 0, 17218, 0, ⟨⟨0⟩, []⟩⟩, ⟨0x44, 0, 2, 0, ⟨⟨0⟩, []⟩⟩,
                ⟨0, 0, 0, 0, ⟨⟨0⟩, []⟩⟩, ⟨0, 7, 0, 0, ⟨⟨0⟩, []⟩⟩]) = 115 := by
  refine ⟨by decide, by decide, by decide⟩

/-- C12 (amended): for every byte buffer that unpacks into a Project, an FLdt
chunk of the project is its last chunk, and its events are exactly the events
encoded in all the bytes of the buffer behind its header, whatever its `Len`
says: the buffer is the bytes `front` the chunks before it were decoded from
(they decode to these chunks on their own, and packing these chunks gives as
many bytes, and gives `front` itself when every chunk tag of the buffer is
written back as it was read), then its tag, its `Len` and a payload that runs to
the end of the buffer; the event loop decodes that payload to its events; their
packed sizes sum to at most the length of the payload, and to exactly that
length, the events packing to the payload, when every length prefix in it is
minimal. -/
theorem FLdt_events_run_to_end (buf : List Nat) (p : Project) (hB : IsBytes buf)
    (hp : Project.Unpack buf = some p) (pre post : List Chunk) (c : Chunk) (d : ChunkFLdt)
    (hcs : p.Chunks = pre ++ c :: post) (hd : c.Data.FLdt = some d) :
    post = [] ∧ c.Typ = tagFLdt
      ∧ ∃ front payload, Project.Unpack front = some ⟨pre⟩
        ∧ (∃ packed, Chunk.packAll pre = some packed ∧ packed.length = front.length
            ∧ (Project.plainTags buf = true → Chunk.packAll pre = some front))
        ∧ buf = front ++ (tagFLdt ++ (putU32 c.Len ++ payload))
        ∧ Event.unpackAll payload.length payload = some d.Event
        ∧ Event.sizeAll d.Event ≤ payload.length
        ∧ (Event.allMinimal payload.length payload = true →
            Event.packAll d.Event = some payload
              ∧ Event.sizeAll d.Event = payload.length) := by
  obtain ⟨hw, -⟩ := Project_Unpack_some hB hp
  simp only [Project.Unpack, Option.map_eq_some'] at hp
  obtain ⟨cs, hu, hpc⟩ := hp
  subst hpc
  simp only at hcs hw
  obtain ⟨front, packed, tail, rest, -, hbuf, hBt, hut, hdec, hf, hlen, hpl⟩ :=
    Chunk_unpackAll_split _ buf cs pre post c hB hu hcs
  obtain ⟨hwc, -⟩ := Chunk_Unpack_some hBt hut
  obtain ⟨ht, -, hwe⟩ := Chunk_WF_FLdt hwc hd
  obtain ⟨d1, payload, hd1, htail, -, hBp, hev⟩ := Chunk_Unpack_FLdt_payload hBt hut ht
  have hdd : d1 = d := by
    rw [hd1] at hd
    simp only [Option.some.injEq] at hd
    exact hd
  subst hdd
  rw [hcs] at hw
  refine ⟨Chunk_WFAll_FLdt_last pre post c hw ht, ht, front, payload, ?_,
    ⟨packed, hf, hlen, ?_⟩, ?_, hev, ?_, ?_⟩
  · simp only [Project.Unpack, hdec front.length (Nat.le_refl _), Option.map_some']
  · intro hpt
    rw [hf, (hpl hpt).1]
  · rw [hbuf, htail]
  · exact (Event_unpackAll_some _ _ _ hBp hev).2
  · intro hm
    have hpk := Event_packAll_unpackAll _ _ _ hBp hm hev
    exact ⟨hpk, (Event_packAll_length _ _ hwe hpk).symm⟩

set_option maxRecDepth 100000 in
theorem FLdt_events_run_to_end_witness :
    IsBytes exampleInput ∧ Project.plainTags exampleInput = true
      ∧ Project.Unpack exampleInput = some exampleProject
      ∧ Event.sizeAll (exampleEvents [10, 20, 10]) = 105
      ∧ (([] : List Chunk) = [] ∧ tagFLdt = tagFLdt
        ∧ ∃ front payload,
          Project.Unpack front = some ⟨[⟨tagFLhd, 6, ⟨some ⟨0, 1, 96⟩, none, none⟩⟩]⟩
          ∧ (∃ packed,
              Chunk.packAll [(⟨tagFLhd, 6, ⟨some ⟨0, 1, 96⟩, none, none⟩⟩ : Chunk)] = some packed
              ∧ packed.length = front.length
              ∧ (Project.plainTags exampleInput = true →
                  Chunk.packAll [(⟨tagFLhd, 6, ⟨some ⟨0, 1, 96⟩, none, none⟩⟩ : Chunk)]
                    = some front))
          ∧ exampleInput = front ++ (tagFLdt ++ (putU32 105 ++ payload))
          ∧ Event.unpackAll payload.length payload = some (exampleEvents [10, 20, 10])
          ∧ Event.sizeAll (exampleEvents [10, 20, 10]) ≤ payload.length
          ∧ (Event.allMinimal payload.length payload = true →
              Event.packAll (exampleEvents [10, 20, 10]) = some payload
                ∧ Event.sizeAll (exampleEvents [10, 20, 10]) = payload.length)) :=
  ⟨by decide, by decide, by decide, by decide,
    FLdt_events_run_to_end exampleInput exampleProject (by decide) (by decide)
      [⟨tagFLhd, 6, ⟨some ⟨0, 1, 96⟩, none, none⟩⟩] []
      ⟨tagFLdt, 105, ⟨none, some ⟨exampleEvents [10, 20, 10]⟩, none⟩⟩
      ⟨exampleEvents [10, 20, 10]⟩ rfl rfl⟩

/-! ## Opaque chunks pass through the filter: claim C13 -/

/-- A well formed chunk that is no FLdt chunk has no FLdt payload. -/
theorem Chunk_WF_no_FLdt {c : Chunk} (h : c.WF) (ht : c.Typ ≠ tagFLdt) :
    c.Data.FLdt = none := by
  cases hd : c.Data.FLdt with
  | none => rfl
  | some d => exact absurd (Chunk_WF_FLdt h hd).1 ht

/-- A well formed chunk with an unrecognized tag holds `Len` data bytes and packs
to the four bytes of its tag string, its `Len` and its data. -/
theorem Chunk_WF_opaque {c : Chunk} (h : c.WF) (h1 : c.Typ ≠ tagFLhd) (h2 : c.Typ ≠ tagFLdt) :
    ∃ data, c.Data = ⟨none, none, some ⟨data⟩⟩ ∧ data.length = c.Len
      ∧ c.Data.Pack c.Typ c.Len = some data
      ∧ c.Pack = some (putTag c.Typ ++ (putU32 c.Len ++ data)) := by
  obtain ⟨-, -, -, w4⟩ := h
  rw [if_neg h1, if_neg h2] at w4
  obtain ⟨u, hu, hl, -⟩ := w4
  have hp : c.Data.Pack c.Typ c.Len = some u.Data := by
    simp only [ChunkData.Pack, if_neg h1, if_neg h2, hu, hl, if_true]
  refine ⟨u.Data, hu, hl, hp, ?_⟩
  simp only [Chunk.Pack, hp, Option.bind_eq_bind, Option.some_bind, List.append_assoc]

/-- The filter returns a leading run of chunks without FLdt payload as it is. -/
theorem filterChunks_prefix (track : Nat) : ∀ (pre rest cs' : List Chunk),
    (∀ x ∈ pre, x.Data.FLdt = none) → filterChunks track (pre ++ rest) = some cs' →
    ∃ rest', cs' = pre ++ rest' ∧ filterChunks track rest = some rest'
  | [], rest, cs', _, h => ⟨cs', rfl, h⟩
  | x :: pre, rest, cs', hn, h => by
    rw [List.cons_append] at h
    simp only [filterChunks, Option.bind_eq_bind, Option.bind_eq_some] at h
    obtain ⟨x1, hx1, cs1, hcs1, h3⟩ := h
    simp only [Option.some.injEq] at h3
    subst h3
    rw [filterChunk_other track x (hn x (List.mem_cons_self _ _))] at hx1
    simp only [Option.some.injEq] at hx1
    subst hx1
    obtain ⟨rest', hr1, hr2⟩ := filterChunks_prefix track pre rest cs1
      (fun y hy => hn y (List.mem_cons_of_mem _ hy)) hcs1
    exact ⟨rest', by rw [hr1, List.cons_append], hr2⟩

/-- C13 (amended): for every byte buffer that unpacks into a Project on which
discovery succeeds and for every track number `T`, the discovered ones among
them, `filterwrite` produces an output, and each chunk of the project whose tag
is neither FLhd nor FLdt, which can only stand before the FLdt chunk because the
events of an FLdt chunk run to the end of the buffer, appears in the output at
the same chunk position, behind the same chunks, with the same tag string, `Len`
and data. Its tag string is what the four tag bytes `raw` of the input hold in
front of their first NUL byte, and the output holds it padded with NUL bytes to
four bytes; behind the tag the output holds the `Len` and the data of the input,
at the offset they have in the input (`front`, the input in front of the chunk,
and `front1`, the output in front of it, have the same length). When every chunk
tag of the input is written back as it was read, the bytes of the chunk and the
bytes in front of it are the same in the input and in the output. -/
theorem filterwrite_keeps_opaque_chunks (buf : List Nat) (p : Project)
    (trackList : List Int) (T : Int) (hB : IsBytes buf) (hp : Project.Unpack buf = some p)
    (hd : discover p = .ok trackList) :
    ∃ q out, filterProject p (rawTrack T) = some q ∧ filterwrite p (rawTrack T) = some out
      ∧ ∀ (pre post : List Chunk) (c : Chunk), p.Chunks = pre ++ c :: post →
          c.Typ ≠ tagFLhd → c.Typ ≠ tagFLdt →
          (∀ x ∈ pre, x.Typ ≠ tagFLdt)
            ∧ ∃ post1 data raw front front1 tail tail1,
                q.Chunks = pre ++ c :: post1 ∧ post1.length = post.length
                  ∧ c.Data = ⟨none, none, some ⟨data⟩⟩ ∧ data.length = c.Len
                  ∧ raw.length = 4 ∧ c.Typ = cString raw
                  ∧ Project.Unpack front = some ⟨pre⟩
                  ∧ Chunk.packAll pre = some front1 ∧ front1.length = front.length
                  ∧ buf = front ++ (raw ++ (putU32 c.Len ++ data)) ++ tail
                  ∧ out = front1 ++ (putTag c.Typ ++ (putU32 c.Len ++ data)) ++ tail1
                  ∧ (Project.plainTags buf = true → front1 = front ∧ putTag c.Typ = raw
                      ∧ out = front ++ (raw ++ (putU32 c.Len ++ data)) ++ tail1) := by
  obtain ⟨-, hdec, -, -⟩ := discover_ok hd
  obtain ⟨hw, -⟩ := Project_Unpack_some hB hp
  obtain ⟨cs1, hcs⟩ := filterChunks_of_decode (rawTrack T) p.Chunks hdec
  have hw1 := Chunk_WFAll_mem _ (filterChunks_WFAll _ _ _ hw hcs)
  obtain ⟨out, hout⟩ := Chunk_packAll_isSome cs1 hw1
  refine ⟨⟨cs1⟩, out, by simp [filterProject, hcs], ?_, ?_⟩
  · simp [filterwrite, filterProject, hcs, Project.Pack, hout]
  · intro pre post c hpc h1 h2
    simp only [Project.Unpack, Option.map_eq_some'] at hp
    obtain ⟨cs, hu, hpe⟩ := hp
    subst hpe
    simp only at hpc hw hcs
    obtain ⟨front, front1, tail0, rest, hn, hbuf, hBt, hut, hfd, hf, hlen, hpl⟩ :=
      Chunk_unpackAll_split _ buf cs pre post c hB hu hpc
    obtain ⟨hwc, -⟩ := Chunk_Unpack_some hBt hut
    obtain ⟨raw, payload, hdp, -, htail, hraw, hr, hty, -⟩ := Chunk_Unpack_not_FLdt hBt hut h2
    obtain ⟨data, hdata, hdl, hdp1, hpk⟩ := Chunk_WF_opaque hwc h1 h2
    rw [hdp1] at hdp
    simp only [Option.some.injEq] at hdp
    subst hdp
    have hpre : ∀ x ∈ pre ++ [c], x.Data.FLdt = none := by
      intro x hx
      simp only [List.mem_append, List.mem_singleton] at hx
      rcases hx with hx | rfl
      · apply Chunk_WF_no_FLdt (Chunk_WFAll_mem _ hw x _) (hn x hx)
        rw [hpc]
        exact List.mem_append_left _ hx
      · exact Chunk_WF_no_FLdt hwc h2
    have hcs2 : filterChunks (rawTrack T) ((pre ++ [c]) ++ post) = some cs1 := by
      rw [List.append_assoc, List.singleton_append, ← hpc]
      exact hcs
    obtain ⟨post1, hq, hfp⟩ := filterChunks_prefix _ (pre ++ [c]) post cs1 hpre hcs2
    obtain ⟨tail1, htail1⟩ := Chunk_packAll_isSome post1 (fun x hx => hw1 x (by
      rw [hq]
      exact List.mem_append_right _ hx))
    have hpc1 : Chunk.packAll [c] = some (putTag c.Typ ++ (putU32 c.Len ++ data)) := by
      simp only [Chunk.packAll, hpk, Option.bind_eq_bind, Option.some_bind, List.append_nil]
    have hall := Chunk_packAll_append _ _ _ _
      (Chunk_packAll_append pre [c] _ _ hf hpc1) htail1
    rw [← hq, hout] at hall
    simp only [Option.some.injEq] at hall
    refine ⟨hn, post1, data, raw, front, front1, rest, tail1, ?_,
      (filterChunks_some _ _ _ hfp).1, hdata, hdl, hr, hty, ?_, hf, hlen, ?_, hall, ?_⟩
    · rw [hq, List.append_assoc, List.singleton_append]
    · simp only [Project.Unpack, hfd front.length (Nat.le_refl _), Option.map_some']
    · rw [hbuf, htail]
      simp only [List.append_assoc]
    · intro hpt
      obtain ⟨e1, e2⟩ := hpl hpt
      simp only [Chunk.plainTag, decide_eq_true_eq] at e2
      rw [← hraw, ← hty] at e2
      refine ⟨e1, e2, ?_⟩
      rw [hall, e1, e2]

set_option maxRecDepth 100000 in
/-- C13 fails as stated. The file `trailingChunkInput` holds, by its declared
lengths, the opaque chunk `ABCD` as its third chunk, behind the FLdt chunk; the
run succeeds and writes the tracks 480 and 490, and each output holds two chunks
only, FLhd and FLdt: no chunk `ABCD` stands at the third position. And the file
`nulTagFirstInput` holds, in front of its FLdt chunk, an opaque chunk whose tag
bytes are `A`, NUL, `C`, `D`; the run succeeds, and each output holds at the
offset of that chunk the tag bytes `A`, NUL, NUL, NUL in front of the `Len` and
the data of the input: the bytes of the chunk are not those of the input. -/
theorem opaque_chunk_behind_FLdt_lost :
    (specChunks trailingChunkInput.length trailingChunkInput).map
        (fun cs => cs.map fun x => (x.1, x.2.1))
      = some [(tagFLhd, 6), (tagFLdt, 105), ([65, 66, 67, 68], 2)]
    ∧ (main trailingChunkInput).2 = none
    ∧ (main trailingChunkInput).1.map (fun o =>
          (o.1, (specChunks o.2.length o.2).map fun cs => cs.map fun x => (x.1, x.2.1)))
      = [(480, some [(tagFLhd, 6), (tagFLdt, 51)]),
         (490, some [(tagFLhd, 6), (tagFLdt, 83)])]
    ∧ (specChunks nulTagFirstInput.length nulTagFirstInput).map
        (fun cs => cs.map fun x => (x.1, x.2.1))
      = some [(tagFLhd, 6), ([65, 0, 67, 68], 2), (tagFLdt, 105)]
    ∧ (nulTagFirstInput.drop 14).take 10 = [65, 0, 67, 68, 2, 0, 0, 0, 9, 8]
    ∧ (main nulTagFirstInput).2 = none
    ∧ (main nulTagFirstInput).1.map (fun o => (o.1, (o.2.drop 14).take 10))
      = [(480, [65, 0, 0, 0, 2, 0, 0, 0, 9, 8]), (490, [65, 0, 0, 0, 2, 0, 0, 0, 9, 8])] := by
  refine ⟨by decide, by decide, by decide, by decide, by decide, by decide, by decide⟩

set_option maxRecDepth 100000 in
theorem filterwrite_keeps_opaque_chunks_witness :
    IsBytes opaqueFirstInput ∧ Project.plainTags opaqueFirstInput = true
      ∧ Project.Unpack opaqueFirstInput
          = some ⟨[⟨tagFLhd, 6, ⟨some ⟨0, 1, 96⟩, none, none⟩⟩,
              ⟨[65, 66, 67, 68], 2, ⟨none, none, some ⟨[0, 7]⟩⟩⟩,
              ⟨tagFLdt, 105, ⟨none, some ⟨exampleEvents [10, 20, 10]⟩, none⟩⟩]⟩
      ∧ (490 : Int) ∈ [(480 : Int), 490]
      ∧ (main opaqueFirstInput).1.map (fun o =>
            (o.1, (specChunks o.2.length o.2).map fun cs => cs.map fun x => (x.1, x.2.1)))
          = [(480, some [(tagFLhd, 6), ([65, 66, 67, 68], 2), (tagFLdt, 41)]),
             (490, some [(tagFLhd, 6), ([65, 66, 67, 68], 2), (tagFLdt, 73)])]
      ∧ ∃ q out,
          filterProject ⟨[⟨tagFLhd, 6, ⟨some ⟨0, 1, 96⟩, none, none⟩⟩,
              ⟨[65, 66, 67, 68], 2, ⟨none, none, some ⟨[0, 7]⟩⟩⟩,
              ⟨tagFLdt, 105, ⟨none, some ⟨exampleEvents [10, 20, 10]⟩, none⟩⟩]⟩
            (rawTrack 490) = some q
          ∧ filterwrite ⟨[⟨tagFLhd, 6, ⟨some ⟨0, 1, 96⟩, none, none⟩⟩,
              ⟨[65, 66, 67, 68], 2, ⟨none, none, some ⟨[0, 7]⟩⟩⟩,
              ⟨tagFLdt, 105, ⟨none, some ⟨exampleEvents [10, 20, 10]⟩, none⟩⟩]⟩
            (rawTrack 490) = some out
          ∧ ∀ (pre post : List Chunk) (c : Chunk),
              (⟨[⟨tagFLhd, 6, ⟨some ⟨0, 1, 96⟩, none, none⟩⟩,
                ⟨[65, 66, 67, 68], 2, ⟨none, none, some ⟨[0, 7]⟩⟩⟩,
                ⟨tagFLdt, 105, ⟨none, some ⟨exampleEvents [10, 20, 10]⟩, none⟩⟩]⟩
                  : Project).Chunks = pre ++ c :: post →
              c.Typ ≠ tagFLhd → c.Typ ≠ tagFLdt →
              (∀ x ∈ pre, x.Typ ≠ tagFLdt)
                ∧ ∃ post1 data raw front front1 tail tail1,
                    q.Chunks = pre ++ c :: post1 ∧ post1.length = post.length
                      ∧ c.Data = ⟨none, none, some ⟨data⟩⟩ ∧ data.length = c.Len
                      ∧ raw.length = 4 ∧ c.Typ = cString raw
                      ∧ Project.Unpack front = some ⟨pre⟩
                      ∧ Chunk.packAll pre = some front1 ∧ front1.length = front.length
                      ∧ opaqueFirstInput = front ++ (raw ++ (putU32 c.Len ++ data)) ++ tail
                      ∧ out = front1 ++ (putTag c.Typ ++ (putU32 c.Len ++ data)) ++ tail1
                      ∧ (Project.plainTags opaqueFirstInput = true →
                          front1 = front ∧ putTag c.Typ = raw
                            ∧ out = front ++ (raw ++ (putU32 c.Len ++ data)) ++ tail1) :=
  ⟨by decide, by decide, by decide, by decide, by decide,
    filterwrite_keeps_opaque_chunks opaqueFirstInput _ [480, 490] 490 (by decide) (by decide)
      (by rfl)⟩

/-! ## `filterwrite` leaves the caller's project alone: claim C17 -/

theorem loadChunks_some {h : Heap} {a : Nat} {cs : List ChunkCell}
    (hl : loadChunks h a = some cs) : h[a]? = some (.chunks cs) := by
  simp only [loadChunks] at hl
  split at hl
  · rename_i x hx
    simp only [Option.some.injEq] at hl
    rw [hx, hl]
  · exact absurd hl (by simp)

theorem loadFLdt_some {h : Heap} {a ev : Nat} (hl : loadFLdt h a = some ev) :
    h[a]? = some (.fldt ev) := by
  simp only [loadFLdt] at hl
  split at hl
  · rename_i x hx
    simp only [Option.some.injEq] at hl
    rw [hx, hl]
  · exact absurd hl (by simp)

theorem loadEvents_some {h : Heap} {a : Nat} {es : List Event}
    (hl : loadEvents h a = some es) : h[a]? = some (.events es) := by
  simp only [loadEvents] at hl
  split at hl
  · rename_i x hx
    simp only [Option.some.injEq] at hl
    rw [hx, hl]
  · exact absurd hl (by simp)

theorem loadChunks_of {h : Heap} {a : Nat} {cs : List ChunkCell}
    (hl : h[a]? = some (.chunks cs)) : loadChunks h a = some cs := by
  simp only [loadChunks, hl]

theorem loadFLdt_of {h : Heap} {a ev : Nat} (hl : h[a]? = some (.fldt ev)) :
    loadFLdt h a = some ev := by
  simp only [loadFLdt, hl]

theorem loadEvents_of {h : Heap} {a : Nat} {es : List Event}
    (hl : h[a]? = some (.events es)) : loadEvents h a = some es := by
  simp only [loadEvents, hl]

theorem heap_lt {h : Heap} {a : Nat} {o : Obj} (hl : h[a]? = some o) : a < h.length := by
  rcases Nat.lt_or_ge a h.length with hlt | hge
  · exact hlt
  · rw [List.getElem?_eq_none hge] at hl
    exact absurd hl (by simp)

/-- Two heaps that agree at an address load the same there. -/
theorem loadChunks_congr {h h' : Heap} {a : Nat} (e : h'[a]? = h[a]?) :
    loadChunks h' a = loadChunks h a := by
  simp only [loadChunks, e]

theorem loadFLdt_congr {h h' : Heap} {a : Nat} (e : h'[a]? = h[a]?) :
    loadFLdt h' a = loadFLdt h a := by
  simp only [loadFLdt, e]

theorem loadEvents_congr {h h' : Heap} {a : Nat} (e : h'[a]? = h[a]?) :
    loadEvents h' a = loadEvents h a := by
  simp only [loadEvents, e]

theorem heap_set_same (h : Heap) (a : Nat) (o : Obj) (hl : a < h.length) :
    (h.set a o)[a]? = some o := by
  rw [List.getElem?_set]
  simp [hl]

theorem heap_set_other (h : Heap) (a b : Nat) (o : Obj) (hne : a ≠ b) :
    (h.set a o)[b]? = h[b]? := by
  rw [List.getElem?_set]
  simp [hne]

theorem list_set_self {α : Type} (l : List α) (a : Nat) (o : α) (hl : l[a]? = some o) :
    l.set a o = l := by
  apply List.ext_getElem?
  intro b
  rw [List.getElem?_set]
  by_cases hb : a = b
  · subst hb
    have hlt : a < l.length := by
      rcases Nat.lt_or_ge a l.length with hlt | hge
      · exact hlt
      · rw [List.getElem?_eq_none hge] at hl
        exact absurd hl (by simp)
    simp [hlt, hl]
  · simp [hb]

/-- Storing an event array where one lies leaves the path to it as it is. -/
theorem eventArray_set_events {h : Heap} {ea : Nat} {es : List Event} (x : List Event)
    (hE : loadEvents h ea = some es) (chunks i : Nat) :
    eventArray (h.set ea (.events x)) chunks i = eventArray h chunks i := by
  have hea := loadEvents_some hE
  have hC : ∀ b, loadChunks (h.set ea (.events x)) b = loadChunks h b := by
    intro b
    by_cases hb : ea = b
    · subst hb
      simp only [loadChunks, heap_set_same h ea _ (heap_lt hea), hea]
    · exact loadChunks_congr (heap_set_other h ea b _ hb)
  have hF : ∀ b, loadFLdt (h.set ea (.events x)) b = loadFLdt h b := by
    intro b
    by_cases hb : ea = b
    · subst hb
      simp only [loadFLdt, heap_set_same h ea _ (heap_lt hea), hea]
    · exact loadFLdt_congr (heap_set_other h ea b _ hb)
  simp only [eventArray, hC, hF]

/-- The body of the event loop stores the filtered event in the event array. -/
theorem heapFilterEvent_eq (track chunks i j : Nat) (h : Heap) (ea : Nat) (es : List Event)
    (e : Event) (hA : eventArray h chunks i = some ea) (hE : loadEvents h ea = some es)
    (hj : es[j]? = some e) :
    heapFilterEvent track chunks i j h
      = (filterEvent track e).map fun e1 => h.set ea (.events (es.set j e1)) := by
  have hea := loadEvents_some hE
  have hjl : j < es.length := by
    rcases Nat.lt_or_ge j es.length with hlt | hge
    · exact hlt
    · rw [List.getElem?_eq_none hge] at hj
      exact absurd hj (by simp)
  have hL : loadEvent h chunks i j = some e := by
    simp only [loadEvent, hA, hE, Option.bind_eq_bind, Option.some_bind, hj]
  simp only [heapFilterEvent, hL, Option.bind_eq_bind, Option.some_bind]
  by_cases ht : e.Typ = 233
  · rw [if_pos ht, filterEvent_playlist track e ht]
    cases hu : PlaylistItemsEvent.Unpack e.Bytes.Data with
    | none => rfl
    | some ev =>
      simp only [Option.map_some']
      have hS1 : ∀ e1, storeEvent h chunks i j e1 = some (h.set ea (.events (es.set j e1))) := by
        intro e1
        simp only [storeEvent, hA, hE, Option.bind_eq_bind, Option.some_bind, if_pos hjl]
      rw [hS1]
      simp only [Option.some_bind]
      have hE1 : ∀ e1, loadEvents (h.set ea (.events (es.set j e1))) ea
          = some (es.set j e1) := fun e1 =>
        loadEvents_of (heap_set_same h ea _ (heap_lt hea))
      have hL1 : ∀ e1, loadEvent (h.set ea (.events (es.set j e1))) chunks i j = some e1 := by
        intro e1
        simp only [loadEvent, eventArray_set_events _ hE, hA, hE1, Option.bind_eq_bind,
          Option.some_bind]
        rw [List.getElem?_set]
        simp [hjl]
      rw [hL1]
      simp only [Option.some_bind, storeEvent, eventArray_set_events _ hE, hA, hE1,
        Option.bind_eq_bind, List.length_set, if_pos hjl, List.set_set]
  · rw [if_neg ht, filterEvent_other track e ht]
    simp only [Option.map_some']
    rw [list_set_self es j e hj, list_set_self h ea _ hea]

/-- The event loop, started behind the events `pre` it has stored, stores the
filtered events `todo` behind them. -/
theorem heapFilterEvents_eq (track chunks i ea : Nat) : ∀ (todo pre : List Event) (h : Heap),
    eventArray h chunks i = some ea → loadEvents h ea = some (pre ++ todo) →
    heapFilterEvents track chunks i todo.length pre.length h
      = (filterEvents track todo).map fun todo1 => h.set ea (.events (pre ++ todo1))
  | [], pre, h, _, hE => by
    simp only [List.length_nil, heapFilterEvents, filterEvents, Option.map_some']
    rw [list_set_self h ea _ (loadEvents_some hE)]
  | e :: todo, pre, h, hA, hE => by
    have hj : (pre ++ e :: todo)[pre.length]? = some e := by
      rw [List.getElem?_append_right (Nat.le_refl _)]
      simp
    simp only [List.length_cons, heapFilterEvents, Option.bind_eq_bind]
    rw [heapFilterEvent_eq track chunks i pre.length h ea _ e hA hE hj]
    cases hf : filterEvent track e with
    | none => simp only [Option.map_none', Option.none_bind, filterEvents, hf,
        Option.bind_eq_bind]
    | some e1 =>
      simp only [Option.map_some', Option.some_bind]
      have hset : (pre ++ e :: todo).set pre.length e1 = (pre ++ [e1]) ++ todo := by
        rw [List.set_append_right _ _ (Nat.le_refl _)]
        simp
      rw [hset]
      have hA1 := eventArray_set_events ((pre ++ [e1]) ++ todo) hE chunks i
      rw [hA] at hA1
      have hE1 : loadEvents (h.set ea (.events ((pre ++ [e1]) ++ todo))) ea
          = some ((pre ++ [e1]) ++ todo) :=
        loadEvents_of (heap_set_same h ea _ (heap_lt (loadEvents_some hE)))
      have ih := heapFilterEvents_eq track chunks i ea todo (pre ++ [e1]) _ hA1 hE1
      rw [List.length_append, List.length_singleton] at ih
      rw [ih]
      simp only [filterEvents, hf, Option.bind_eq_bind, Option.some_bind]
      cases filterEvents track todo with
      | none => rfl
      | some t1 =>
        simp only [Option.map_some', Option.some_bind, List.set_set, List.append_assoc,
          List.singleton_append]

theorem heap_two (h : Heap) (o1 o2 : Obj) (b : Nat) :
    (h ++ [o1] ++ [o2])[b]?
      = if b < h.length then h[b]? else if b = h.length then some o1
        else if b = h.length + 1 then some o2 else none := by
  by_cases h1 : b < h.length
  · rw [if_pos h1, List.append_assoc, List.getElem?_append_left h1]
  · rw [if_neg h1, List.append_assoc, List.getElem?_append_right (by omega)]
    by_cases h2 : b = h.length
    · rw [if_pos h2, h2, Nat.sub_self]
      rfl
    · rw [if_neg h2]
      by_cases h3 : b = h.length + 1
      · rw [if_pos h3, h3, Nat.add_sub_cancel_left]
        rfl
      · rw [if_neg h3]
        apply List.getElem?_eq_none
        simp only [List.singleton_append, List.length_cons, List.length_nil]
        omega

/-- The body of the chunk loop leaves a chunk without FLdt pointer and the heap
as they are. -/
theorem heapFilterChunk_other (track a i : Nat) (h : Heap) (cs : List ChunkCell)
    (c : ChunkCell) (hC : loadChunks h a = some cs) (hi : cs[i]? = some c)
    (hf : c.FLdt = none) : heapFilterChunk track a i h = some h := by
  simp only [heapFilterChunk, hC, hi, hf, Option.bind_eq_bind, Option.some_bind]

/-- The body of the chunk loop on a chunk with an FLdt pointer: two new objects
at the end of the heap, the filtered event array and the `ChunkFLdt` that points
to it, and a store into the chunk array `a`; nothing else changes. -/
theorem heapFilterChunk_FLdt (track a i : Nat) (h : Heap) (cs : List ChunkCell)
    (c : ChunkCell) (f ev : Nat) (es : List Event)
    (hC : loadChunks h a = some cs) (hi : cs[i]? = some c) (hf : c.FLdt = some f)
    (hF : loadFLdt h f = some ev) (hE : loadEvents h ev = some es) :
    heapFilterChunk track a i h
      = (filterEvents track es).map fun es1 =>
          (h ++ [Obj.events es1] ++ [Obj.fldt h.length]).set a
            (.chunks (cs.set i
              { c with
                FLdt := some (h.length + 1),
                Len := ((Chunk.SizeOf ⟨c.Typ, c.Len, ⟨c.FLhd, some ⟨es1⟩, c.Unknown⟩⟩)
                  % 2 ^ 32 + 2 ^ 32 - 8) % 2 ^ 32 })) := by
  have hla : a < h.length := heap_lt (loadChunks_some hC)
  have hil : i < cs.length := by
    rcases Nat.lt_or_ge i cs.length with hlt | hge
    · exact hlt
    · rw [List.getElem?_eq_none hge] at hi
      exact absurd hi (by simp)
  have hC2 : loadChunks (h ++ [.events es] ++ [.fldt h.length]) a = some cs := by
    apply loadChunks_of
    rw [heap_two, if_pos hla]
    exact loadChunks_some hC
  have hlen2 : (h ++ [Obj.events es] ++ [Obj.fldt h.length]).length = h.length + 2 := by
    simp
  -- the heap after `p.Chunks[i].Data.FLdt = &fldt`
  have h3a : ∀ x, ((h ++ [Obj.events es] ++ [Obj.fldt h.length]).set a x)[a]? = some x :=
    fun x => heap_set_same _ a x (by omega)
  have h3o : ∀ x b, a ≠ b →
      ((h ++ [Obj.events es] ++ [Obj.fldt h.length]).set a x)[b]?
        = (h ++ [Obj.events es] ++ [Obj.fldt h.length])[b]? :=
    fun x b hb => heap_set_other _ a b x hb
  have hA3 : ∀ c1 : ChunkCell, c1.FLdt = some (h.length + 1) →
      eventArray ((h ++ [Obj.events es] ++ [Obj.fldt h.length]).set a
        (.chunks (cs.set i c1))) a i = some h.length := by
    intro c1 hc1
    have e1 : (cs.set i c1)[i]? = some c1 := by
      rw [List.getElem?_set]; simp [hil]
    simp only [eventArray, loadChunks_of (h3a _), Option.bind_eq_bind, Option.some_bind, e1,
      hc1]
    apply loadFLdt_of
    rw [h3o _ _ (by omega), heap_two, if_neg (by omega), if_neg (by omega), if_pos rfl]
  have hE3 : ∀ x, loadEvents ((h ++ [Obj.events es] ++ [Obj.fldt h.length]).set a x) h.length
      = some es := by
    intro x
    apply loadEvents_of
    rw [h3o _ _ (by omega), heap_two, if_neg (by omega), if_pos rfl]
  simp only [heapFilterChunk, hC, hi, hf, hF, hE, Option.bind_eq_bind, Option.some_bind,
    List.length_append, List.length_singleton, storeChunk, hC2, if_pos hil]
  have hloop := heapFilterEvents_eq track a i h.length es []
    ((h ++ [Obj.events es] ++ [Obj.fldt h.length]).set a
      (.chunks (cs.set i { c with FLdt := some (h.length + 1) })))
    (hA3 _ rfl) (hE3 _)
  simp only [List.length_nil, List.nil_append] at hloop
  rw [hloop]
  cases filterEvents track es with
  | none => rfl
  | some es1 =>
    simp only [Option.map_some', Option.some_bind]
    have hla3 : a < ((h ++ [Obj.events es] ++ [Obj.fldt h.length]).set a
        (.chunks (cs.set i { c with FLdt := some (h.length + 1) }))).length := by
      rw [List.length_set]; omega
    have hC4 : loadChunks (((h ++ [Obj.events es] ++ [Obj.fldt h.length]).set a
        (.chunks (cs.set i { c with FLdt := some (h.length + 1) }))).set h.length
          (.events es1)) a = some (cs.set i { c with FLdt := some (h.length + 1) }) := by
      apply loadChunks_of
      rw [heap_set_other _ _ _ _ (by omega)]
      exact h3a _
    have hF4 : loadFLdt (((h ++ [Obj.events es] ++ [Obj.fldt h.length]).set a
        (.chunks (cs.set i { c with FLdt := some (h.length + 1) }))).set h.length
          (.events es1)) (h.length + 1) = some h.length := by
      apply loadFLdt_of
      rw [heap_set_other _ _ _ _ (by omega), h3o _ _ (by omega), heap_two,
        if_neg (by omega), if_neg (by omega), if_pos rfl]
    have hE4 : loadEvents (((h ++ [Obj.events es] ++ [Obj.fldt h.length]).set a
        (.chunks (cs.set i { c with FLdt := some (h.length + 1) }))).set h.length
          (.events es1)) h.length = some es1 := by
      apply loadEvents_of
      apply heap_set_same
      rw [List.length_set]; omega
    have e1 : (cs.set i { c with FLdt := some (h.length + 1) })[i]?
        = some { c with FLdt := some (h.length + 1) } := by
      rw [List.getElem?_set]; simp [hil]
    simp only [hC4, Option.some_bind, e1, readChunk, hF4, hE4, Option.bind_eq_bind,
      List.length_set, if_pos hil, List.set_set, Option.some.injEq]
    apply List.ext_getElem?
    intro b
    simp only [List.getElem?_set, heap_two, List.length_set, List.length_append,
      List.length_singleton]
    by_cases hb1 : a = b
    · subst hb1
      simp only [if_true]
    · by_cases hb2 : h.length = b
      · subst hb2
        simp only [if_neg hb1, if_true]
        rw [if_pos (by omega), if_neg (by omega)]
      · simp only [if_neg hb1, if_neg hb2, if_neg (Ne.symm hb2)]

/-- A chunk read off a heap reads the same off a heap that agrees with it at
every old address but that of a chunk array. -/
theorem readChunk_frame {h h1 : Heap} {a : Nat} {cs : List ChunkCell}
    (hC : loadChunks h a = some cs)
    (hfr : ∀ x, x < h.length → x ≠ a → h1[x]? = h[x]?) {c : ChunkCell} {ch : Chunk}
    (hr : readChunk h c = some ch) : readChunk h1 c = some ch := by
  have hca := loadChunks_some hC
  cases hf : c.FLdt with
  | none =>
    simp only [readChunk, hf] at hr ⊢
    exact hr
  | some f =>
    simp only [readChunk, hf, Option.bind_eq_bind, Option.bind_eq_some] at hr ⊢
    obtain ⟨ev, hev, es, hes, hch⟩ := hr
    have h1f := loadFLdt_some hev
    have h1e := loadEvents_some hes
    have hfa : f ≠ a := by
      intro e
      rw [e, hca] at h1f
      exact absurd h1f (by simp)
    have hea : ev ≠ a := by
      intro e
      rw [e, hca] at h1e
      exact absurd h1e (by simp)
    refine ⟨ev, ?_, es, ?_, hch⟩
    · rw [loadFLdt_congr (hfr f (heap_lt h1f) hfa)]
      exact hev
    · rw [loadEvents_congr (hfr ev (heap_lt h1e) hea)]
      exact hes

theorem readChunks_frame {h h1 : Heap} {a : Nat} {cs : List ChunkCell}
    (hC : loadChunks h a = some cs)
    (hfr : ∀ x, x < h.length → x ≠ a → h1[x]? = h[x]?) :
    ∀ (cells : List ChunkCell) (chs : List Chunk), readChunks h cells = some chs →
      readChunks h1 cells = some chs
  | [], chs, hr => by
    simp only [readChunks] at hr ⊢
    exact hr
  | c :: cells, chs, hr => by
    simp only [readChunks, Option.bind_eq_bind, Option.bind_eq_some] at hr ⊢
    obtain ⟨c1, hc1, cs1, hcs1, h3⟩ := hr
    exact ⟨c1, readChunk_frame hC hfr hc1, cs1, readChunks_frame hC hfr cells cs1 hcs1, h3⟩

/-- One round of the chunk loop against one step of the filter: both stop, or
the round stores a cell that reads as the filtered chunk and changes no old
object but the chunk array `a`. -/
theorem heapFilterChunk_step (track a : Nat) (h : Heap) (pre rest : List ChunkCell)
    (c : ChunkCell) (ch : Chunk) (hC : loadChunks h a = some (pre ++ c :: rest))
    (hr : readChunk h c = some ch) :
    (heapFilterChunk track a pre.length h = none ∧ filterChunk track ch = none)
      ∨ ∃ h1 c1 ch1, heapFilterChunk track a pre.length h = some h1
          ∧ filterChunk track ch = some ch1
          ∧ loadChunks h1 a = some (pre ++ c1 :: rest) ∧ readChunk h1 c1 = some ch1
          ∧ h.length ≤ h1.length ∧ ∀ x, x < h.length → x ≠ a → h1[x]? = h[x]? := by
  have hi : (pre ++ c :: rest)[pre.length]? = some c := by
    rw [List.getElem?_append_right (Nat.le_refl _)]
    simp
  have hla : a < h.length := heap_lt (loadChunks_some hC)
  cases hf : c.FLdt with
  | none =>
    right
    have hch : ch = ⟨c.Typ, c.Len, ⟨c.FLhd, none, c.Unknown⟩⟩ := by
      simp only [readChunk, hf, Option.some.injEq] at hr
      exact hr.symm
    refine ⟨h, c, ch, heapFilterChunk_other track a _ h _ c hC hi hf, ?_, hC, hr,
      Nat.le_refl _, fun _ _ _ => rfl⟩
    apply filterChunk_other
    rw [hch]
  | some f =>
    simp only [readChunk, hf, Option.bind_eq_bind, Option.bind_eq_some] at hr
    obtain ⟨ev, hev, es, hes, hch⟩ := hr
    simp only [Option.some.injEq] at hch
    subst hch
    rw [heapFilterChunk_FLdt track a _ h _ c f ev es hC hi hf hev hes,
      filterChunk_FLdt track _ ⟨es⟩ rfl]
    cases filterEvents track es with
    | none => left; exact ⟨rfl, rfl⟩
    | some es1 =>
      right
      simp only [Option.map_some']
      refine ⟨_, { c with
          FLdt := some (h.length + 1),
          Len := ((Chunk.SizeOf ⟨c.Typ, c.Len, ⟨c.FLhd, some ⟨es1⟩, c.Unknown⟩⟩)
            % 2 ^ 32 + 2 ^ 32 - 8) % 2 ^ 32 }, _, rfl, rfl, ?_, ?_, ?_, ?_⟩
      · apply loadChunks_of
        rw [heap_set_same _ _ _ (by simp; omega)]
        congr 2
        rw [List.set_append_right _ _ (Nat.le_refl _)]
        simp
      · have e1 : loadFLdt ((h ++ [Obj.events es1] ++ [Obj.fldt h.length]).set a
            (.chunks ((pre ++ c :: rest).set pre.length
              { c with
                FLdt := some (h.length + 1),
                Len := ((Chunk.SizeOf ⟨c.Typ, c.Len, ⟨c.FLhd, some ⟨es1⟩, c.Unknown⟩⟩)
                  % 2 ^ 32 + 2 ^ 32 - 8) % 2 ^ 32 }))) (h.length + 1) = some h.length := by
          apply loadFLdt_of
          rw [heap_set_other _ _ _ _ (by omega), heap_two, if_neg (by omega),
            if_neg (by omega), if_pos rfl]
        have e2 : loadEvents ((h ++ [Obj.events es1] ++ [Obj.fldt h.length]).set a
            (.chunks ((pre ++ c :: rest).set pre.length
              { c with
                FLdt := some (h.length + 1),
                Len := ((Chunk.SizeOf ⟨c.Typ, c.Len, ⟨c.FLhd, some ⟨es1⟩, c.Unknown⟩⟩)
                  % 2 ^ 32 + 2 ^ 32 - 8) % 2 ^ 32 }))) h.length = some es1 := by
          apply loadEvents_of
          rw [heap_set_other _ _ _ _ (by omega), heap_two, if_neg (by omega), if_pos rfl]
        simp only [readChunk, e1, e2, Option.bind_eq_bind, Option.some_bind]
      · simp only [List.length_set, List.length_append, List.length_singleton]
        omega
      · intro x hx hxa
        rw [heap_set_other _ _ _ _ (Ne.symm hxa), heap_two, if_pos hx]

/-- The chunk loop against the filter: both stop, or the loop leaves a chunk
array that reads as the filtered chunks and changes no old object but the chunk
array `a`. -/
theorem heapFilterChunks_inv (track a : Nat) : ∀ (todo pre : List ChunkCell) (h : Heap)
    (chs : List Chunk), loadChunks h a = some (pre ++ todo) → readChunks h todo = some chs →
    (heapFilterChunks track a todo.length pre.length h = none ∧ filterChunks track chs = none)
      ∨ ∃ h1 post q, heapFilterChunks track a todo.length pre.length h = some h1
          ∧ filterChunks track chs = some q
          ∧ loadChunks h1 a = some (pre ++ post) ∧ readChunks h1 post = some q
          ∧ h.length ≤ h1.length ∧ ∀ x, x < h.length → x ≠ a → h1[x]? = h[x]?
  | [], pre, h, chs, hC, hr => by
    right
    simp only [readChunks, Option.some.injEq] at hr
    subst hr
    exact ⟨h, [], [], rfl, rfl, hC, rfl, Nat.le_refl _, fun _ _ _ => rfl⟩
  | c :: rest, pre, h, chs, hC, hr => by
    simp only [readChunks, Option.bind_eq_bind, Option.bind_eq_some] at hr
    obtain ⟨ch, hch, chs1, hrest, hchs⟩ := hr
    simp only [Option.some.injEq] at hchs
    subst hchs
    rcases heapFilterChunk_step track a h pre rest c ch hC hch with
      ⟨hn, hfn⟩ | ⟨h1, c1, ch1, hs, hfc, hC1, hr1, hle, hfr⟩
    · left
      simp only [List.length_cons, heapFilterChunks, hn, filterChunks, hfn, Option.bind_eq_bind,
        Option.none_bind, and_self]
    · have hC1a : loadChunks h1 a = some ((pre ++ [c1]) ++ rest) := by
        rw [hC1, List.append_assoc, List.singleton_append]
      have hrest1 := readChunks_frame hC hfr rest chs1 hrest
      have ih := heapFilterChunks_inv track a rest (pre ++ [c1]) h1 chs1 hC1a hrest1
      rw [List.length_append, List.length_singleton] at ih
      rcases ih with ⟨hn, hfn⟩ | ⟨h2, post, q, hs2, hfq, hC2, hr2, hle2, hfr2⟩
      · left
        simp only [List.length_cons, heapFilterChunks, hs, hn, filterChunks, hfc, hfn,
          Option.bind_eq_bind, Option.some_bind, Option.none_bind, and_self]
      · right
        refine ⟨h2, c1 :: post, ch1 :: q, ?_, ?_, ?_, ?_, by omega, ?_⟩
        · simp only [List.length_cons, heapFilterChunks, hs, hs2, Option.bind_eq_bind,
            Option.some_bind]
        · simp only [filterChunks, hfc, hfq, Option.bind_eq_bind, Option.some_bind]
        · rw [hC2, List.append_assoc, List.singleton_append]
        · simp only [readChunks, readChunk_frame hC1 hfr2 hr1, hr2, Option.bind_eq_bind,
            Option.some_bind]
        · intro x hx hxa
          rw [hfr2 x (by omega) hxa, hfr x hx hxa]

/-- Lines 160-212 on the heap against the filter on values: both stop, or the
callee's project reads as the filtered project, every object of the old heap is
as it was and the caller's project reads as before. -/
theorem heapFilterProject_spec (h0 : Heap) (base track : Nat) (P : Project)
    (hP : readProject h0 base = some P) :
    (heapFilterProject h0 base track = none ∧ filterProject P track = none)
      ∨ ∃ h1 q, heapFilterProject h0 base track = some (h1, h0.length)
          ∧ filterProject P track = some q ∧ readProject h1 h0.length = some q
          ∧ (∀ x, x < h0.length → h1[x]? = h0[x]?) ∧ readProject h1 base = some P := by
  simp only [readProject, Option.bind_eq_bind, Option.bind_eq_some] at hP
  obtain ⟨cs, hcs, chs, hchs, hPe⟩ := hP
  simp only [Option.some.injEq] at hPe
  subst hPe
  have hlb : base < h0.length := heap_lt (loadChunks_some hcs)
  have hfr0 : ∀ x, x < h0.length → (h0 ++ [Obj.chunks cs])[x]? = h0[x]? :=
    fun x hx => List.getElem?_append_left hx
  have hCa : loadChunks (h0 ++ [Obj.chunks cs]) h0.length = some ([] ++ cs) := by
    apply loadChunks_of
    rw [List.getElem?_append_right (Nat.le_refl _)]
    simp
  have hchs1 : readChunks (h0 ++ [Obj.chunks cs]) cs = some chs :=
    readChunks_frame hcs (fun x hx _ => hfr0 x hx) cs chs hchs
  rcases heapFilterChunks_inv track h0.length cs [] (h0 ++ [Obj.chunks cs]) chs hCa hchs1 with
    ⟨hn, hfn⟩ | ⟨h1, post, q, hs, hfq, hC1, hr1, hle, hfr⟩
  · left
    simp only [List.length_nil] at hn
    simp only [heapFilterProject, hcs, hn, filterProject, hfn, Option.bind_eq_bind,
      Option.some_bind, Option.none_bind, Option.map_none', and_self]
  · right
    simp only [List.length_nil] at hs
    simp only [List.nil_append] at hC1
    have hfr1 : ∀ x, x < h0.length → h1[x]? = h0[x]? := by
      intro x hx
      rw [hfr x (by simp; omega) (by omega), hfr0 x hx]
    refine ⟨h1, ⟨q⟩, ?_, ?_, ?_, hfr1, ?_⟩
    · simp only [heapFilterProject, hcs, hs, Option.bind_eq_bind, Option.some_bind]
    · simp only [filterProject, hfq, Option.map_some']
    · simp only [readProject, hC1, hr1, Option.bind_eq_bind, Option.some_bind]
    · have hcs1 : loadChunks h1 base = some cs := by
        rw [loadChunks_congr (hfr1 base hlb)]
        exact hcs
      simp only [readProject, hcs1, Option.bind_eq_bind, Option.some_bind,
        readChunks_frame hcs (fun x hx _ => hfr1 x hx) cs chs hchs]

/-- The heap version of `filterwrite` writes the bytes of the version on values. -/
theorem heapFilterwrite_bytes (h0 : Heap) (base track : Nat) (P : Project)
    (hP : readProject h0 base = some P) :
    (heapFilterwrite h0 base track).map Prod.snd = filterwrite P track := by
  rcases heapFilterProject_spec h0 base track P hP with
    ⟨hn, hfn⟩ | ⟨h1, q, hs, hfq, hrq, -, -⟩
  · simp only [heapFilterwrite, hn, filterwrite, hfn, Option.bind_eq_bind, Option.none_bind,
      Option.map_none']
  · simp only [heapFilterwrite, hs, filterwrite, hfq, hrq, Option.bind_eq_bind,
      Option.some_bind]
    cases q.Pack <;> rfl

/-- C17: on a heap `h0` in which the caller's project, the one whose `Chunks`
slice is at `base`, reads as `P`, a call `filterwrite(p, t)` writes the bytes
the filter on values gives for `P`, and when it returns every object of `h0` is
what it was (the chunk array with every `Len`, every `ChunkFLdt`, every event
array with every `Len.Value` and `Data`: `h0` is a prefix of the new heap), so
the caller's project still reads as `P`; a second call on the same base, for any
track, writes the bytes it writes when called alone; and packing the base
afterwards gives the bytes it gave before. -/
theorem filterwrite_leaves_base (h0 : Heap) (base : Nat) (P : Project)
    (hP : readProject h0 base = some P) (t : Nat) :
    (heapFilterwrite h0 base t).map Prod.snd = filterwrite P t
      ∧ ∀ h1 out, heapFilterwrite h0 base t = some (h1, out) →
          (∀ x, x < h0.length → h1[x]? = h0[x]?)
            ∧ h1.take h0.length = h0
            ∧ readProject h1 base = some P
            ∧ (∀ t2, (heapFilterwrite h1 base t2).map Prod.snd
                = (heapFilterwrite h0 base t2).map Prod.snd)
            ∧ (readProject h1 base).bind Project.Pack
                = (readProject h0 base).bind Project.Pack := by
  refine ⟨heapFilterwrite_bytes h0 base t P hP, ?_⟩
  intro h1 out hw
  rcases heapFilterProject_spec h0 base t P hP with
    ⟨hn, -⟩ | ⟨h2, q, hs, -, -, hfr, hrb⟩
  · simp only [heapFilterwrite, hn, Option.bind_eq_bind, Option.none_bind] at hw
    exact absurd hw (by simp)
  · simp only [heapFilterwrite, hs, Option.bind_eq_bind, Option.some_bind,
      Option.bind_eq_some, Option.some.injEq, Prod.mk.injEq] at hw
    obtain ⟨q1, -, o1, -, hh, -⟩ := hw
    subst hh
    refine ⟨hfr, ?_, hrb, ?_, ?_⟩
    · apply List.ext_getElem?
      intro x
      rw [List.getElem?_take]
      by_cases hx : x < h0.length
      · rw [if_pos hx, hfr x hx]
      · rw [if_neg hx, List.getElem?_eq_none (by omega)]
    · intro t2
      rw [heapFilterwrite_bytes h2 base t2 P hrb, heapFilterwrite_bytes h0 base t2 P hP]
    · rw [hrb, hP]

set_option maxRecDepth 1000000 in
theorem filterwrite_leaves_base_witness :
    readProject exampleHeap 2 = some exampleProject
      ∧ (heapFilterwrite exampleHeap 2 (rawTrack 490)).map Prod.snd
          = filterwrite exampleProject (rawTrack 490)
      ∧ ((heapFilterwrite exampleHeap 2 (rawTrack 490)).bind fun r =>
            (heapFilterwrite r.1 2 (rawTrack 480)).map Prod.snd)
          = filterwrite exampleProject (rawTrack 480)
      ∧ (heapFilterwrite exampleHeap 2 (rawTrack 490)).map (fun r => (r.1.take 3, r.1.length))
          = some (exampleHeap, 6) :=
  ⟨by decide,
    (filterwrite_leaves_base exampleHeap 2 exampleProject (by decide) (rawTrack 490)).1,
    by decide, by decide⟩

end FLSplit
